import Mathlib

/-!
# rogue: stream endpoints, file replay, memory interface and EPICS server

A shallow embedding of the PGP card endpoint (`PgpCard.cpp`), of the legacy file
reader (`LegacyStreamReader.cpp`), of the memory Master, Slave and Variable
(`Master.cpp`, `Slave.cpp`, `Variable.cpp`) and of the worker pool of the EPICS
server (`epicsV3/Server.cpp`), followed by the properties proved about them.

Conventions of the embedding.

* `uint32_t` values are natural numbers; where the source can wrap, the
  arithmetic is written with an explicit `% 2 ^ 32`.
* `int32_t` return values of kernel calls are integers.
* The kernel driver is an environment: each function that talks to it takes the
  list of values the driver returns to its successive calls.  When that list is
  used up the run is cut at that point (`Status.pending`): the calls recorded
  up to there are the calls the code has made.
* `(float)n` of a 32-bit unsigned `n` is the nearest value with a 24-bit
  significand, ties to even (`Variable.floatOfUInt`); the divisions by `8.0`
  that follow are done in `double`, where they are exact for these values.
* Threads are step machines; an interleaving is a list of scheduling choices
  among the threads that can take a step (`EpicsV3.run`).
-/

namespace Rogue

/-! ## Stream data model -/

/-- Modelled from the spec: a stream Buffer (Buffer.h is not part of the
sources at hand).  It carries the origin tag `meta`, the capacity `rawSize`,
the current size (`setSize` / `getCount`) and the error code. -/
structure Buffer where
  meta : Nat
  rawSize : Nat
  size : Nat
  error : Nat
deriving DecidableEq, Repr

/-- Modelled from the spec: a stream Frame (Frame.h is not part of the sources
at hand): the ordered list of its buffers, the error bits and the channel.  A
frame owns its buffers exclusively, so no buffer occurs twice in the list.  The
zero-copy disposition flag of a frame is not modelled. -/
structure Frame where
  buffers : List Buffer
  error : Nat
  channel : Nat
deriving DecidableEq, Repr

/-- Modelled from the spec: `createFrame(0,0,..)`, the empty frame: no buffer,
no error bit. -/
def Frame.empty : Frame := { buffers := [], error := 0, channel := 0 }

/-- Modelled from the spec: `Frame::appendBuffer` puts the buffer at the end of
the ordered buffer list. -/
def Frame.appendBuffer (f : Frame) (b : Buffer) : Frame :=
  { f with buffers := f.buffers ++ [b] }

/-- Modelled from the spec: `Frame::setError`. -/
def Frame.setError (f : Frame) (e : Nat) : Frame := { f with error := e }

/-- Exceptions thrown by the endpoint. -/
inductive Error where
  | general
  | timeout (budget : Nat)
deriving DecidableEq, Repr

/-- How a run of a function that talks to the driver ends: it returned, it
threw, or the list of driver responses was used up while it was still
running. -/
inductive Status where
  | returned
  | raised (e : Error)
  | pending
deriving DecidableEq, Repr

/-! ## PgpCard -/

/-- The members of `rhp::PgpCard` the embedded functions read. `mapped` is
`rawBuff_ != NULL`. -/
structure PgpCard where
  fd : Int
  lane : Nat
  vc : Nat
  timeout : Nat
  mapped : Bool
  bSize : Nat
deriving DecidableEq, Repr

namespace PgpCard

/-- The mask the constructor computes: `mask = (1 << ((lane_*4) + vc_))`, with
`lane_` and `vc_` 32-bit unsigned and the result stored in 32 bits. -/
def mask (lane vc : Nat) : Nat :=
  (1 <<< (((lane * 4) % 2 ^ 32 + vc) % 2 ^ 32)) % 2 ^ 32

/-- What `retBuffer` does with a buffer, in program order. -/
inductive RetAction where
  | pgpRetIndex (fd : Int) (index : Nat)
  | deleteBuffer (rawSize : Nat)
  | slaveRetBuffer (meta rawSize : Nat)
deriving DecidableEq, Repr

/-- `rhp::PgpCard::retBuffer(data, meta, rawSize)`: the actions it takes. -/
def retBuffer (c : PgpCard) (meta rawSize : Nat) : List RetAction :=
  if meta &&& 0x80000000 ≠ 0 then
    (if c.fd ≥ 0 ∧ meta &&& 0x40000000 = 0 then
       [RetAction.pgpRetIndex c.fd (meta &&& 0x3FFFFFFF)]
     else []) ++ [RetAction.deleteBuffer rawSize]
  else [RetAction.slaveRetBuffer meta rawSize]

/-- The page indices handed to the kernel return-index operation. -/
def kernelReturns : List RetAction → List Nat
  | [] => []
  | RetAction.pgpRetIndex _ i :: rest => i :: kernelReturns rest
  | _ :: rest => kernelReturns rest

/-- A write call to the driver. -/
inductive DriverWrite where
  | pgpWriteIndex (index count lane vc cont : Nat)
  | pgpWrite (count lane vc cont : Nat)
deriving DecidableEq, Repr

/-- The continue flag carried by a write call. -/
def DriverWrite.cont : DriverWrite → Nat
  | DriverWrite.pgpWriteIndex _ _ _ _ k => k
  | DriverWrite.pgpWrite _ _ _ k => k

/-- The copy-write retry loop of `acceptFrame` (the `do ... while (res == 0)`
of the non-zero-copy branch).  The driver list gives, per attempt, the value of
`select` and then the value of `pgpWrite`.  Result: how the loop ended, how many
`pgpWrite` calls it made, and the driver responses left. -/
def copyWrite (c : PgpCard) : List Int → Status × Nat × List Int
  | [] => (Status.pending, 0, [])
  | sel :: rest =>
    if sel = 0 then (Status.raised (Error.timeout c.timeout), 0, rest)
    else
      match rest with
      | [] => (Status.pending, 0, [])
      | res :: rest2 =>
        if res < 0 then (Status.raised Error.general, 1, rest2)
        else if res = 0 then
          let r := copyWrite c rest2
          (r.1, r.2.1 + 1, r.2.2)
        else (Status.returned, 1, rest2)

/-- Outcome of `acceptFrame`: how it ended, the buffers of the frame afterwards
and the driver write calls made, each with the loop index `x` of the buffer it
was made for. -/
structure AcceptFrameRun where
  status : Status
  buffers : List Buffer
  calls : List (Nat × DriverWrite)
deriving DecidableEq, Repr

/-- The `for (x = 0; x < frame->getCount(); x++)` loop of `acceptFrame`, from
index `x` on; `n` is `frame->getCount()` and the list holds buffers `x ..`. -/
def acceptFrameFrom (c : PgpCard) (n : Nat) :
    Nat → List Buffer → List Int → AcceptFrameRun
  | _, [], _ => { status := Status.returned, buffers := [], calls := [] }
  | x, b :: bs, drv =>
    let cont : Nat := if x = n - 1 then 0 else 1
    if b.meta &&& 0x80000000 ≠ 0 then
      if b.meta &&& 0x40000000 = 0 then
        match drv with
        | [] => { status := Status.pending, buffers := b :: bs, calls := [] }
        | res :: drv2 =>
          let call := (x, DriverWrite.pgpWriteIndex (b.meta &&& 0x3FFFFFFF) b.size c.lane c.vc cont)
          if res ≤ 0 then
            { status := Status.raised Error.general, buffers := b :: bs, calls := [call] }
          else
            let r := acceptFrameFrom c n (x + 1) bs drv2
            { status := r.status
              buffers := { b with meta := b.meta ||| 0x40000000 } :: r.buffers
              calls := call :: r.calls }
      else
        let r := acceptFrameFrom c n (x + 1) bs drv
        { status := r.status, buffers := b :: r.buffers, calls := r.calls }
    else
      let w := copyWrite c drv
      let made := List.replicate w.2.1 (x, DriverWrite.pgpWrite b.size c.lane c.vc cont)
      match w.1 with
      | Status.returned =>
        let r := acceptFrameFrom c n (x + 1) bs w.2.2
        { status := r.status, buffers := b :: r.buffers, calls := made ++ r.calls }
      | st => { status := st, buffers := b :: bs, calls := made }

/-- `rhp::PgpCard::acceptFrame(frame)` against the driver responses `drv`. -/
def acceptFrame (c : PgpCard) (frame : Frame) (drv : List Int) : AcceptFrameRun :=
  acceptFrameFrom c frame.buffers.length 0 frame.buffers drv

/-- Modelled from the spec: the base Slave helper `createBuffer(data, meta,
rawSize)` (the stream Slave is not part of the sources at hand): a fresh buffer
with the given origin tag and capacity, no payload and no error. -/
def createBuffer (meta rawSize : Nat) : Buffer :=
  { meta := meta, rawSize := rawSize, size := 0, error := 0 }

/-- Modelled from the spec: the base Slave helper `allocBuffer(size)` (the
stream Slave is not part of the sources at hand): a fresh heap-owned buffer,
origin tag without the zero-copy bit. -/
def allocBuffer (size : Nat) : Buffer :=
  { meta := 0, rawSize := size, size := 0, error := 0 }

/-- One pass of the reader loop of `runThread`: the value of `select` and, for
the read call made when it is positive, its return value `res` and its
out-parameters (`meta` is the page index of `pgpReadIndex`). -/
structure ReadEvent where
  sel : Int
  res : Int
  meta : Nat
  error : Nat
  cont : Nat
deriving DecidableEq, Repr

/-- State of the reader task: the frame being filled and the frames passed to
`sendFrame` so far, oldest first. -/
structure ReaderState where
  frame : Frame
  sent : List Frame
deriving DecidableEq, Repr

/-- The buffer `runThread` builds for a successful read: allocated from the heap
when no pages are mapped, wrapping page `meta` with bit 31 set otherwise, then
`setSize(res)` and `setError(error)`. -/
def readBuffer (c : PgpCard) (e : ReadEvent) : Buffer :=
  let buff := if c.mapped then createBuffer (0x80000000 ||| e.meta) c.bSize
              else allocBuffer c.bSize
  { buff with size := e.res.toNat, error := e.error }

/-- The body of `if ( res > 0 )` up to `appendBuffer`: the error of the read is
OR-ed into the frame error and the buffer is appended. -/
def appendRead (c : PgpCard) (frame : Frame) (e : ReadEvent) : Frame :=
  (frame.setError (e.error ||| frame.error)).appendBuffer (readBuffer c e)

/-- One pass of the `while(1)` loop of `runThread`. -/
def runThreadStep (c : PgpCard) (s : ReaderState) (e : ReadEvent) : ReaderState :=
  if 0 < e.sel then
    if 0 < e.res then
      if e.cont = 0 then { frame := Frame.empty, sent := s.sent ++ [appendRead c s.frame e] }
      else { frame := appendRead c s.frame e, sent := s.sent }
    else s
  else s

/-- `rhp::PgpCard::runThread`: the reader task, started on a preallocated empty
frame, after the given passes of its loop. -/
def runThread (c : PgpCard) (events : List ReadEvent) : ReaderState :=
  events.foldl (runThreadStep c) { frame := Frame.empty, sent := [] }

/-- The passes in which a buffer was read: `select` fired and the read call
returned a positive size. -/
def successfulReads (events : List ReadEvent) : List ReadEvent :=
  events.filter (fun e => decide (0 < e.sel) && decide (0 < e.res))

/-- Specification of the dispatch rule, in the words of the spec: the reads are
cut after every read whose continue flag is clear; each piece is one dispatched
frame, and the reads after the last such read are held back.  Result: the
dispatched groups in order, and the reads held back. -/
def framesOfReads : List ReadEvent → List (List ReadEvent) × List ReadEvent
  | [] => ([], [])
  | e :: es =>
    let r := framesOfReads es
    if e.cont = 0 then ([e] :: r.1, r.2)
    else
      match r.1 with
      | [] => ([], e :: r.2)
      | g :: gs => ((e :: g) :: gs, r.2)

/-- Bitwise OR of the kernel-reported error values of a list of reads. -/
def orReadErrors (g : List ReadEvent) : Nat :=
  g.foldl (fun acc e => acc ||| e.error) 0

/-- Bitwise OR of the error codes of a list of buffers. -/
def orBufferErrors (bs : List Buffer) : Nat :=
  bs.foldl (fun acc b => acc ||| b.error) 0

/-- How `acceptReq` ends: with a frame, with an exception, or still waiting
when the driver responses are used up. -/
inductive ReqOutcome where
  | frame (f : Frame)
  | raised (e : Error)
  | pending
deriving DecidableEq, Repr

/-- Outcome of `acceptReq` and the values `select` returned to it, in order. -/
structure AcceptReqRun where
  outcome : ReqOutcome
  waits : List Int
deriving DecidableEq, Repr

/-- The allocation loop of `acceptReq`, `while ( alloc < size )` around the
`do ... while (res < 0)` retry.  Each driver entry is one attempt: the value of
`select` and the value of `pgpGetIndex`.  A failed `pgpGetIndex` leaves `alloc`
unchanged, so the retry re-enters at the same loop head. -/
def acceptReqLoop (c : PgpCard) (size : Nat) :
    Nat → Frame → List (Int × Int) → AcceptReqRun
  | alloc, frame, [] =>
    if alloc < size then { outcome := ReqOutcome.pending, waits := [] }
    else { outcome := ReqOutcome.frame frame, waits := [] }
  | alloc, frame, (sel, res) :: rest =>
    if alloc < size then
      if sel = 0 then
        { outcome := ReqOutcome.raised (Error.timeout c.timeout), waits := [sel] }
      else if res < 0 then
        let r := acceptReqLoop c size alloc frame rest
        { outcome := r.outcome, waits := sel :: r.waits }
      else
        let buff := createBuffer (0x80000000 ||| res.toNat) c.bSize
        let r := acceptReqLoop c size ((alloc + c.bSize) % 2 ^ 32) (frame.appendBuffer buff) rest
        { outcome := r.outcome, waits := sel :: r.waits }
    else { outcome := ReqOutcome.frame frame, waits := [] }

/-- `rhp::PgpCard::acceptReq(size, zeroCopyEn)`.  `heapFrame size bSize` stands
for the frame the base Slave returns for `createFrame(size,bSize_,true,false)`
(the stream Slave is not part of the sources at hand). -/
def acceptReq (c : PgpCard) (heapFrame : Nat → Nat → Frame) (size : Nat) (zeroCopyEn : Bool)
    (drv : List (Int × Int)) : AcceptReqRun :=
  if zeroCopyEn = false ∨ c.mapped = false then
    { outcome := ReqOutcome.frame (heapFrame size c.bSize), waits := [] }
  else acceptReqLoop c size 0 Frame.empty drv

/-- The page indices `pgpGetIndex` hands out (its non-negative return values),
in order. -/
def grantedIndices : List (Int × Int) → List Nat
  | [] => []
  | (_, res) :: rest =>
    if res < 0 then grantedIndices rest else res.toNat :: grantedIndices rest

/-- The frame `acceptReq` builds from the first `n` page indices handed out. -/
def zeroCopyFrame (c : PgpCard) (n : Nat) (drv : List (Int × Int)) : Frame :=
  { buffers := ((grantedIndices drv).take n).map (fun i => createBuffer (0x80000000 ||| i) c.bSize)
    error := 0, channel := 0 }

/-- Driver answers to four attempts of `acceptReq`: a failed `pgpGetIndex`, page
7, page 3 after a `select` error, page 9. -/
def sampleGrants : List (Int × Int) := [(1, -1), (1, 7), (-1, 3), (1, 9)]

/-- Driver answers in which the fourth readiness wait times out. -/
def sampleStall : List (Int × Int) := [(1, -1), (1, 7), (-1, 3), (0, 9)]

/-- What `acceptFrame` leaves in the origin tag of a buffer: a zero-copy buffer
(bit 31) ends with the stale bit (bit 30) set, bit 31 and the 30-bit page index
as before; the tag of any other buffer is as before. -/
def StaleMarked (b b2 : Buffer) : Prop :=
  (b.meta.testBit 31 = true →
      b2.meta.testBit 30 = true ∧ b2.meta.testBit 31 = true ∧ b2.meta % 2 ^ 30 = b.meta % 2 ^ 30)
  ∧ (b.meta.testBit 31 = false → b2.meta = b.meta)

/-- A card opened on lane 1, virtual channel 2, with 4096-byte pages mapped. -/
def sampleCard : PgpCard :=
  { fd := 3, lane := 1, vc := 2, timeout := 1000000, mapped := true, bSize := 4096 }

/-- A frame of three buffers: zero-copy page 5, a heap buffer, zero-copy page 1. -/
def sampleFrame : Frame :=
  { buffers := [⟨0x80000005, 4096, 10, 0⟩, ⟨0, 4096, 20, 0⟩, ⟨0x80000001, 4096, 7, 0⟩]
    error := 0, channel := 0 }

end PgpCard

/-! ## LegacyStreamReader -/

namespace LegacyStreamReader

/-- Modelled from the spec: a stream Buffer as the file reader uses it
(Buffer.h is not part of the sources at hand): `size` is `getSize()`, the room
from `begin()`; `data` are the bytes stored from `begin()`; `payload` is the
count set by `setPayload`, and `getAvailable()` is `size - payload`. -/
structure DataBuffer where
  size : Nat
  data : List Nat
  payload : Nat
deriving DecidableEq, Repr

/-- Modelled from the spec: a stream Frame as the file reader uses it (Frame.h
is not part of the sources at hand): buffers in order, channel, error bits. -/
structure DataFrame where
  buffers : List DataBuffer
  channel : Nat
  error : Nat
deriving DecidableEq, Repr

/-- Modelled from the spec: the payload of a frame is the concatenation of the
payloads of its buffers. -/
def DataFrame.payloadBytes (f : DataFrame) : List Nat :=
  (f.buffers.map (fun b => b.data.take b.payload)).flatten

/-- Modelled from the spec: the frame `reqFrame(size, true)` hands back when the
downstream slave allocates buffers with the given room each: nothing stored, no
error bit, channel 0. -/
def freshFrame (rooms : List Nat) : DataFrame :=
  { buffers := rooms.map (fun n => { size := n, data := [], payload := 0 })
    channel := 0, error := 0 }

/-- A file system: the bytes of the file at a path, if it can be opened. -/
abbrev FileSystem := List Char → Option (List Nat)

/-- The members of `ruf::LegacyStreamReader`.  `fd` is the open descriptor, as
the bytes of the file not read yet; `none` is `fd_ < 0`.  `fdIdx_` is taken to
be a `uint32_t`. -/
structure Reader where
  baseName : List Char
  fdIdx : Nat
  fd : Option (List Nat)
  active : Bool
deriving DecidableEq, Repr

/-- `std::string::find_last_of` for a one-character pattern; `none` is `npos`. -/
def findLastOf (ch : Char) : List Char → Option Nat
  | [] => none
  | x :: xs =>
    match findLastOf ch xs with
    | some i => some (i + 1)
    | none => if x = ch then some 0 else none

/-- What `open` can throw: `std::out_of_range` from `substr`, or the open
error. -/
inductive OpenError where
  | outOfRange
  | openFailed
deriving DecidableEq, Repr

/-- The reader after `open` and what it threw, if anything. -/
structure OpenResult where
  reader : Reader
  raised : Option OpenError
deriving DecidableEq, Repr

/-- `intClose`: the reader thread, if any, is interrupted and joined, which
leaves `fd_ = -1` and `active_ = false` (the end of `runThread`), and the
descriptor is closed. -/
def intClose (r : Reader) : Reader := { r with fd := none, active := false }

/-- `ruf::LegacyStreamReader::open(file)`.  `file.substr(pos)` throws
`std::out_of_range` when `find_last_of` returns `npos`. -/
def openFile (fs : FileSystem) (r0 : Reader) (file : List Char) : OpenResult :=
  let r := intClose r0
  match findLastOf '.' file with
  | none => { reader := r, raised := some OpenError.outOfRange }
  | some pos =>
    let r1 : Reader :=
      if file.drop pos = ['.', '1'] then { r with fdIdx := 1, baseName := file.take pos }
      else { r with fdIdx := 0, baseName := file }
    match fs file with
    | none => { reader := { r1 with fd := none }, raised := some OpenError.openFailed }
    | some content => { reader := { r1 with fd := some content, active := true }, raised := none }

/-- Outcome of `nextFile`: its return value, the name it tried to open (if it
got that far) and the reader afterwards. -/
structure NextFile where
  result : Bool
  tried : Option (List Char)
  reader : Reader
deriving DecidableEq, Repr

/-- The name of a rotated file: `baseName_ + "." +
boost::lexical_cast<std::string>(fdIdx_)`, the index in decimal. -/
def rotatedName (baseName : List Char) (idx : Nat) : List Char :=
  baseName ++ ['.'] ++ Nat.toDigits 10 idx

/-- `ruf::LegacyStreamReader::nextFile()`. -/
def nextFile (fs : FileSystem) (r : Reader) : NextFile :=
  match r.fd with
  | none => { result := false, tried := none, reader := r }
  | some _ =>
    if r.fdIdx = 0 then { result := false, tried := none, reader := { r with fd := none } }
    else
      let idx := (r.fdIdx + 1) % 2 ^ 32
      let name := rotatedName r.baseName idx
      match fs name with
      | none =>
        { result := false, tried := some name, reader := { r with fd := none, fdIdx := idx } }
      | some content =>
        { result := true, tried := some name
          reader := { r with fd := some content, fdIdx := idx } }

/-- Successive `nextFile` calls: the return values and the names tried, in call
order, and the reader after the last call. -/
def nextFiles (fs : FileSystem) : Nat → Reader → List (Bool × Option (List Char)) × Reader
  | 0, r => ([], r)
  | k + 1, r =>
    let n := nextFile fs r
    let rest := nextFiles fs k n.reader
    ((n.result, n.tried) :: rest.1, rest.2)

/-- The 32-bit word `read(fd_,&header,4)` stores for four bytes of the file
(little-endian host). -/
def headerWord (b0 b1 b2 b3 : Nat) : Nat :=
  b0 % 256 + 256 * (b1 % 256) + 65536 * (b2 % 256) + 16777216 * (b3 % 256)

/-- Header decoding in `runThread`: `size = header & 0x0FFFFFFF`,
`chan = header >> 28` (a `uint8_t`), and `size = size*4` for channel 0.
Result: channel and byte count. -/
def decodeHeader (header : Nat) : Nat × Nat :=
  let size := header &&& 0x0FFFFFFF
  let chan := (header >>> 28) % 256
  if chan = 0 then (chan, (size * 4) % 2 ^ 32) else (chan, size)

/-- Outcome of the payload loop: the buffers from the iterator on, the
descriptor afterwards, the `err` flag, and whether the iterator ran past the
last buffer (undefined behaviour in the source). -/
structure Fill where
  buffers : List DataBuffer
  fd : Option (List Nat)
  err : Bool
  overrun : Bool
deriving DecidableEq, Repr

/-- The payload loop `while ( (err == false) && (size > 0) )` of `runThread`;
the list holds the buffers from the iterator `it` on.  When a read fills less
than the room of the buffer it was the whole remainder (`bSize = size`), so the
loop ends there. -/
def fillBuffers : List DataBuffer → Nat → List Nat → Fill
  | bufs, 0, content => { buffers := bufs, fd := some content, err := false, overrun := false }
  | [], _ + 1, content => { buffers := [], fd := some content, err := false, overrun := true }
  | b :: bs, size + 1, content =>
    let bSize := if size + 1 > b.size then b.size else size + 1
    let got := content.take bSize
    if got.length ≠ bSize then
      { buffers := { b with data := got } :: bs, fd := none, err := true, overrun := false }
    else
      let b2 : DataBuffer := { b with data := got, payload := bSize }
      if b2.size - b2.payload = 0 then
        let r := fillBuffers bs (size + 1 - bSize) (content.drop bSize)
        { r with buffers := b2 :: r.buffers }
      else
        { buffers := b2 :: bs, fd := some (content.drop bSize), err := false, overrun := false }

/-- The reader thread's view: the reader, the local `err` flag and the frames
passed to `sendFrame`, oldest first. -/
structure Thread where
  reader : Reader
  err : Bool
  sent : List DataFrame
deriving DecidableEq, Repr

/-- How a run of the reader thread ends: it finished, the fuel of the model ran
out, or the payload loop ran past the last buffer of a frame. -/
inductive Run where
  | finished (t : Thread)
  | outOfFuel
  | undefined
deriving DecidableEq, Repr

/-- The record loop `while ( (fd_ >= 0) && (read(fd_,&header,4) == 4) )` of
`runThread`.  `reqFrame size` gives the room of the buffers of the frame the
downstream slave returns for `reqFrame(size,true)`.  One unit of fuel per
pass. -/
def readRecords (reqFrame : Nat → List Nat) : Nat → Thread → Run
  | 0, _ => Run.outOfFuel
  | fuel + 1, t =>
    match t.reader.fd with
    | none => Run.finished t
    | some content =>
      match content with
      | b0 :: b1 :: b2 :: b3 :: rest =>
        let hdr := decodeHeader (headerWord b0 b1 b2 b3)
        let chan := hdr.1
        let size := hdr.2
        if size = 0 then
          Run.finished { t with reader := { t.reader with fd := some rest }, err := true }
        else if size ≤ 4 then
          readRecords reqFrame fuel { t with reader := { t.reader with fd := some rest } }
        else
          let frame := { freshFrame (reqFrame size) with channel := chan }
          let f := fillBuffers frame.buffers size rest
          if f.overrun then Run.undefined
          else
            let frame2 : DataFrame :=
              { frame with buffers := f.buffers, error := if f.err then 0x1 else frame.error }
            readRecords reqFrame fuel
              { reader := { t.reader with fd := f.fd }, err := f.err, sent := t.sent ++ [frame2] }
      | _ => Run.finished { t with reader := { t.reader with fd := some [] } }

/-- The `do ... while ( (err == false) && nextFile() )` loop of `runThread`.
One unit of fuel per file. -/
def runFiles (reqFrame : Nat → List Nat) (fs : FileSystem) : Nat → Thread → Run
  | 0, _ => Run.outOfFuel
  | fuel + 1, t =>
    match readRecords reqFrame (fuel + 1) t with
    | Run.finished t2 =>
      if t2.err = false then
        let n := nextFile fs t2.reader
        if n.result then runFiles reqFrame fs fuel { t2 with reader := n.reader }
        else Run.finished { t2 with reader := n.reader }
      else Run.finished t2
    | other => other

/-- `ruf::LegacyStreamReader::runThread()` on a reader while no interruption is
requested: the loops, then `fd_ = -1` and `active_ = false`. -/
def runThread (reqFrame : Nat → List Nat) (fs : FileSystem) (fuel : Nat) (r : Reader) : Run :=
  match runFiles reqFrame fs fuel { reader := r, err := false, sent := [] } with
  | Run.finished t =>
    Run.finished { t with reader := { t.reader with fd := none, active := false } }
  | other => other

/-- A record of the file format, in the words of the spec: a channel and the
payload bytes that follow the header. -/
structure Record where
  chan : Nat
  payload : List Nat
deriving DecidableEq, Repr

/-- The size field of the header of a record: the payload length in 32-bit
words for channel 0, in bytes for every other channel. -/
def Record.sizeField (r : Record) : Nat :=
  if r.chan = 0 then r.payload.length / 4 else r.payload.length

/-- A complete record whose decoded byte size is greater than 4: the channel
fits 4 bits, the size field fits 28 bits, and a channel 0 payload is a whole
number of words. -/
def Record.Valid (r : Record) : Prop :=
  r.chan < 16 ∧ 4 < r.payload.length ∧ r.sizeField < 2 ^ 28
    ∧ (r.chan = 0 → r.payload.length % 4 = 0)

/-- The four bytes of a 32-bit word in file order (little-endian host). -/
def leBytes (w : Nat) : List Nat :=
  [w % 256, w / 256 % 256, w / 65536 % 256, w / 16777216 % 256]

/-- The bytes of a record in the file: header `(channel<<28) | size`, then the
payload. -/
def encodeRecord (r : Record) : List Nat :=
  leBytes ((r.chan <<< 28) ||| r.sizeField) ++ r.payload

/-- The bytes of a file holding the given records. -/
def encodeFile (rs : List Record) : List Nat :=
  (rs.map encodeRecord).flatten

/-- What a delivered frame shows downstream: channel, payload bytes, error
bits. -/
def DataFrame.summary (f : DataFrame) : Nat × List Nat × Nat :=
  (f.channel, f.payloadBytes, f.error)

/-- What a record is expected to be delivered as: its channel, its payload, no
error bit. -/
def Record.summary (r : Record) : Nat × List Nat × Nat :=
  (r.chan, r.payload, 0)

instance (r : Record) : Decidable r.Valid :=
  inferInstanceAs (Decidable (r.chan < 16 ∧ 4 < r.payload.length ∧ r.sizeField < 2 ^ 28
    ∧ (r.chan = 0 → r.payload.length % 4 = 0)))

/-- The records of the sample files: two in `log.1`, one in `log.2`. -/
def sampleRecords (k : Nat) : List Record :=
  if k = 1 then [⟨1, [1, 2, 3, 4, 5]⟩, ⟨0, [10, 11, 12, 13, 14, 15, 16, 17]⟩]
  else if k = 2 then [⟨2, [1, 2, 3, 4, 5, 6]⟩]
  else []

/-- A file system holding `log.1` and `log.2` and nothing else. -/
def sampleFs : FileSystem := fun name =>
  if name = ['l', 'o', 'g', '.', '1'] then some (encodeFile (sampleRecords 1))
  else if name = ['l', 'o', 'g', '.', '2'] then some (encodeFile (sampleRecords 2))
  else none

/-- A file system holding an empty file `data` and nothing else. -/
def sampleDataFs : FileSystem := fun name =>
  if name = ['d', 'a', 't', 'a'] then some [] else none

/-- A reader that has not opened anything yet. -/
def sampleReader : Reader := { baseName := [], fdIdx := 0, fd := none, active := false }

/-- A downstream slave that answers `reqFrame(size,true)` with buffers of room
3, 0 and `size`. -/
def sampleSlave (size : Nat) : List Nat := [3, 0, size]

/-- A reader thread at the header of a record of channel 1 and size 6 of which
only 3 payload bytes are in the file `log.1`; `log.2` exists. -/
def sampleTruncated : Thread :=
  { reader := { baseName := ['l', 'o', 'g'], fdIdx := 1
                fd := some [6, 0, 0, 16, 1, 2, 3], active := true }
    err := false, sent := [] }

/-- A reader thread at a header of channel 1 and size 0, followed in `log.1` by
a complete record of channel 2; `log.2` exists. -/
def sampleEndMarker : Thread :=
  { reader := { baseName := ['l', 'o', 'g'], fdIdx := 1
                fd := some ([0, 0, 0, 16] ++ encodeRecord ⟨2, [1, 2, 3, 4, 5, 6]⟩), active := true }
    err := false, sent := [] }

/-- A reader thread at the header of a record of channel 1 and size 4, with its
four payload bytes (all zero) after it. -/
def sampleSmall : Thread :=
  { reader := { baseName := ['l', 'o', 'g'], fdIdx := 0
                fd := some [4, 0, 0, 16, 0, 0, 0, 0], active := true }
    err := false, sent := [] }

/-- The frame the record loop passes to `sendFrame` for a header of channel
`chan` once the payload loop has ended as `f`: the buffers as filled, and error
bit `0x1` when a read came short. -/
def deliveredFrame (chan : Nat) (f : Fill) : DataFrame :=
  { buffers := f.buffers, channel := chan, error := if f.err then 0x1 else 0 }

/-- `isActive()`. -/
def isActive (r : Reader) : Bool := r.active

end LegacyStreamReader

/-! ## Memory Master and Slave -/

namespace Memory

/-- Modelled from the spec: the error kinds a transaction can carry
(Constants.h, which declares `rim::Unsupported`, is not part of the sources at
hand). -/
inductive TranError where
  | timeout
  | sizeRange
  | axisError
  | verifyMismatch
  | rangeError
  | canceled
  | unsupported
  | protocolError
deriving DecidableEq, Repr

/-- What a memory Master holds of the Slave in `slave_`: which Slave it is, and
the access limits that Slave reports. -/
structure SlaveRef where
  id : Nat
  minAccess : Nat
  maxAccess : Nat
deriving DecidableEq, Repr

/-- One call of `doTransaction` on a Slave, with the arguments passed. -/
structure Dispatch where
  slave : SlaveRef
  address : Nat
  size : Nat
  write : Bool
  posted : Bool
deriving DecidableEq, Repr

/-- The members of `rim::Master` the embedded functions use. -/
structure Master where
  index : Nat
  slave : SlaveRef
deriving DecidableEq, Repr

/-- `rim::Master::setSlave(slave)`. -/
def Master.setSlave (m : Master) (slave : SlaveRef) : Master := { m with slave := slave }

/-- `rim::Master::getSlave()`. -/
def Master.getSlave (m : Master) : SlaveRef := m.slave

/-- What a `reqTransaction` call does: the `doTransaction` calls it makes and
the error it reports, if any. -/
structure ReqRun where
  dispatched : List Dispatch
  reported : Option TranError
deriving DecidableEq, Repr

/-- `rim::Master::reqTransaction(address, size, write, posted)`: one call of
`slave_->doTransaction` with the arguments as given; the function returns
`void` and sets no error. -/
def Master.reqTransaction (m : Master) (address size : Nat) (write posted : Bool) : ReqRun :=
  { dispatched := [{ slave := m.slave, address := address, size := size
                     write := write, posted := posted }]
    reported := none }

/-- A call made on a Master. -/
inductive MasterOp where
  | setSlave (slave : SlaveRef)
  | reqTransaction (address size : Nat) (write posted : Bool)
deriving DecidableEq, Repr

/-- A sequence of calls on one Master, in the order `slaveMtx_` serialises them:
the Master afterwards and the `doTransaction` calls made, in order. -/
def Master.run : Master → List MasterOp → Master × List Dispatch
  | m, [] => (m, [])
  | m, MasterOp.setSlave s :: ops => Master.run (m.setSlave s) ops
  | m, MasterOp.reqTransaction a sz w p :: ops =>
    let r := Master.run m ops
    (r.1, (m.reqTransaction a sz w p).dispatched ++ r.2)

/-- Specification side: the Slave last passed to `setSlave` in a sequence of
calls, or the one attached before when there is no such call. -/
def lastSetSlave (attached : SlaveRef) : List MasterOp → SlaveRef
  | [] => attached
  | MasterOp.setSlave s :: ops => lastSetSlave s ops
  | MasterOp.reqTransaction _ _ _ _ :: ops => lastSetSlave attached ops

/-- Specification side: the requests of a sequence of calls, in call order. -/
def requestsOf : List MasterOp → List (Nat × Nat × Bool × Bool)
  | [] => []
  | MasterOp.setSlave _ :: ops => requestsOf ops
  | MasterOp.reqTransaction a sz w p :: ops => (a, sz, w, p) :: requestsOf ops

/-- The members of `rim::Slave`.  `tranMap` is the tracking map, from
transaction id to the transaction referred to (a weak reference); the name
`transactionMap_` written in `addTransaction` is read as this map, the only
map member Slave.h declares. -/
structure Slave where
  min : Nat
  max : Nat
  tranMap : Nat → Option Nat

/-- `rim::Slave::Slave(min, max)`: the limits are stored, the map is empty. -/
def Slave.create (min max : Nat) : Slave := { min := min, max := max, tranMap := fun _ => none }

/-- `rim::Slave::addTransaction(id, transaction)`: `tranMap_[id] = transaction`. -/
def Slave.addTransaction (s : Slave) (id transaction : Nat) : Slave :=
  { s with tranMap := fun k => if k = id then some transaction else s.tranMap k }

/-- `rim::Slave::getTransaction(index)`.  `live t` tells whether transaction `t`
still has an owner, so `expired()` is `live t = false`.  Result: the pointer
returned (`none` is NULL) and the Slave afterwards. -/
def Slave.getTransaction (live : Nat → Bool) (s : Slave) (index : Nat) : Option Nat × Slave :=
  match s.tranMap index with
  | none => (none, s)
  | some t =>
    if live t = false then
      (none, { s with tranMap := fun k => if k = index then none else s.tranMap k })
    else (some t, s)

/-- `rim::Slave::delMaster(index)`: the entries that are expired or stored under
`index` are erased (the loop is read as visiting every entry). -/
def Slave.delMaster (live : Nat → Bool) (s : Slave) (index : Nat) : Slave :=
  { s with tranMap := fun k =>
      match s.tranMap k with
      | none => none
      | some t => if live t = false ∨ k = index then none else some t }

/-- `rim::Slave::doMinAccess()`. -/
def Slave.doMinAccess (s : Slave) : Nat := s.min

/-- `rim::Slave::doMaxAccess()`. -/
def Slave.doMaxAccess (s : Slave) : Nat := s.max

/-- `rim::Slave::doAddress()`. -/
def Slave.doAddress (_ : Slave) : Nat := 0

/-- A call of `Transaction::complete(error)`: the transaction and the error. -/
abbrev Completion := Nat × TranError

/-- `rim::Slave::doTransaction(transaction)`: the `complete` calls it makes. -/
def Slave.doTransaction (_ : Slave) (transaction : Nat) : List Completion :=
  [(transaction, TranError.unsupported)]

/-- A Python override of a virtual method as the wrapper meets it: there is
none, or it returns a value, or it raises. -/
inductive Override (α : Type) where
  | absent
  | returns (value : α)
  | raises

/-- The Python override of `_doTransaction` as the wrapper meets it: there is
none, or it returns, or it raises; in both cases after the `complete` calls it
has made itself. -/
inductive TranOverride where
  | absent
  | returns (done : List Completion)
  | raises (done : List Completion)

/-- `rim::SlaveWrap::doMinAccess()`. -/
def SlaveWrap.doMinAccess (s : Slave) (ov : Override Nat) : Nat :=
  match ov with
  | Override.returns v => v
  | _ => s.doMinAccess

/-- `rim::SlaveWrap::defDoMinAccess()`. -/
def SlaveWrap.defDoMinAccess (s : Slave) : Nat := s.doMinAccess

/-- `rim::SlaveWrap::doMaxAccess()`. -/
def SlaveWrap.doMaxAccess (s : Slave) (ov : Override Nat) : Nat :=
  match ov with
  | Override.returns v => v
  | _ => s.doMaxAccess

/-- `rim::SlaveWrap::defDoMaxAccess()`: it returns `rim::Slave::doMinAccess()`. -/
def SlaveWrap.defDoMaxAccess (s : Slave) : Nat := s.doMinAccess

/-- `rim::SlaveWrap::doAddress()`. -/
def SlaveWrap.doAddress (s : Slave) (ov : Override Nat) : Nat :=
  match ov with
  | Override.returns v => v
  | _ => s.doAddress

/-- `rim::SlaveWrap::defDoAddress()`. -/
def SlaveWrap.defDoAddress (s : Slave) : Nat := s.doAddress

/-- `rim::SlaveWrap::doTransaction(transaction)`: the `complete` calls made
during the call, those of the override included. -/
def SlaveWrap.doTransaction (s : Slave) (ov : TranOverride) (transaction : Nat) :
    List Completion :=
  match ov with
  | TranOverride.absent => s.doTransaction transaction
  | TranOverride.returns done => done
  | TranOverride.raises done => done ++ s.doTransaction transaction

/-- A call made on a Slave. -/
inductive SlaveOp where
  | addTransaction (id transaction : Nat)
  | getTransaction (live : Nat → Bool) (index : Nat)
  | delMaster (live : Nat → Bool) (index : Nat)
  | doMinAccess
  | doMaxAccess
  | doAddress
  | doTransaction (transaction : Nat)

/-- The Slave after a call. -/
def Slave.apply (s : Slave) : SlaveOp → Slave
  | SlaveOp.addTransaction id t => s.addTransaction id t
  | SlaveOp.getTransaction live index => (s.getTransaction live index).2
  | SlaveOp.delMaster live index => s.delMaster live index
  | SlaveOp.doMinAccess => s
  | SlaveOp.doMaxAccess => s
  | SlaveOp.doAddress => s
  | SlaveOp.doTransaction _ => s

/-- A Master attached to Slave 7, which reports access limits 4 and 8. -/
def sampleMaster : Master := { index := 1, slave := { id := 7, minAccess := 4, maxAccess := 8 } }

/-- A Slave tracking transaction 10 under id 1 and transaction 20 under id 2. -/
def sampleTracking : Slave := ((Slave.create 4 8).addTransaction 1 10).addTransaction 2 20

/-- Transaction 20 still has an owner, no other transaction does. -/
def sampleLive (t : Nat) : Bool := decide (t = 20)

end Memory

/-! ## Memory Variable -/

namespace Variable

/-- Modelled from the spec: the model ids of a Variable (Constants.h, which
declares `rim::PyFunc`, `rim::Bytes`, ..., is not part of the sources at
hand).  `other` stands for any id that is none of the named ones. -/
inductive ModelId where
  | pyFunc
  | bytes
  | uInt
  | int
  | bool
  | string
  | float
  | double
  | fixed
  | other (id : Nat)
deriving DecidableEq, Repr

/-- The Block member functions `setFuncPy_` can point to. -/
inductive SetFunc where
  | setPyFunc
  | setByteArrayPy
  | setUIntPy
  | setIntPy
  | setBoolPy
  | setStringPy
  | setFloatPy
  | setFixedPy
deriving DecidableEq, Repr

/-- The Block member functions `getFuncPy_` can point to. -/
inductive GetFunc where
  | getPyFunc
  | getByteArrayPy
  | getUIntPy
  | getIntPy
  | getBoolPy
  | getStringPy
  | getFloatPy
  | getFixedPy
deriving DecidableEq, Repr

/-- A member function pointer: never written (its value is indeterminate), set
to NULL, or pointing to a function. -/
inductive FuncPtr (α : Type) where
  | unassigned
  | null
  | func (f : α)
deriving DecidableEq, Repr

/-- The binary exponent by which a `uint32_t` exceeds the 24-bit significand of
a `float`: 0 below `2^24`, up to 8 below `2^32`. -/
def floatExp (n : Nat) : Nat :=
  if n < 2 ^ 24 then 0 else if n < 2 ^ 25 then 1 else if n < 2 ^ 26 then 2
  else if n < 2 ^ 27 then 3 else if n < 2 ^ 28 then 4 else if n < 2 ^ 29 then 5
  else if n < 2 ^ 30 then 6 else if n < 2 ^ 31 then 7 else 8

/-- The value of `(float)n` for a `uint32_t` `n`: `n` rounded to a 24-bit
significand, to nearest, ties to even.  It is `n` itself below `2^24`. -/
def floatOfUInt (n : Nat) : Nat :=
  let e := floatExp n
  let q := n / 2 ^ e
  let r := n % 2 ^ e
  if 2 * r < 2 ^ e then q * 2 ^ e
  else if 2 ^ e < 2 * r then (q + 1) * 2 ^ e
  else if q % 2 = 0 then q * 2 ^ e else (q + 1) * 2 ^ e

/-- The value of `(int)std::ceil(a / b)` for integer-valued operands: the
quotient of two integers below `2^53` is rounded by less than its distance to
the next integer, so the ceiling is that of the exact quotient. -/
def ceilDiv (a b : Nat) : Nat := (a + b - 1) / b

end Variable

/-- The members of `rim::Variable` the embedded functions use. -/
structure Variable where
  modelId : Variable.ModelId
  offset : Nat
  bitOffset : List Nat
  bitSize : List Nat
  bitTotal : Nat
  byteSize : Nat
  varBytes : Nat
  lowTranByte : Nat
  highTranByte : Nat
  setFuncPy : Variable.FuncPtr Variable.SetFunc
  getFuncPy : Variable.FuncPtr Variable.GetFunc
deriving DecidableEq, Repr

namespace Variable

/-- The first `switch (modelId_)` of the constructor, on the set accessor.  Its
`default` arm writes `getFuncPy_`, not `setFuncPy_`.  Result: `setFuncPy_` and
`getFuncPy_` afterwards. -/
def selectSet (modelId : ModelId) (bitTotal : Nat) (setF : FuncPtr SetFunc)
    (getF : FuncPtr GetFunc) : FuncPtr SetFunc × FuncPtr GetFunc :=
  match modelId with
  | ModelId.pyFunc => (FuncPtr.func SetFunc.setPyFunc, getF)
  | ModelId.bytes => (FuncPtr.func SetFunc.setByteArrayPy, getF)
  | ModelId.uInt =>
    if bitTotal > 64 then (FuncPtr.func SetFunc.setPyFunc, getF)
    else (FuncPtr.func SetFunc.setUIntPy, getF)
  | ModelId.int =>
    if bitTotal > 64 then (FuncPtr.func SetFunc.setPyFunc, getF)
    else (FuncPtr.func SetFunc.setIntPy, getF)
  | ModelId.bool => (FuncPtr.func SetFunc.setBoolPy, getF)
  | ModelId.string => (FuncPtr.func SetFunc.setStringPy, getF)
  | ModelId.float => (FuncPtr.func SetFunc.setFloatPy, getF)
  | ModelId.fixed => (FuncPtr.func SetFunc.setFixedPy, getF)
  | _ => (setF, FuncPtr.null)

/-- The second `switch (modelId_)` of the constructor, on the get accessor. -/
def selectGet (modelId : ModelId) (bitTotal : Nat) : FuncPtr GetFunc :=
  match modelId with
  | ModelId.pyFunc => FuncPtr.func GetFunc.getPyFunc
  | ModelId.bytes => FuncPtr.func GetFunc.getByteArrayPy
  | ModelId.uInt =>
    if bitTotal > 60 then FuncPtr.func GetFunc.getPyFunc
    else FuncPtr.func GetFunc.getUIntPy
  | ModelId.int =>
    if bitTotal > 60 then FuncPtr.func GetFunc.getPyFunc
    else FuncPtr.func GetFunc.getIntPy
  | ModelId.bool => FuncPtr.func GetFunc.getBoolPy
  | ModelId.string => FuncPtr.func GetFunc.getStringPy
  | ModelId.float => FuncPtr.func GetFunc.getFloatPy
  | ModelId.fixed => FuncPtr.func GetFunc.getFixedPy
  | _ => FuncPtr.null

/-- `rim::Variable::Variable(...)`, for the members above.  The vectors are
indexed at `[0]` and at `[size()-1]`, which is undefined for an empty vector;
the embedding reads 0 there.  `uint32_t` sums are taken modulo `2^32`. -/
def create (modelId : ModelId) (offset : Nat) (bitOffset bitSize : List Nat) : Variable :=
  let bitTotal := bitSize.foldl (fun acc b => (acc + b) % 2 ^ 32) 0
  let byteSize := ceilDiv (floatOfUInt bitTotal) 8
  let varBytes := ceilDiv (floatOfUInt ((bitOffset.getLastD 0 + bitSize.getLastD 0) % 2 ^ 32)) 8
  let lowTranByte := floatOfUInt (bitOffset.headD 0) / 8
  let highTranByte := (varBytes + 2 ^ 32 - 1) % 2 ^ 32
  let s := selectSet modelId bitTotal FuncPtr.unassigned FuncPtr.unassigned
  { modelId := modelId, offset := offset, bitOffset := bitOffset, bitSize := bitSize
    bitTotal := bitTotal, byteSize := byteSize, varBytes := varBytes
    lowTranByte := lowTranByte, highTranByte := highTranByte
    setFuncPy := s.1, getFuncPy := selectGet modelId bitTotal }

/-- `rim::Variable::shiftOffsetDown(shift, minSize)`.  `offset_` is a
`uint64_t`, the bit offsets and `shift*8` are `uint32_t`.  For `minSize = 0`
the source divides by zero; the embedding reads 0 there. -/
def shiftOffsetDown (v : Variable) (shift minSize : Nat) : Variable :=
  let v1 : Variable :=
    if shift ≠ 0 then
      { v with offset := (v.offset + 2 ^ 64 - shift) % 2 ^ 64
               bitOffset := v.bitOffset.map (fun b => (b + (shift * 8) % 2 ^ 32) % 2 ^ 32) }
    else v
  let varBytes :=
    (ceilDiv (floatOfUInt ((v1.bitOffset.getLastD 0 + v1.bitSize.getLastD 0) % 2 ^ 32))
      (floatOfUInt minSize * 8) * minSize) % 2 ^ 32
  let lowTranByte :=
    (floatOfUInt (v1.bitOffset.headD 0) / (floatOfUInt minSize * 8) * minSize) % 2 ^ 32
  { v1 with varBytes := varBytes, lowTranByte := lowTranByte
            highTranByte := (varBytes + 2 ^ 32 - 1) % 2 ^ 32 }

end Variable

/-! ## EPICS Server -/

namespace EpicsV3

/-- A `WorkPtr`: `none` is the null pointer, `some w` points to work item
`w`. -/
abbrev WorkPtr := Option Nat

/-- Where a worker thread stands in `runWorker`: at the loop test
`while(workersEn_)`, inside `workQueue_.pop()`, or returned. -/
inductive WorkerPc where
  | test
  | pop
  | done
deriving DecidableEq, Repr

/-- A worker thread: where it stands, the items it has dequeued and the items
whose `execute()` it has called, oldest first. -/
structure Worker where
  pc : WorkerPc
  popped : List WorkPtr
  executed : List Nat
deriving DecidableEq, Repr

/-- The fields of `rpe::Server` that `start`, `stop` and `runWorker` use.
`workQueue` has its front at the head; `pushed` records the items `stop()` has
pushed, oldest first. -/
structure Server where
  workCnt : Nat
  running : Bool
  threadEn : Bool
  workersEn : Bool
  workQueue : List WorkPtr
  workers : List Worker
  pushed : List WorkPtr
deriving DecidableEq, Repr

/-- Where the caller of `stop()` stands: before the test of `running_`, in the
first loop at index `x`, in the second loop waiting in `workers_[x]->join()`, or
returned. -/
inductive StopPc where
  | entry
  | push (x : Nat)
  | join (x : Nat)
  | returned
deriving DecidableEq, Repr

/-- Modelled from the spec: `push` of the blocking work queue (the queue class
is not part of the sources at hand): the item is appended at the back. -/
def queuePush (q : List WorkPtr) (item : WorkPtr) : List WorkPtr := q ++ [item]

/-- Modelled from the spec: `pop` of the blocking work queue (the queue class
is not part of the sources at hand): it takes the item at the front; `none`
while the queue is empty, when the caller stays blocked. -/
def queuePop : List WorkPtr → Option (WorkPtr × List WorkPtr)
  | [] => none
  | item :: rest => some (item, rest)

/-- One step of `rpe::Server::stop()`; `none` when the caller is blocked in a
`join` on a worker that has not returned, or has returned from `stop()`.
`thread_->join()` is taken to return once `threadEn_` is false (`runThread`
tests the flag after every `process(0.01)`). -/
def stop (pc : StopPc) (s : Server) : Option (StopPc × Server) :=
  match pc with
  | StopPc.entry => if s.running then some (StopPc.push 0, s) else some (StopPc.returned, s)
  | StopPc.push x =>
    if x < s.workCnt then
      some (StopPc.push (x + 1),
        { s with workQueue := queuePush s.workQueue none, pushed := s.pushed ++ [none] })
    else some (StopPc.join 0, { s with workersEn := false })
  | StopPc.join x =>
    if x < s.workCnt then
      match s.workers[x]? with
      | some w => if w.pc = WorkerPc.done then some (StopPc.join (x + 1), s) else none
      | none => none
    else some (StopPc.returned, { s with threadEn := false, running := false })
  | StopPc.returned => none

/-- What a worker at the loop test becomes: it goes on to `pop()` when
`workersEn_` reads true and returns otherwise. -/
def loopTest (workersEn : Bool) (w : Worker) : Worker :=
  { w with pc := if workersEn then WorkerPc.pop else WorkerPc.done }

/-- What a worker becomes by dequeuing `item`: on a null item it leaves the
loop (`break`), otherwise it calls `work->execute()` and goes back to the loop
test. -/
def dequeue (w : Worker) (item : WorkPtr) : Worker :=
  match item with
  | none => { w with pc := WorkerPc.done, popped := w.popped ++ [none] }
  | some k =>
    { pc := WorkerPc.test, popped := w.popped ++ [some k], executed := w.executed ++ [k] }

/-- One step of worker `i` in `rpe::Server::runWorker()`; `none` when the worker
is blocked in `pop()` on an empty queue or has returned. -/
def runWorker (s : Server) (i : Nat) : Option Server :=
  match s.workers[i]? with
  | none => none
  | some w =>
    match w.pc with
    | WorkerPc.done => none
    | WorkerPc.test =>
      some { s with workers := s.workers.set i (loopTest s.workersEn w) }
    | WorkerPc.pop =>
      match queuePop s.workQueue with
      | none => none
      | some (item, rest) =>
        some { s with workQueue := rest, workers := s.workers.set i (dequeue w item) }

/-- One step of thread `t`: thread 0 is the caller of `stop()`, thread `i + 1`
is worker `i`. -/
def step (t : Nat) (sys : StopPc × Server) : Option (StopPc × Server) :=
  match t with
  | 0 => stop sys.1 sys.2
  | i + 1 => (runWorker sys.2 i).map (fun s => (sys.1, s))

/-- The threads that can take a step. -/
def enabled (sys : StopPc × Server) : List Nat :=
  (List.range (sys.2.workers.length + 1)).filter (fun t => (step t sys).isSome)

/-- One scheduling decision: choice `c` picks one of the threads that can take
a step; `none` when no thread can. -/
def next (c : Nat) (sys : StopPc × Server) : Option (StopPc × Server) :=
  match (enabled sys)[c % (enabled sys).length]? with
  | none => none
  | some t => step t sys

/-- The caller of `stop()` and the workers, interleaved by the scheduling
decisions `sch`. -/
def run : List Nat → StopPc × Server → StopPc × Server
  | [], sys => sys
  | c :: rest, sys =>
    match next c sys with
    | none => sys
    | some sys2 => run rest sys2

/-- A worker record is consistent: it has executed exactly the non-null items
it dequeued, in that order; it has returned once it has dequeued a null item;
and a null item can only be the last item it dequeued. -/
def WorkerOk (w : Worker) : Prop :=
  w.executed = w.popped.reduceOption
    ∧ (none ∈ w.popped → w.pc = WorkerPc.done)
    ∧ none ∉ w.popped.dropLast

instance (w : Worker) : Decidable (WorkerOk w) := by
  unfold WorkerOk
  exact inferInstance

/-- 1 for a worker that has not returned. -/
def live (w : Worker) : Nat := if w.pc = WorkerPc.done then 0 else 1

/-- 1 for a worker at the loop test. -/
def atTest (w : Worker) : Nat := if w.pc = WorkerPc.test then 1 else 0

/-- The number of null items `stop()` still has to push. -/
def pushesLeft (n : Nat) : StopPc → Nat
  | StopPc.entry => n
  | StopPc.push x => n - x
  | _ => 0

/-- An upper bound on the steps `stop()` itself still takes. -/
def stopLeft (n : Nat) : StopPc → Nat
  | StopPc.entry => 4 * n + 3
  | StopPc.push x => 3 * (n - x) + n + 2
  | StopPc.join x => (n - x) + 1
  | StopPc.returned => 0

/-- An upper bound on the steps all threads together can still take. -/
def stepsLeft (sys : StopPc × Server) : Nat :=
  stopLeft sys.2.workCnt sys.1 + 2 * sys.2.workQueue.length + (sys.2.workers.map atTest).sum

/-- What holds at each point of `stop()` on a server of `n` workers: the null
items pushed so far, and in the second loop the cleared flag and the workers
already joined. -/
def Phase (n : Nat) (s : Server) : StopPc → Prop
  | StopPc.entry => s.running = true ∧ s.pushed = []
  | StopPc.push x => x ≤ n ∧ s.pushed = List.replicate x none
  | StopPc.join x => x ≤ n ∧ s.pushed = List.replicate n none ∧ s.workersEn = false
      ∧ ∀ (i : Nat) (w : Worker), i < x → s.workers[i]? = some w → w.pc = WorkerPc.done
  | StopPc.returned => s.pushed = List.replicate n none ∧ s.running = false
      ∧ ∀ w ∈ s.workers, w.pc = WorkerPc.done

/-- The invariant of the interleaved run of `stop()` and the workers: there are
`n` workers, each consistent, and every worker that has not returned has a null
item waiting in the queue or still to be pushed. -/
def Inv (n : Nat) (sys : StopPc × Server) : Prop :=
  sys.2.workCnt = n ∧ sys.2.workers.length = n ∧ (∀ w ∈ sys.2.workers, WorkerOk w)
    ∧ (sys.2.workers.map live).sum ≤ sys.2.workQueue.count none + pushesLeft n sys.1
    ∧ Phase n sys.2 sys.1

/-- A server with two workers, one waiting in `pop()` and one at the loop test,
and work item 5 queued. -/
def sampleServer : Server :=
  { workCnt := 2, running := true, threadEn := true, workersEn := true, workQueue := [some 5], workers := [⟨WorkerPc.pop, [], []⟩, ⟨WorkerPc.test, [], []⟩], pushed := [] }

end EpicsV3

/-! ## Properties -/

namespace PgpCard

theorem and_bit_ne_zero_iff (m i : Nat) : m &&& 2 ^ i ≠ 0 ↔ m.testBit i = true := by
  rw [Nat.and_two_pow]
  cases h : m.testBit i <;> simp

theorem and_bit_eq_zero_iff (m i : Nat) : m &&& 2 ^ i = 0 ↔ m.testBit i = false := by
  rw [Nat.and_two_pow]
  cases h : m.testBit i <;> simp

/-- Claim C1. With the device open, `retBuffer` hands a page index to the kernel
return-index operation exactly when bit 31 of the origin tag is set and bit 30
is clear, and then exactly once, with index `meta & 0x3FFFFFFF` (the low 30
bits); a buffer whose stale bit is set causes no kernel return. -/
theorem retBuffer_kernel_return (c : PgpCard) (meta rawSize : Nat) (hfd : 0 ≤ c.fd) :
    kernelReturns (retBuffer c meta rawSize)
        = (if meta.testBit 31 = true ∧ meta.testBit 30 = false
            then [meta &&& 0x3FFFFFFF] else [])
      ∧ meta &&& 0x3FFFFFFF = meta % 2 ^ 30
      ∧ (meta.testBit 30 = true → kernelReturns (retBuffer c meta rawSize) = []) := by
  have h31 := and_bit_ne_zero_iff meta 31
  have h30 := and_bit_eq_zero_iff meta 30
  have e31 : (2 : Nat) ^ 31 = 0x80000000 := by norm_num
  have e30 : (2 : Nat) ^ 30 = 0x40000000 := by norm_num
  rw [e31] at h31
  rw [e30] at h30
  have hmask : meta &&& 0x3FFFFFFF = meta % 2 ^ 30 := by
    have := Nat.and_pow_two_sub_one_eq_mod meta 30
    simpa using this
  refine ⟨?_, hmask, ?_⟩
  · unfold retBuffer
    by_cases hz : meta &&& 0x80000000 ≠ 0
    · by_cases hs : meta &&& 0x40000000 = 0
      · have t31 := h31.mp hz
        have t30 := h30.mp hs
        simp [hz, hs, hfd, t31, t30, kernelReturns]
      · have t31 := h31.mp hz
        have t30 : meta.testBit 30 = true := by
          cases h : meta.testBit 30
          · exact absurd (h30.mpr h) hs
          · rfl
        simp [hz, hs, t31, t30, kernelReturns]
    · have t31 : meta.testBit 31 = false := by
        cases h : meta.testBit 31
        · rfl
        · exact absurd (h31.mpr h) hz
      simp [hz, t31, kernelReturns]
  · intro t30
    have hs : meta &&& 0x40000000 ≠ 0 := by
      intro h
      have := h30.mp h
      rw [t30] at this
      exact Bool.noConfusion this
    unfold retBuffer
    by_cases hz : meta &&& 0x80000000 ≠ 0
    · simp [hz, hs, kernelReturns]
    · simp [hz, kernelReturns]


theorem retBuffer_kernel_return_witness :
    (0 : Int) ≤ sampleCard.fd
      ∧ (kernelReturns (retBuffer sampleCard 0x80000005 4096)
            = (if (0x80000005 : Nat).testBit 31 = true ∧ (0x80000005 : Nat).testBit 30 = false
                then [0x80000005 &&& 0x3FFFFFFF] else [])
          ∧ 0x80000005 &&& 0x3FFFFFFF = 0x80000005 % 2 ^ 30
          ∧ ((0x80000005 : Nat).testBit 30 = true →
              kernelReturns (retBuffer sampleCard 0x80000005 4096) = [])) :=
  ⟨by decide, retBuffer_kernel_return sampleCard 0x80000005 4096 (by decide)⟩

theorem or_stale_testBit30 (m : Nat) : (m ||| 0x40000000).testBit 30 = true := by
  have e30 : (0x40000000 : Nat) = 2 ^ 30 := by norm_num
  rw [e30, Nat.testBit_or, Nat.testBit_two_pow]
  simp

theorem or_stale_testBit31 (m : Nat) : (m ||| 0x40000000).testBit 31 = m.testBit 31 := by
  have e30 : (0x40000000 : Nat) = 2 ^ 30 := by norm_num
  rw [e30, Nat.testBit_or, Nat.testBit_two_pow]
  simp

theorem or_stale_index (m : Nat) : (m ||| 0x40000000) % 2 ^ 30 = m % 2 ^ 30 := by
  have e30 : (0x40000000 : Nat) = 2 ^ 30 := by norm_num
  rw [e30]
  apply Nat.eq_of_testBit_eq
  intro i
  rw [Nat.testBit_mod_two_pow, Nat.testBit_mod_two_pow, Nat.testBit_or, Nat.testBit_two_pow]
  by_cases h : i < 30
  · have : ¬ (30 = i) := by omega
    simp [h, this]
  · simp [h]

theorem staleMarked_refl_of_stale (b : Buffer) (h : ¬ (b.meta &&& 0x40000000 = 0)) :
    StaleMarked b b := by
  have e30 : (0x40000000 : Nat) = 2 ^ 30 := by norm_num
  rw [e30] at h
  have t30 : b.meta.testBit 30 = true := by
    cases hb : b.meta.testBit 30
    · exact absurd ((and_bit_eq_zero_iff b.meta 30).mpr hb) h
    · rfl
  exact ⟨fun h31 => ⟨t30, h31, rfl⟩, fun _ => rfl⟩

theorem staleMarked_refl_of_heap (b : Buffer) (h : ¬ (b.meta &&& 0x80000000 ≠ 0)) :
    StaleMarked b b := by
  have e31 : (0x80000000 : Nat) = 2 ^ 31 := by norm_num
  rw [e31] at h
  have t31 : b.meta.testBit 31 = false := by
    cases hb : b.meta.testBit 31
    · rfl
    · exact absurd ((and_bit_ne_zero_iff b.meta 31).mpr hb) h
  refine ⟨fun h31 => ?_, fun _ => rfl⟩
  rw [t31] at h31
  exact Bool.noConfusion h31

theorem staleMarked_mark (b : Buffer) (h : b.meta &&& 0x80000000 ≠ 0) :
    StaleMarked b { b with meta := b.meta ||| 0x40000000 } := by
  have e31 : (0x80000000 : Nat) = 2 ^ 31 := by norm_num
  rw [e31] at h
  have t31 := (and_bit_ne_zero_iff b.meta 31).mp h
  refine ⟨fun _ => ⟨or_stale_testBit30 _, ?_, or_stale_index _⟩, fun h31 => ?_⟩
  · show (b.meta ||| 0x40000000).testBit 31 = true
    rw [or_stale_testBit31]; exact t31
  · rw [t31] at h31
    exact Bool.noConfusion h31

theorem acceptFrameFrom_staleMarked (c : PgpCard) (n : Nat) :
    ∀ (bs : List Buffer) (x : Nat) (drv : List Int),
      (acceptFrameFrom c n x bs drv).status = Status.returned →
      List.Forall₂ StaleMarked bs (acceptFrameFrom c n x bs drv).buffers := by
  intro bs
  induction bs with
  | nil => intro x drv _; simp [acceptFrameFrom]
  | cons b bs ih =>
    intro x drv h
    by_cases hz : b.meta &&& 0x80000000 ≠ 0
    · by_cases hs : b.meta &&& 0x40000000 = 0
      · cases drv with
        | nil => simp [acceptFrameFrom, hz, hs] at h
        | cons res drv2 =>
          by_cases hr : res ≤ 0
          · simp [acceptFrameFrom, hz, hs, hr] at h
          · simp only [acceptFrameFrom, hz, hs, hr, if_true, if_false, ne_eq, not_false_eq_true] at h ⊢
            exact List.Forall₂.cons (staleMarked_mark b hz) (ih _ _ h)
      · simp only [acceptFrameFrom, hz, hs, if_true, if_false, ne_eq, not_false_eq_true] at h ⊢
        exact List.Forall₂.cons (staleMarked_refl_of_stale b hs) (ih _ _ h)
    · simp only [acceptFrameFrom, hz, if_false] at h ⊢
      split at h
      · rename_i hw
        simp only [hw]
        exact List.Forall₂.cons (staleMarked_refl_of_heap b hz) (ih _ _ h)
      · rename_i hw
        exact absurd h hw


theorem copyWrite_returned_pos (c : PgpCard) (drv : List Int)
    (h : (copyWrite c drv).1 = Status.returned) : 1 ≤ (copyWrite c drv).2.1 := by
  match drv with
  | [] => simp [copyWrite] at h
  | [sel] =>
    by_cases hsel : sel = 0 <;> simp [copyWrite, hsel] at h
  | sel :: res :: rest2 =>
    by_cases hsel : sel = 0
    · simp [copyWrite, hsel] at h
    · by_cases hres : res < 0
      · simp [copyWrite, hsel, hres] at h
      · by_cases h0 : res = 0
        · simp [copyWrite, hsel, h0]
        · simp [copyWrite, hsel, hres, h0]

theorem acceptFrameFrom_calls_spec (c : PgpCard) (n : Nat) :
    ∀ (bs : List Buffer) (x : Nat) (drv : List Int),
      ∀ p ∈ (acceptFrameFrom c n x bs drv).calls,
        x ≤ p.1 ∧ p.1 < x + bs.length ∧ p.2.cont = (if p.1 = n - 1 then 0 else 1) := by
  intro bs
  induction bs with
  | nil => intro x drv p hp; simp [acceptFrameFrom] at hp
  | cons b bs ih =>
    intro x drv p hp
    have step : ∀ drv2, p ∈ (acceptFrameFrom c n (x + 1) bs drv2).calls →
        x ≤ p.1 ∧ p.1 < x + (b :: bs).length ∧ p.2.cont = (if p.1 = n - 1 then 0 else 1) := by
      intro drv2 h2
      obtain ⟨h1, h3, h4⟩ := ih (x + 1) drv2 p h2
      refine ⟨by omega, ?_, h4⟩
      simp only [List.length_cons]; omega
    by_cases hz : b.meta &&& 0x80000000 ≠ 0
    · by_cases hs : b.meta &&& 0x40000000 = 0
      · cases drv with
        | nil => simp [acceptFrameFrom, hz, hs] at hp
        | cons res drv2 =>
          by_cases hr : res ≤ 0
          · simp only [acceptFrameFrom, hz, hs, hr, if_true, ne_eq, not_false_eq_true,
              List.mem_singleton] at hp
            subst hp
            simp [DriverWrite.cont]
          · simp only [acceptFrameFrom, hz, hs, hr, if_true, if_false, ne_eq, not_false_eq_true,
              List.mem_cons] at hp
            rcases hp with hp | hp
            · subst hp
              simp [DriverWrite.cont]
            · exact step _ hp
      · simp only [acceptFrameFrom, hz, hs, if_true, if_false, ne_eq, not_false_eq_true] at hp
        exact step _ hp
    · simp only [acceptFrameFrom, hz, if_false] at hp
      have hmade : ∀ k, p ∈ List.replicate k
          (x, DriverWrite.pgpWrite b.size c.lane c.vc (if x = n - 1 then 0 else 1)) →
          x ≤ p.1 ∧ p.1 < x + (b :: bs).length ∧ p.2.cont = (if p.1 = n - 1 then 0 else 1) := by
        intro k hk
        have := (List.mem_replicate.mp hk).2
        subst this
        simp [DriverWrite.cont]
      split at hp
      · simp only [List.mem_append] at hp
        rcases hp with hp | hp
        · exact hmade _ hp
        · exact step _ hp
      · exact hmade _ hp


theorem acceptFrameFrom_calls_sorted (c : PgpCard) (n : Nat) :
    ∀ (bs : List Buffer) (x : Nat) (drv : List Int),
      List.Pairwise (fun i j => i ≤ j) ((acceptFrameFrom c n x bs drv).calls.map Prod.fst) := by
  intro bs
  induction bs with
  | nil => intro x drv; simp [acceptFrameFrom]
  | cons b bs ih =>
    intro x drv
    have later : ∀ drv2, ∀ j ∈ (acceptFrameFrom c n (x + 1) bs drv2).calls.map Prod.fst, x ≤ j := by
      intro drv2 j hj
      obtain ⟨p, hp, rfl⟩ := List.mem_map.mp hj
      have := (acceptFrameFrom_calls_spec c n bs (x + 1) drv2 p hp).1
      omega
    by_cases hz : b.meta &&& 0x80000000 ≠ 0
    · by_cases hs : b.meta &&& 0x40000000 = 0
      · cases drv with
        | nil => simp [acceptFrameFrom, hz, hs]
        | cons res drv2 =>
          by_cases hr : res ≤ 0
          · simp [acceptFrameFrom, hz, hs, hr]
          · simp only [acceptFrameFrom, hz, hs, hr, if_true, if_false, ne_eq, not_false_eq_true,
              List.map_cons, List.pairwise_cons]
            exact ⟨later drv2, ih _ _⟩
      · simp only [acceptFrameFrom, hz, hs, if_true, if_false, ne_eq, not_false_eq_true]
        exact ih _ _
    · simp only [acceptFrameFrom, hz, if_false]
      have hrep : ∀ k, List.Pairwise (fun i j => i ≤ j) (List.map Prod.fst (List.replicate k
          (x, DriverWrite.pgpWrite b.size c.lane c.vc (if x = n - 1 then 0 else 1)))) := by
        intro k
        rw [List.map_replicate]
        exact List.pairwise_replicate.mpr (Or.inr (le_refl x))
      split
      · simp only [List.map_append, List.pairwise_append]
        refine ⟨hrep _, ih _ _, ?_⟩
        intro i hi j hj
        rw [List.map_replicate] at hi
        have := (List.mem_replicate.mp hi).2
        subst this
        exact later _ j hj
      · exact hrep _

theorem acceptFrameFrom_calls_complete (c : PgpCard) (n : Nat) :
    ∀ (bs : List Buffer) (x : Nat) (drv : List Int),
      (∀ b ∈ bs, b.meta.testBit 30 = false) →
      (acceptFrameFrom c n x bs drv).status = Status.returned →
      ∀ i, x ≤ i → i < x + bs.length → ∃ w, (i, w) ∈ (acceptFrameFrom c n x bs drv).calls := by
  intro bs
  induction bs with
  | nil => intro x drv _ _ i h1 h2; simp at h2; omega
  | cons b bs ih =>
    intro x drv hfresh h i h1 h2
    have hb : b.meta &&& 0x40000000 = 0 := by
      have e30 : (0x40000000 : Nat) = 2 ^ 30 := by norm_num
      rw [e30]
      exact (and_bit_eq_zero_iff b.meta 30).mpr (hfresh b (List.mem_cons_self _ _))
    have hrest : ∀ b2 ∈ bs, b2.meta.testBit 30 = false :=
      fun b2 hb2 => hfresh b2 (List.mem_cons_of_mem _ hb2)
    simp only [List.length_cons] at h2
    by_cases hz : b.meta &&& 0x80000000 ≠ 0
    · cases drv with
      | nil => simp [acceptFrameFrom, hz, hb] at h
      | cons res drv2 =>
        by_cases hr : res ≤ 0
        · simp [acceptFrameFrom, hz, hb, hr] at h
        · simp only [acceptFrameFrom, hz, hb, hr, if_true, if_false, ne_eq, not_false_eq_true,
            List.mem_cons] at h ⊢
          by_cases hi : i = x
          · subst hi
            exact ⟨_, Or.inl rfl⟩
          · obtain ⟨w, hw⟩ := ih (x + 1) drv2 hrest h i (by omega) (by omega)
            exact ⟨w, Or.inr hw⟩
    · simp only [acceptFrameFrom, hz, if_false] at h ⊢
      split at h
      · rename_i hw
        simp only [hw, List.mem_append]
        by_cases hi : i = x
        · subst hi
          refine ⟨DriverWrite.pgpWrite b.size c.lane c.vc (if i = n - 1 then 0 else 1), Or.inl ?_⟩
          exact List.mem_replicate.mpr ⟨by have := copyWrite_returned_pos c drv hw; omega, rfl⟩
        · obtain ⟨w, hw2⟩ := ih (x + 1) _ hrest h i (by omega) (by omega)
          exact ⟨w, Or.inr hw2⟩
      · rename_i hw
        exact absurd h hw

theorem acceptFrameFrom_returns (c : PgpCard) (n : Nat) :
    ∀ (bs : List Buffer) (x : Nat) (drv : List Int),
      (∀ v ∈ drv, 0 < v) → 2 * bs.length ≤ drv.length →
      (acceptFrameFrom c n x bs drv).status = Status.returned := by
  intro bs
  induction bs with
  | nil => intro x drv _ _; simp [acceptFrameFrom]
  | cons b bs ih =>
    intro x drv hpos hlen
    simp only [List.length_cons] at hlen
    match drv, hpos, hlen with
    | [], _, hlen => simp at hlen
    | [_], _, hlen => simp at hlen; omega
    | sel :: res :: rest2, hpos, hlen =>
      have hsel : 0 < sel := hpos sel (by simp)
      have hres : 0 < res := hpos res (by simp)
      have hpos1 : ∀ v ∈ res :: rest2, 0 < v := fun v hv => hpos v (List.mem_cons_of_mem _ hv)
      have hpos2 : ∀ v ∈ rest2, 0 < v := fun v hv => hpos1 v (List.mem_cons_of_mem _ hv)
      simp only [List.length_cons] at hlen
      by_cases hz : b.meta &&& 0x80000000 ≠ 0
      · by_cases hs : b.meta &&& 0x40000000 = 0
        · have hr : ¬ sel ≤ 0 := by omega
          simp only [acceptFrameFrom, hz, hs, hr, if_true, if_false, ne_eq, not_false_eq_true]
          exact ih _ _ hpos1 (by simp only [List.length_cons]; omega)
        · simp only [acceptFrameFrom, hz, hs, if_true, if_false, ne_eq, not_false_eq_true]
          exact ih _ _ hpos (by simp only [List.length_cons]; omega)
      · have h1 : ¬ sel = 0 := by omega
        have h2 : ¬ res < 0 := by omega
        have h3 : ¬ res = 0 := by omega
        have hcw : copyWrite c (sel :: res :: rest2) = (Status.returned, 1, rest2) := by
          simp [copyWrite, h1, h2, h3]
        simp only [acceptFrameFrom, hz, if_false, hcw]
        exact ih _ _ hpos2 (by omega)


/-- Claim C2. When `acceptFrame` returns normally, every zero-copy buffer of
the frame has the stale bit (bit 30) set in its origin tag, with the zero-copy
bit and the 30-bit page index as before, and the origin tag of every buffer
that is not zero-copy is unchanged. -/
theorem acceptFrame_marks_stale (c : PgpCard) (frame : Frame) (drv : List Int)
    (h : (acceptFrame c frame drv).status = Status.returned) :
    List.Forall₂ StaleMarked frame.buffers (acceptFrame c frame drv).buffers :=
  acceptFrameFrom_staleMarked c frame.buffers.length frame.buffers 0 drv h

theorem acceptFrame_marks_stale_witness :
    (acceptFrame sampleCard sampleFrame [1, 1, 0, -1, 5, 1]).status = Status.returned
      ∧ List.Forall₂ StaleMarked sampleFrame.buffers
          (acceptFrame sampleCard sampleFrame [1, 1, 0, -1, 5, 1]).buffers :=
  ⟨by decide, acceptFrame_marks_stale sampleCard sampleFrame [1, 1, 0, -1, 5, 1] (by decide)⟩

/-- Claim C3. For a frame of `n ≥ 1` buffers none of which is stale, whatever
the driver answers: every write call `acceptFrame` makes is for a buffer index
`x < n` and carries continue flag 1 when `x < n - 1` and 0 when `x = n - 1`;
the calls are made in nondecreasing buffer index order; when `acceptFrame`
returns normally every buffer `0 .. n-1` has been written; and it does return
normally when the driver answers every call with a positive value. -/
theorem acceptFrame_write_order (c : PgpCard) (frame : Frame) (drv : List Int)
    (hn : 1 ≤ frame.buffers.length)
    (hfresh : ∀ b ∈ frame.buffers, b.meta.testBit 30 = false) :
    (∀ p ∈ (acceptFrame c frame drv).calls,
        p.1 < frame.buffers.length
          ∧ p.2.cont = (if p.1 < frame.buffers.length - 1 then 1 else 0))
      ∧ List.Pairwise (fun i j => i ≤ j) ((acceptFrame c frame drv).calls.map Prod.fst)
      ∧ ((acceptFrame c frame drv).status = Status.returned →
          ∀ x, x < frame.buffers.length → ∃ w, (x, w) ∈ (acceptFrame c frame drv).calls)
      ∧ ((∀ v ∈ drv, 0 < v) → 2 * frame.buffers.length ≤ drv.length →
          (acceptFrame c frame drv).status = Status.returned) := by
  refine ⟨?_, acceptFrameFrom_calls_sorted c _ _ 0 drv, ?_, ?_⟩
  · intro p hp
    obtain ⟨_, h2, h3⟩ := acceptFrameFrom_calls_spec c frame.buffers.length frame.buffers 0 drv p hp
    refine ⟨by omega, ?_⟩
    rw [h3]
    by_cases hl : p.1 = frame.buffers.length - 1
    · have : ¬ p.1 < frame.buffers.length - 1 := by omega
      simp [hl]
    · have : p.1 < frame.buffers.length - 1 := by omega
      simp [hl, this]
  · intro hret x hx
    exact acceptFrameFrom_calls_complete c _ frame.buffers 0 drv hfresh hret x (Nat.zero_le _)
      (by omega)
  · intro hpos hlen
    exact acceptFrameFrom_returns c _ frame.buffers 0 drv hpos hlen

theorem acceptFrame_write_order_witness :
    (1 ≤ sampleFrame.buffers.length ∧ ∀ b ∈ sampleFrame.buffers, b.meta.testBit 30 = false)
      ∧ (acceptFrame sampleCard sampleFrame [1, 1, 0, -1, 5, 1]).calls.map
          (fun p => (p.1, p.2.cont)) = [(0, 1), (1, 1), (1, 1), (2, 0)]
      ∧ ((∀ p ∈ (acceptFrame sampleCard sampleFrame [1, 1, 0, -1, 5, 1]).calls,
        p.1 < sampleFrame.buffers.length
          ∧ p.2.cont = (if p.1 < sampleFrame.buffers.length - 1 then 1 else 0))
      ∧ List.Pairwise (fun i j => i ≤ j)
          ((acceptFrame sampleCard sampleFrame [1, 1, 0, -1, 5, 1]).calls.map Prod.fst)
      ∧ ((acceptFrame sampleCard sampleFrame [1, 1, 0, -1, 5, 1]).status = Status.returned →
          ∀ x, x < sampleFrame.buffers.length →
            ∃ w, (x, w) ∈ (acceptFrame sampleCard sampleFrame [1, 1, 0, -1, 5, 1]).calls)
      ∧ ((∀ v ∈ [1, 1, 0, -1, 5, 1], (0 : Int) < v) →
          2 * sampleFrame.buffers.length ≤ ([1, 1, 0, -1, 5, 1] : List Int).length →
          (acceptFrame sampleCard sampleFrame [1, 1, 0, -1, 5, 1]).status = Status.returned)) :=
  ⟨⟨by decide, by decide⟩, by decide,
    acceptFrame_write_order sampleCard sampleFrame [1, 1, 0, -1, 5, 1] (by decide) (by decide)⟩

theorem runThreadStep_skip (c : PgpCard) (s : ReaderState) (e : ReadEvent)
    (h : (decide (0 < e.sel) && decide (0 < e.res)) = false) : runThreadStep c s e = s := by
  unfold runThreadStep
  by_cases h1 : 0 < e.sel
  · by_cases h2 : 0 < e.res
    · simp [h1, h2] at h
    · simp [h1, h2]
  · simp [h1]

theorem runThreadStep_read (c : PgpCard) (s : ReaderState) (e : ReadEvent)
    (h : (decide (0 < e.sel) && decide (0 < e.res)) = true) :
    runThreadStep c s e =
      (if e.cont = 0 then
        { frame := Frame.empty, sent := s.sent ++ [appendRead c s.frame e] }
       else { frame := appendRead c s.frame e, sent := s.sent }) := by
  simp only [Bool.and_eq_true, decide_eq_true_eq] at h
  simp [runThreadStep, h.1, h.2]

theorem runThread_fold_buffers (c : PgpCard) :
    ∀ (events : List ReadEvent) (s : ReaderState),
      (List.foldl (runThreadStep c) s events).sent.map Frame.buffers
          = s.sent.map Frame.buffers ++
            (match (framesOfReads (successfulReads events)).1 with
             | [] => []
             | g :: gs => (s.frame.buffers ++ g.map (readBuffer c))
                            :: gs.map (List.map (readBuffer c)))
        ∧ (List.foldl (runThreadStep c) s events).frame.buffers
          = (match (framesOfReads (successfulReads events)).1 with
             | [] => s.frame.buffers ++ (framesOfReads (successfulReads events)).2.map (readBuffer c)
             | _ :: _ => (framesOfReads (successfulReads events)).2.map (readBuffer c)) := by
  intro events
  induction events with
  | nil => intro s; simp [successfulReads, framesOfReads]
  | cons e es ih =>
    intro s
    cases h : (decide (0 < e.sel) && decide (0 < e.res))
    · have hs : successfulReads (e :: es) = successfulReads es := by
        simp [successfulReads, List.filter_cons, h]
      rw [List.foldl_cons, runThreadStep_skip c s e h, hs]
      exact ih s
    · have hs : successfulReads (e :: es) = e :: successfulReads es := by
        simp only [successfulReads, List.filter_cons, h, if_true]
      rw [List.foldl_cons, runThreadStep_read c s e h, hs]
      by_cases hc : e.cont = 0
      · simp only [hc, if_true, framesOfReads]
        obtain ⟨ih1, ih2⟩ := ih { frame := Frame.empty, sent := s.sent ++ [appendRead c s.frame e] }
        rw [ih1, ih2]
        cases hg : (framesOfReads (successfulReads es)).1 with
        | nil => simp [Frame.empty, appendRead, Frame.appendBuffer, Frame.setError]
        | cons g gs => simp [Frame.empty, appendRead, Frame.appendBuffer, Frame.setError]
      · simp only [hc, if_false, framesOfReads]
        obtain ⟨ih1, ih2⟩ := ih { frame := appendRead c s.frame e, sent := s.sent }
        rw [ih1, ih2]
        cases hg : (framesOfReads (successfulReads es)).1 with
        | nil => simp [appendRead, Frame.appendBuffer, Frame.setError]
        | cons g gs => simp [appendRead, Frame.appendBuffer, Frame.setError]

theorem framesOfReads_length (reads : List ReadEvent) :
    (framesOfReads reads).1.length = reads.countP (fun e => decide (e.cont = 0)) := by
  induction reads with
  | nil => simp [framesOfReads]
  | cons e es ih =>
    by_cases hc : e.cont = 0
    · simp [framesOfReads, hc, List.countP_cons, ih]
    · simp only [framesOfReads, hc, if_false, List.countP_cons, decide_False]
      cases hg : (framesOfReads es).1 with
      | nil => rw [hg] at ih; simpa using ih
      | cons g gs => rw [hg] at ih; simpa using ih

/-- The cut made by `framesOfReads` is the one the spec describes: the groups
followed by the held-back reads are the reads in order, every group ends with
its only read whose continue flag is clear, and no held-back read has a clear
continue flag. -/
theorem framesOfReads_spec (reads : List ReadEvent) :
    (framesOfReads reads).1.flatten ++ (framesOfReads reads).2 = reads
      ∧ (∀ g ∈ (framesOfReads reads).1, ∃ pre last, g = pre ++ [last] ∧ last.cont = 0
            ∧ ∀ e ∈ pre, e.cont ≠ 0)
      ∧ (∀ e ∈ (framesOfReads reads).2, e.cont ≠ 0) := by
  induction reads with
  | nil => simp [framesOfReads]
  | cons e es ih =>
    obtain ⟨ih1, ih2, ih3⟩ := ih
    by_cases hc : e.cont = 0
    · simp only [framesOfReads, hc, if_true]
      refine ⟨by simpa using ih1, ?_, ih3⟩
      intro g hg
      rcases List.mem_cons.mp hg with hg | hg
      · exact ⟨[], e, by simp [hg], hc, by simp⟩
      · exact ih2 g hg
    · simp only [framesOfReads, hc, if_false]
      cases hg : (framesOfReads es).1 with
      | nil =>
        rw [hg] at ih1
        refine ⟨by simpa using ih1, by simp, ?_⟩
        intro e2 he2
        rcases List.mem_cons.mp he2 with he2 | he2
        · rw [he2]; exact hc
        · exact ih3 e2 he2
      | cons g gs =>
        rw [hg] at ih1 ih2
        refine ⟨by simpa using ih1, ?_, ih3⟩
        intro g2 hg2
        rcases List.mem_cons.mp hg2 with hg2 | hg2
        · obtain ⟨pre, last, hpl, hl, hp⟩ := ih2 g (List.mem_cons_self _ _)
          refine ⟨e :: pre, last, by simp [hg2, hpl], hl, ?_⟩
          intro e2 he2
          rcases List.mem_cons.mp he2 with he2 | he2
          · rw [he2]; exact hc
          · exact hp e2 he2
        · exact ih2 g2 (List.mem_cons_of_mem _ hg2)


theorem orBufferErrors_append (bs : List Buffer) (b : Buffer) :
    orBufferErrors (bs ++ [b]) = orBufferErrors bs ||| b.error := by
  simp [orBufferErrors, List.foldl_append]

theorem appendRead_error (c : PgpCard) (f : Frame) (e : ReadEvent)
    (h : f.error = orBufferErrors f.buffers) :
    (appendRead c f e).error = orBufferErrors (appendRead c f e).buffers := by
  have hb : (readBuffer c e).error = e.error := by
    unfold readBuffer; rfl
  simp only [appendRead, Frame.appendBuffer, Frame.setError, orBufferErrors_append, hb, h]
  exact Nat.lor_comm _ _

theorem runThread_fold_errors (c : PgpCard) :
    ∀ (events : List ReadEvent) (s : ReaderState),
      s.frame.error = orBufferErrors s.frame.buffers →
      (∀ f ∈ s.sent, f.error = orBufferErrors f.buffers) →
      (List.foldl (runThreadStep c) s events).frame.error
          = orBufferErrors (List.foldl (runThreadStep c) s events).frame.buffers
        ∧ ∀ f ∈ (List.foldl (runThreadStep c) s events).sent,
            f.error = orBufferErrors f.buffers := by
  intro events
  induction events with
  | nil => intro s h1 h2; exact ⟨h1, h2⟩
  | cons e es ih =>
    intro s h1 h2
    rw [List.foldl_cons]
    cases h : (decide (0 < e.sel) && decide (0 < e.res))
    · rw [runThreadStep_skip c s e h]
      exact ih s h1 h2
    · rw [runThreadStep_read c s e h]
      by_cases hc : e.cont = 0
      · simp only [hc, if_true]
        apply ih
        · simp [Frame.empty, orBufferErrors]
        · intro f hf
          rcases List.mem_append.mp hf with hf | hf
          · exact h2 f hf
          · rw [List.mem_singleton.mp hf]
            exact appendRead_error c s.frame e h1
      · simp only [hc, if_false]
        exact ih _ (appendRead_error c s.frame e h1) h2

theorem orBufferErrors_readBuffer (c : PgpCard) (g : List ReadEvent) :
    orBufferErrors (g.map (readBuffer c)) = orReadErrors g := by
  have hb : ∀ e, (readBuffer c e).error = e.error := by
    intro e; unfold readBuffer; rfl
  simp [orBufferErrors, orReadErrors, List.foldl_map, hb]

theorem runThread_sent_buffers (c : PgpCard) (events : List ReadEvent) :
    (runThread c events).sent.map Frame.buffers
      = (framesOfReads (successfulReads events)).1.map (List.map (readBuffer c)) := by
  have h := (runThread_fold_buffers c events { frame := Frame.empty, sent := [] }).1
  unfold runThread
  rw [h]
  cases (framesOfReads (successfulReads events)).1 with
  | nil => simp
  | cons g gs => simp [Frame.empty]

theorem runThread_held_buffers (c : PgpCard) (events : List ReadEvent) :
    (runThread c events).frame.buffers
      = (framesOfReads (successfulReads events)).2.map (readBuffer c) := by
  have h := (runThread_fold_buffers c events { frame := Frame.empty, sent := [] }).2
  unfold runThread
  rw [h]
  cases hg : (framesOfReads (successfulReads events)).1 with
  | nil => simp [Frame.empty]
  | cons g gs => simp

/-- Claim C4. The reader task calls `sendFrame` once per successful read whose
continue flag is clear; the frames sent hold, in read order, exactly the
buffers of the reads since the previous dispatch, each buffer with the size and
the error of its read; the reads after the last read with a clear continue flag
stay in the current frame and are not dispatched. -/
theorem runThread_dispatch (c : PgpCard) (events : List ReadEvent) :
    (runThread c events).sent.map Frame.buffers
        = (framesOfReads (successfulReads events)).1.map (List.map (readBuffer c))
      ∧ (runThread c events).frame.buffers
        = (framesOfReads (successfulReads events)).2.map (readBuffer c)
      ∧ (runThread c events).sent.length
        = (successfulReads events).countP (fun e => decide (e.cont = 0))
      ∧ (∀ e : ReadEvent, (readBuffer c e).size = e.res.toNat ∧ (readBuffer c e).error = e.error)
      ∧ ((framesOfReads (successfulReads events)).1.flatten
            ++ (framesOfReads (successfulReads events)).2 = successfulReads events
          ∧ (∀ g ∈ (framesOfReads (successfulReads events)).1,
              ∃ pre last, g = pre ++ [last] ∧ last.cont = 0 ∧ ∀ e ∈ pre, e.cont ≠ 0)
          ∧ (∀ e ∈ (framesOfReads (successfulReads events)).2, e.cont ≠ 0)) := by
  refine ⟨runThread_sent_buffers c events, runThread_held_buffers c events, ?_, ?_,
    framesOfReads_spec _⟩
  · have h := congrArg List.length (runThread_sent_buffers c events)
    simp only [List.length_map] at h
    rw [h, framesOfReads_length]
  · intro e
    unfold readBuffer
    exact ⟨rfl, rfl⟩

/-- Claim C5. Every frame the reader task dispatches has an error field equal to
the bitwise OR of the error codes of the buffers it contains, which are the
kernel-reported error values of the reads that make up that frame and of no
other read. -/
theorem runThread_frame_error (c : PgpCard) (events : List ReadEvent) :
    (∀ f ∈ (runThread c events).sent, f.error = orBufferErrors f.buffers)
      ∧ (runThread c events).sent.map Frame.error
        = (framesOfReads (successfulReads events)).1.map orReadErrors := by
  have hinv := (runThread_fold_errors c events { frame := Frame.empty, sent := [] }
    (by simp [Frame.empty, orBufferErrors]) (by simp)).2
  refine ⟨hinv, ?_⟩
  have hmap : (runThread c events).sent.map Frame.error
      = ((runThread c events).sent.map Frame.buffers).map orBufferErrors := by
    rw [List.map_map]
    apply List.map_congr_left
    intro f hf
    exact hinv f hf
  rw [hmap, runThread_sent_buffers, List.map_map]
  apply List.map_congr_left
  intro g _
  exact orBufferErrors_readBuffer c g


theorem ceil_div_bounds (size S : Nat) (hS : 0 < S) :
    size ≤ (size + S - 1) / S * S ∧ (size + S - 1) / S * S < size + S
      ∧ (0 < size → 1 ≤ (size + S - 1) / S) := by
  have h1 := Nat.div_add_mod (size + S - 1) S
  have h2 := Nat.mod_lt (size + S - 1) hS
  have h3 : (size + S - 1) / S * S = S * ((size + S - 1) / S) := Nat.mul_comm _ _
  refine ⟨by omega, by omega, ?_⟩
  intro hpos
  exact (Nat.one_le_div_iff hS).mpr (by omega)

theorem acceptReqLoop_granted (c : PgpCard) (size : Nat)
    (hsz : size + c.bSize ≤ 2 ^ 32) :
    ∀ (drv : List (Int × Int)) (alloc : Nat) (frame : Frame) (m : Nat),
      size ≤ alloc + m * c.bSize →
      (0 < m → alloc + (m - 1) * c.bSize < size) →
      (∀ w ∈ (acceptReqLoop c size alloc frame drv).waits, w ≠ 0) →
      (m ≤ (grantedIndices drv).length →
          (acceptReqLoop c size alloc frame drv).outcome
            = ReqOutcome.frame { frame with buffers := frame.buffers ++
                ((grantedIndices drv).take m).map (fun i => createBuffer (0x80000000 ||| i) c.bSize) })
        ∧ (¬ m ≤ (grantedIndices drv).length →
          (acceptReqLoop c size alloc frame drv).outcome = ReqOutcome.pending) := by
  intro drv
  induction drv with
  | nil =>
    intro alloc frame m h1 h2 _
    by_cases ha : alloc < size
    · have hm : 0 < m := by
        rcases Nat.eq_zero_or_pos m with h0 | h0
        · subst h0; simp at h1; omega
        · exact h0
      refine ⟨?_, ?_⟩
      · intro hle; simp [grantedIndices] at hle; omega
      · intro _; simp [acceptReqLoop, ha]
    · have hm : m = 0 := by
        rcases Nat.eq_zero_or_pos m with h0 | h0
        · exact h0
        · have := h2 h0
          have : alloc < size := by
            have : alloc ≤ alloc + (m - 1) * c.bSize := Nat.le_add_right _ _
            omega
          omega
      subst hm
      refine ⟨?_, ?_⟩
      · intro _; simp [acceptReqLoop, ha]
      · intro hn; simp at hn
  | cons p rest ih =>
    obtain ⟨sel, res⟩ := p
    intro alloc frame m h1 h2 hw
    by_cases ha : alloc < size
    · have hm : 0 < m := by
        rcases Nat.eq_zero_or_pos m with h0 | h0
        · subst h0; simp at h1; omega
        · exact h0
      by_cases hsel : sel = 0
      · simp [acceptReqLoop, ha, hsel] at hw
      · by_cases hres : res < 0
        · simp only [acceptReqLoop, ha, hsel, hres, if_true, if_false] at hw ⊢
          have hw2 : ∀ w ∈ (acceptReqLoop c size alloc frame rest).waits, w ≠ 0 :=
            fun w hmem => hw w (List.mem_cons_of_mem _ hmem)
          simpa [grantedIndices, hres] using ih alloc frame m h1 h2 hw2
        · simp only [acceptReqLoop, ha, hsel, hres, if_true, if_false] at hw ⊢
          have hmod : (alloc + c.bSize) % 2 ^ 32 = alloc + c.bSize :=
            Nat.mod_eq_of_lt (by omega)
          rw [hmod] at hw ⊢
          have hw2 : ∀ w ∈ (acceptReqLoop c size (alloc + c.bSize)
              (frame.appendBuffer (createBuffer (0x80000000 ||| res.toNat) c.bSize)) rest).waits,
              w ≠ 0 := fun w hmem => hw w (List.mem_cons_of_mem _ hmem)
          obtain ⟨k, rfl⟩ : ∃ k, m = k + 1 := ⟨m - 1, by omega⟩
          have hk1 : size ≤ alloc + c.bSize + k * c.bSize := by
            have : (k + 1) * c.bSize = k * c.bSize + c.bSize := Nat.succ_mul k c.bSize
            omega
          have hk2 : 0 < k → alloc + c.bSize + (k - 1) * c.bSize < size := by
            intro hk
            have h := h2 (by omega)
            simp only [Nat.add_sub_cancel] at h
            obtain ⟨j, rfl⟩ : ∃ j, k = j + 1 := ⟨k - 1, by omega⟩
            have : (j + 1) * c.bSize = j * c.bSize + c.bSize := Nat.succ_mul j c.bSize
            simp only [Nat.add_sub_cancel]
            omega
          have := ih (alloc + c.bSize)
            (frame.appendBuffer (createBuffer (0x80000000 ||| res.toNat) c.bSize)) k hk1 hk2 hw2
          simpa [grantedIndices, hres, Frame.appendBuffer] using this
    · have hm : m = 0 := by
        rcases Nat.eq_zero_or_pos m with h0 | h0
        · exact h0
        · have := h2 h0
          have : alloc ≤ alloc + (m - 1) * c.bSize := Nat.le_add_right _ _
          omega
      subst hm
      refine ⟨?_, ?_⟩
      · intro _; simp [acceptReqLoop, ha]
      · intro hn; simp at hn

/-- Claim C6. With zero-copy permitted, pages of size `S > 0` mapped,
`size + S ≤ 2^32` and no readiness wait of the call returning 0: once the driver
has handed out `ceil(size/S)` page indices, `acceptReq` returns a frame of
exactly that many buffers, tagged `0x80000000 | index` with the indices the
driver returned, in acquisition order; any frame it returns is that frame; the
count is at least one when `size > 0` and the capacity covered is at least
`size` and less than `size + S`. -/
theorem acceptReq_zero_copy (c : PgpCard) (heapFrame : Nat → Nat → Frame) (size : Nat)
    (drv : List (Int × Int))
    (hS : 0 < c.bSize) (hsz : size + c.bSize ≤ 2 ^ 32) (hmap : c.mapped = true)
    (hwait : ∀ w ∈ (acceptReq c heapFrame size true drv).waits, w ≠ 0) :
    ((size + c.bSize - 1) / c.bSize ≤ (grantedIndices drv).length →
        (acceptReq c heapFrame size true drv).outcome
            = ReqOutcome.frame (zeroCopyFrame c ((size + c.bSize - 1) / c.bSize) drv)
          ∧ (zeroCopyFrame c ((size + c.bSize - 1) / c.bSize) drv).buffers.length
            = (size + c.bSize - 1) / c.bSize)
      ∧ (∀ f, (acceptReq c heapFrame size true drv).outcome = ReqOutcome.frame f →
          f = zeroCopyFrame c ((size + c.bSize - 1) / c.bSize) drv
            ∧ f.buffers.length = (size + c.bSize - 1) / c.bSize)
      ∧ (∀ b ∈ (zeroCopyFrame c ((size + c.bSize - 1) / c.bSize) drv).buffers,
          b.rawSize = c.bSize ∧ ∃ i, b.meta = 0x80000000 ||| i)
      ∧ size ≤ (size + c.bSize - 1) / c.bSize * c.bSize
      ∧ (size + c.bSize - 1) / c.bSize * c.bSize < size + c.bSize
      ∧ (0 < size → 1 ≤ (size + c.bSize - 1) / c.bSize) := by
  obtain ⟨hb1, hb2, hb3⟩ := ceil_div_bounds size c.bSize hS
  have hrun : acceptReq c heapFrame size true drv = acceptReqLoop c size 0 Frame.empty drv := by
    simp [acceptReq, hmap]
  rw [hrun] at hwait ⊢
  have hneed2 : 0 < (size + c.bSize - 1) / c.bSize →
      0 + ((size + c.bSize - 1) / c.bSize - 1) * c.bSize < size := by
    intro hpos
    have : ((size + c.bSize - 1) / c.bSize - 1) * c.bSize
        = (size + c.bSize - 1) / c.bSize * c.bSize - c.bSize := by
      rw [Nat.sub_mul, Nat.one_mul]
    have hge : c.bSize ≤ (size + c.bSize - 1) / c.bSize * c.bSize :=
      Nat.le_mul_of_pos_left _ hpos
    omega
  obtain ⟨hA, hB⟩ := acceptReqLoop_granted c size hsz drv 0 Frame.empty
    ((size + c.bSize - 1) / c.bSize) (by omega) hneed2 hwait
  have hlen : (size + c.bSize - 1) / c.bSize ≤ (grantedIndices drv).length →
      (zeroCopyFrame c ((size + c.bSize - 1) / c.bSize) drv).buffers.length
        = (size + c.bSize - 1) / c.bSize := by
    intro hle
    simp [zeroCopyFrame, List.length_take, hle]
  refine ⟨?_, ?_, ?_, hb1, hb2, hb3⟩
  · intro hle
    refine ⟨?_, hlen hle⟩
    rw [hA hle]
    simp [zeroCopyFrame, Frame.empty]
  · intro f hf
    by_cases hle : (size + c.bSize - 1) / c.bSize ≤ (grantedIndices drv).length
    · rw [hA hle] at hf
      have hfe : f = zeroCopyFrame c ((size + c.bSize - 1) / c.bSize) drv := by
        have := ReqOutcome.frame.inj hf
        rw [← this]
        simp [zeroCopyFrame, Frame.empty]
      exact ⟨hfe, by rw [hfe]; exact hlen hle⟩
    · rw [hB hle] at hf
      exact ReqOutcome.noConfusion hf
  · intro b hb
    simp only [zeroCopyFrame, List.mem_map] at hb
    obtain ⟨i, _, rfl⟩ := hb
    exact ⟨rfl, i, rfl⟩

theorem acceptReq_zero_copy_witness :
    (0 < sampleCard.bSize ∧ 4097 + sampleCard.bSize ≤ 2 ^ 32 ∧ sampleCard.mapped = true
        ∧ ∀ w ∈ (acceptReq sampleCard (fun _ _ => Frame.empty) 4097 true sampleGrants).waits,
            w ≠ 0)
      ∧ (acceptReq sampleCard (fun _ _ => Frame.empty) 4097 true sampleGrants).outcome
          = ReqOutcome.frame (zeroCopyFrame sampleCard 2 sampleGrants)
      ∧ (zeroCopyFrame sampleCard 2 sampleGrants).buffers.map Buffer.meta
          = [0x80000007, 0x80000003] :=
  ⟨⟨by decide, by decide, by decide, by decide⟩,
    ((acceptReq_zero_copy sampleCard (fun _ _ => Frame.empty) 4097 sampleGrants
      (by decide) (by decide) (by decide) (by decide)).1 (by decide)).1,
    by decide⟩

theorem acceptReqLoop_waits (c : PgpCard) (size : Nat) :
    ∀ (drv : List (Int × Int)) (alloc : Nat) (frame : Frame),
      ((acceptReqLoop c size alloc frame drv).outcome = ReqOutcome.raised (Error.timeout c.timeout)
          ↔ (0 : Int) ∈ (acceptReqLoop c size alloc frame drv).waits)
        ∧ (∀ e, (acceptReqLoop c size alloc frame drv).outcome = ReqOutcome.raised e →
            e = Error.timeout c.timeout)
        ∧ (acceptReqLoop c size alloc frame drv).waits <+: drv.map Prod.fst := by
  intro drv
  induction drv with
  | nil =>
    intro alloc frame
    by_cases ha : alloc < size <;> simp [acceptReqLoop, ha]
  | cons p rest ih =>
    obtain ⟨sel, res⟩ := p
    intro alloc frame
    by_cases ha : alloc < size
    · by_cases hsel : sel = 0
      · subst hsel
        simp [acceptReqLoop, ha, List.prefix_cons_inj]
      · have hne : ¬ (0 : Int) = sel := fun h => hsel h.symm
        by_cases hres : res < 0
        · obtain ⟨h1, h2, h3⟩ := ih alloc frame
          simp only [acceptReqLoop, ha, hsel, hres, if_true, if_false, List.mem_cons, hne,
            false_or, List.map_cons]
          exact ⟨h1, h2, (List.prefix_cons_inj sel).mpr h3⟩
        · obtain ⟨h1, h2, h3⟩ := ih ((alloc + c.bSize) % 2 ^ 32)
            (frame.appendBuffer (createBuffer (0x80000000 ||| res.toNat) c.bSize))
          simp only [acceptReqLoop, ha, hsel, hres, if_true, if_false, List.mem_cons, hne,
            false_or, List.map_cons]
          exact ⟨h1, h2, (List.prefix_cons_inj sel).mpr h3⟩
    · simp [acceptReqLoop, ha]

theorem acceptReqLoop_timeout_iff (c : PgpCard) (size : Nat) (hsz : size + c.bSize ≤ 2 ^ 32) :
    ∀ (drv : List (Int × Int)) (alloc : Nat) (frame : Frame),
      ((acceptReqLoop c size alloc frame drv).outcome = ReqOutcome.raised (Error.timeout c.timeout)
        ↔ ∃ pre g post, drv = pre ++ (0, g) :: post ∧ (∀ p ∈ pre, p.1 ≠ 0)
            ∧ alloc + (grantedIndices pre).length * c.bSize < size) := by
  intro drv
  induction drv with
  | nil =>
    intro alloc frame
    by_cases ha : alloc < size <;> simp [acceptReqLoop, ha]
  | cons p rest ih =>
    obtain ⟨sel, res⟩ := p
    intro alloc frame
    by_cases ha : alloc < size
    · by_cases hsel : sel = 0
      · subst hsel
        simp only [acceptReqLoop, ha, if_true, true_iff]
        exact ⟨[], res, rest, rfl, by simp, by simpa [grantedIndices] using ha⟩
      · have step : ∀ (alloc2 : Nat) (extra : Nat),
            (∀ pre, (grantedIndices ((sel, res) :: pre)).length = (grantedIndices pre).length + extra) →
            alloc2 = alloc + extra * c.bSize →
            ((∃ pre g post, rest = pre ++ (0, g) :: post ∧ (∀ p ∈ pre, p.1 ≠ 0)
                ∧ alloc2 + (grantedIndices pre).length * c.bSize < size)
              ↔ ∃ pre g post, (sel, res) :: rest = pre ++ (0, g) :: post ∧ (∀ p ∈ pre, p.1 ≠ 0)
                ∧ alloc + (grantedIndices pre).length * c.bSize < size) := by
          intro alloc2 extra hlen halloc
          constructor
          · rintro ⟨pre, g, post, hrest, hpre, hlt⟩
            refine ⟨(sel, res) :: pre, g, post, by simp [hrest], ?_, ?_⟩
            · intro p hp
              rcases List.mem_cons.mp hp with hp | hp
              · rw [hp]; exact hsel
              · exact hpre p hp
            · rw [hlen pre, Nat.add_mul]
              omega
          · rintro ⟨pre, g, post, hdrv, hpre, hlt⟩
            cases pre with
            | nil =>
              simp only [List.nil_append, List.cons.injEq, Prod.mk.injEq] at hdrv
              exact absurd hdrv.1.1 hsel
            | cons q pre2 =>
              simp only [List.cons_append, List.cons.injEq] at hdrv
              obtain ⟨hq, hrest⟩ := hdrv
              subst hq
              refine ⟨pre2, g, post, hrest, fun p hp => hpre p (List.mem_cons_of_mem _ hp), ?_⟩
              rw [hlen pre2, Nat.add_mul] at hlt
              omega
        by_cases hres : res < 0
        · simp only [acceptReqLoop, ha, hsel, hres, if_true, if_false]
          rw [ih alloc frame]
          exact step alloc 0 (by intro pre; simp [grantedIndices, hres]) (by simp)
        · simp only [acceptReqLoop, ha, hsel, hres, if_true, if_false]
          have hmod : (alloc + c.bSize) % 2 ^ 32 = alloc + c.bSize :=
            Nat.mod_eq_of_lt (by omega)
          rw [hmod, ih]
          exact step (alloc + c.bSize) 1 (by intro pre; simp [grantedIndices, hres]) (by simp)
    · simp only [acceptReqLoop, ha, if_false]
      constructor
      · intro h; exact ReqOutcome.noConfusion h
      · rintro ⟨pre, g, post, _, _, hlt⟩
        have : alloc ≤ alloc + (grantedIndices pre).length * c.bSize := Nat.le_add_right _ _
        omega

/-- Claim C7. A zero-copy `acceptReq` call ends with a Timeout error exactly when
one of the readiness waits it makes returns 0, the error then carries the
configured timeout and nothing else is ever raised; the waits it makes are an
initial part of the driver's `select` values, and, when `size + S ≤ 2^32`, a
Timeout is raised exactly when a wait returns 0 while the page indices handed
out before it cover less than `size`.  The heap fallback (zero-copy not
permitted or no mapping) makes no wait and returns the heap frame. -/
theorem acceptReq_timeout (c : PgpCard) (heapFrame : Nat → Nat → Frame) (size : Nat)
    (zeroCopyEn : Bool) (drv : List (Int × Int)) :
    (zeroCopyEn = true → c.mapped = true →
        ((acceptReq c heapFrame size zeroCopyEn drv).outcome
              = ReqOutcome.raised (Error.timeout c.timeout)
            ↔ (0 : Int) ∈ (acceptReq c heapFrame size zeroCopyEn drv).waits)
          ∧ (∀ e, (acceptReq c heapFrame size zeroCopyEn drv).outcome = ReqOutcome.raised e →
              e = Error.timeout c.timeout)
          ∧ (acceptReq c heapFrame size zeroCopyEn drv).waits <+: drv.map Prod.fst
          ∧ (size + c.bSize ≤ 2 ^ 32 →
              ((acceptReq c heapFrame size zeroCopyEn drv).outcome
                  = ReqOutcome.raised (Error.timeout c.timeout)
                ↔ ∃ pre g post, drv = pre ++ (0, g) :: post ∧ (∀ p ∈ pre, p.1 ≠ 0)
                    ∧ (grantedIndices pre).length * c.bSize < size)))
      ∧ ((zeroCopyEn = false ∨ c.mapped = false) →
          (acceptReq c heapFrame size zeroCopyEn drv).outcome
              = ReqOutcome.frame (heapFrame size c.bSize)
            ∧ (acceptReq c heapFrame size zeroCopyEn drv).waits = []) := by
  constructor
  · intro hz hm
    have hrun : acceptReq c heapFrame size zeroCopyEn drv
        = acceptReqLoop c size 0 Frame.empty drv := by
      simp [acceptReq, hz, hm]
    rw [hrun]
    obtain ⟨h1, h2, h3⟩ := acceptReqLoop_waits c size drv 0 Frame.empty
    refine ⟨h1, h2, h3, ?_⟩
    intro hsz
    simpa using acceptReqLoop_timeout_iff c size hsz drv 0 Frame.empty
  · intro h
    have hcond : zeroCopyEn = false ∨ c.mapped = false := h
    simp [acceptReq, hcond]

theorem acceptReq_timeout_witness :
    (0 : Int) ∈ (acceptReq sampleCard (fun _ _ => Frame.empty) 10000 true sampleStall).waits
      ∧ (acceptReq sampleCard (fun _ _ => Frame.empty) 10000 true sampleStall).outcome
          = ReqOutcome.raised (Error.timeout sampleCard.timeout)
      ∧ (acceptReq sampleCard (fun _ _ => Frame.empty) 10000 false sampleStall).outcome
          = ReqOutcome.frame Frame.empty :=
  ⟨by decide,
    ((acceptReq_timeout sampleCard (fun _ _ => Frame.empty) 10000 true sampleStall).1
      rfl rfl).1.mpr (by decide),
    ((acceptReq_timeout sampleCard (fun _ _ => Frame.empty) 10000 false sampleStall).2
      (Or.inl rfl)).1⟩

end PgpCard

namespace LegacyStreamReader

theorem header_or_eq_add (c s : Nat) (hs : s < 2 ^ 28) :
    (c <<< 28) ||| s = 2 ^ 28 * c + s := by
  rw [Nat.shiftLeft_eq, Nat.mul_comm, Nat.mul_add_lt_is_or hs]

theorem decodeHeader_add (c s : Nat) (hc : c < 16) (hs : s < 2 ^ 28) :
    decodeHeader (2 ^ 28 * c + s) = (c, if c = 0 then 4 * s else s) := by
  have hmask : (2 ^ 28 * c + s) &&& 0x0FFFFFFF = s := by
    have h := Nat.and_pow_two_sub_one_eq_mod (2 ^ 28 * c + s) 28
    have e : (2 : Nat) ^ 28 - 1 = 0x0FFFFFFF := by norm_num
    rw [e] at h
    rw [h]
    omega
  have hshift : (2 ^ 28 * c + s) >>> 28 = c := by
    rw [Nat.shiftRight_eq_div_pow]
    omega
  unfold decodeHeader
  simp only [hmask, hshift]
  have hc256 : c % 256 = c := Nat.mod_eq_of_lt (by omega)
  rw [hc256]
  by_cases h0 : c = 0
  · have h4 : s * 4 % 2 ^ 32 = 4 * s := by omega
    simp only [h0, if_true, h4]
  · simp [h0]

/-- Claim C9. For a channel `c < 16` and a size field `s < 2^28` the reader
decodes the header word `(c << 28) | s` to channel `c` and to a byte count of
`s` when `c ≠ 0` and of `4*s` when `c = 0`; the product `4*s` is below `2^32`,
so the 32-bit multiplication does not wrap. -/
theorem decodeHeader_header (c s : Nat) (hc : c < 16) (hs : s < 2 ^ 28) :
    decodeHeader ((c <<< 28) ||| s) = (c, if c = 0 then 4 * s else s)
      ∧ 4 * s < 2 ^ 32 := by
  rw [header_or_eq_add c s hs]
  exact ⟨decodeHeader_add c s hc hs, by omega⟩

theorem decodeHeader_header_witness :
    ((3 : Nat) < 16 ∧ (1000 : Nat) < 2 ^ 28)
      ∧ (decodeHeader (((3 : Nat) <<< 28) ||| 1000) = (3, if (3 : Nat) = 0 then 4 * 1000 else 1000)
          ∧ 4 * 1000 < 2 ^ 32) :=
  ⟨⟨by decide, by decide⟩, decodeHeader_header 3 1000 (by decide) (by decide)⟩

theorem findLastOf_append_dot1 (B : List Char) :
    findLastOf '.' (B ++ ['.', '1']) = some B.length := by
  induction B with
  | nil => decide
  | cons x xs ih => simp [findLastOf, ih]

theorem rotatedName_one (B : List Char) : rotatedName B 1 = B ++ ['.', '1'] := by
  have h : Nat.toDigits 10 1 = ['1'] := by decide
  simp [rotatedName, h]

theorem openFile_dot1 (fs : FileSystem) (r0 : Reader) (B : List Char) :
    (openFile fs r0 (B ++ ['.', '1'])).reader.baseName = B
      ∧ (openFile fs r0 (B ++ ['.', '1'])).reader.fdIdx = 1
      ∧ (openFile fs r0 (B ++ ['.', '1'])).reader.fd = fs (B ++ ['.', '1'])
      ∧ ((openFile fs r0 (B ++ ['.', '1'])).raised = none ↔ (fs (B ++ ['.', '1'])).isSome) := by
  unfold openFile
  rw [findLastOf_append_dot1]
  cases h : fs (B ++ ['.', '1']) <;> simp [h]

theorem nextFile_step (fs : FileSystem) (r : Reader) (content : List Nat)
    (hfd : r.fd = some content) (hk : 1 ≤ r.fdIdx) (hb : r.fdIdx + 1 < 2 ^ 32) :
    (nextFile fs r).tried = some (rotatedName r.baseName (r.fdIdx + 1))
      ∧ (nextFile fs r).result = (fs (rotatedName r.baseName (r.fdIdx + 1))).isSome
      ∧ (nextFile fs r).reader
          = { r with fd := fs (rotatedName r.baseName (r.fdIdx + 1)), fdIdx := r.fdIdx + 1 } := by
  have h0 : ¬ r.fdIdx = 0 := by omega
  have hmod : (r.fdIdx + 1) % 2 ^ 32 = r.fdIdx + 1 := Nat.mod_eq_of_lt hb
  unfold nextFile
  rw [hfd]
  simp only [h0, if_false, hmod]
  cases h : fs (rotatedName r.baseName (r.fdIdx + 1)) <;> simp

theorem nextFiles_rotation (fs : FileSystem) (B : List Char) :
    ∀ (j k : Nat) (r : Reader), r.baseName = B → r.fdIdx = k → 1 ≤ k → r.fd.isSome = true →
      k + j + 1 < 2 ^ 32 →
      (∀ i, k < i → i ≤ k + j → (fs (rotatedName B i)).isSome = true) →
      fs (rotatedName B (k + j + 1)) = none →
      (nextFiles fs (j + 1) r).1
        = (List.range' (k + 1) j).map (fun i => (true, some (rotatedName B i)))
            ++ [(false, some (rotatedName B (k + j + 1)))] := by
  intro j
  induction j with
  | zero =>
    intro k r hB hk h1 hfd hb _ hmiss
    obtain ⟨content, hc⟩ := Option.isSome_iff_exists.mp hfd
    obtain ⟨e1, e2, _⟩ := nextFile_step fs r content hc (by omega) (by omega)
    simp only [nextFiles, e1, e2, hB, hk]
    simp [hmiss]
  | succ j ih =>
    intro k r hB hk h1 hfd hb hex hmiss
    obtain ⟨content, hc⟩ := Option.isSome_iff_exists.mp hfd
    obtain ⟨e1, e2, e3⟩ := nextFile_step fs r content hc (by omega) (by omega)
    have hnext : (fs (rotatedName B (k + 1))).isSome = true := hex (k + 1) (by omega) (by omega)
    have hrec := ih (k + 1) (nextFile fs r).reader (by rw [e3]; exact hB) (by rw [e3]; simp [hk])
      (by omega) (by rw [e3]; simpa [hB, hk] using hnext) (by omega)
      (fun i hi1 hi2 => hex i (by omega) (by omega))
      (by have : k + 1 + j + 1 = k + (j + 1) + 1 := by omega
          rw [this]; exact hmiss)
    rw [nextFiles]
    simp only [e1, e2, hB, hk, hnext]
    rw [hrec]
    have : k + 1 + j + 1 = k + (j + 1) + 1 := by omega
    simp [List.range'_succ, this]

theorem nextFile_idle (fs : FileSystem) (r : Reader) (h : r.fd = none ∨ r.fdIdx = 0) :
    (nextFile fs r).result = false ∧ (nextFile fs r).tried = none
      ∧ (nextFile fs r).reader.fd = none := by
  unfold nextFile
  cases hfd : r.fd with
  | none => simp [hfd]
  | some content =>
    rcases h with h | h
    · rw [hfd] at h; exact Option.noConfusion h
    · simp [h]

theorem nextFiles_idle (fs : FileSystem) :
    ∀ (j : Nat) (r : Reader), (r.fd = none ∨ r.fdIdx = 0) →
      ∀ p ∈ (nextFiles fs j r).1, p = (false, none) := by
  intro j
  induction j with
  | zero => intro r _ p hp; simp [nextFiles] at hp
  | succ j ih =>
    intro r h p hp
    obtain ⟨e1, e2, e3⟩ := nextFile_idle fs r h
    simp only [nextFiles, List.mem_cons] at hp
    rcases hp with hp | hp
    · rw [hp, e1, e2]
    · exact ih _ (Or.inl e3) p hp

theorem openFile_single (fs : FileSystem) (r0 : Reader) (file : List Char)
    (h : ¬ ∃ B, file = B ++ ['.', '1']) :
    (openFile fs r0 file).reader.fd = none ∨ (openFile fs r0 file).reader.fdIdx = 0 := by
  unfold openFile
  cases hp : findLastOf '.' file with
  | none => left; simp [intClose]
  | some pos =>
    have hne : ¬ file.drop pos = ['.', '1'] := by
      intro hd
      exact h ⟨file.take pos, by rw [← hd, List.take_append_drop]⟩
    cases hf : fs file <;> simp [hne]

/-- Claim C10. Opening `B.1` records base name `B` and file index 1; from index
`k ≥ 1` a `nextFile` call tries `B.(k+1)`, and successive calls after opening
`B.1` try `B.2, B.3, ...` in increasing order, returning true while the file
can be opened and false at the first one that cannot; after opening a path that
does not end in `.1` every `nextFile` call returns false without trying any
file. -/
theorem open_rotation (fs : FileSystem) (r0 : Reader) :
    (∀ B : List Char,
        (openFile fs r0 (B ++ ['.', '1'])).reader.baseName = B
          ∧ (openFile fs r0 (B ++ ['.', '1'])).reader.fdIdx = 1)
      ∧ (∀ (B : List Char) (m : Nat), 1 ≤ m → m + 1 < 2 ^ 32 →
          (∀ k, 1 ≤ k → k ≤ m → (fs (rotatedName B k)).isSome = true) →
          fs (rotatedName B (m + 1)) = none →
          (nextFiles fs m (openFile fs r0 (B ++ ['.', '1'])).reader).1
            = (List.range' 2 (m - 1)).map (fun k => (true, some (rotatedName B k)))
                ++ [(false, some (rotatedName B (m + 1)))])
      ∧ (∀ (file : List Char), (¬ ∃ B, file = B ++ ['.', '1']) →
          ∀ j, ∀ p ∈ (nextFiles fs j (openFile fs r0 file).reader).1, p = (false, none)) := by
  refine ⟨fun B => ⟨(openFile_dot1 fs r0 B).1, (openFile_dot1 fs r0 B).2.1⟩, ?_, ?_⟩
  · intro B m hm hb hex hmiss
    obtain ⟨e1, e2, e3, _⟩ := openFile_dot1 fs r0 B
    have h1 : (fs (B ++ ['.', '1'])).isSome = true := by
      have := hex 1 (le_refl 1) hm
      rwa [rotatedName_one] at this
    obtain ⟨j, rfl⟩ : ∃ j, m = j + 1 := ⟨m - 1, by omega⟩
    have := nextFiles_rotation fs B j 1 (openFile fs r0 (B ++ ['.', '1'])).reader e1 e2
      (le_refl 1) (by rw [e3]; exact h1) (by omega)
      (fun i hi1 hi2 => hex i (by omega) (by omega))
      (by have : 1 + j + 1 = j + 1 + 1 := by omega
          rw [this]; exact hmiss)
    have e : 1 + j + 1 = j + 1 + 1 := by omega
    simpa [e] using this
  · intro file hfile j
    exact nextFiles_idle fs j _ (openFile_single fs r0 file hfile)

theorem headerWord_leBytes (w : Nat) (hw : w < 2 ^ 32) :
    headerWord (w % 256) (w / 256 % 256) (w / 65536 % 256) (w / 16777216 % 256) = w := by
  unfold headerWord
  omega

theorem payloadBytes_fresh (rooms : List Nat) :
    ((rooms.map (fun n => ({ size := n, data := [], payload := 0 } : DataBuffer))).map
      (fun b => b.data.take b.payload)).flatten = [] := by
  induction rooms with
  | nil => rfl
  | cons n ns _ => simp

theorem fillBuffers_complete :
    ∀ (rooms : List Nat) (size : Nat) (payload rest : List Nat),
      payload.length = size → size ≤ rooms.sum →
      (fillBuffers (rooms.map (fun n => ({ size := n, data := [], payload := 0 } : DataBuffer)))
          size (payload ++ rest)).err = false
        ∧ (fillBuffers (rooms.map (fun n => ({ size := n, data := [], payload := 0 } : DataBuffer)))
          size (payload ++ rest)).overrun = false
        ∧ (fillBuffers (rooms.map (fun n => ({ size := n, data := [], payload := 0 } : DataBuffer)))
          size (payload ++ rest)).fd = some rest
        ∧ (((fillBuffers (rooms.map (fun n => ({ size := n, data := [], payload := 0 } : DataBuffer)))
          size (payload ++ rest)).buffers.map (fun b => b.data.take b.payload)).flatten = payload) := by
  intro rooms
  induction rooms with
  | nil =>
    intro size payload rest hlen hcap
    simp at hcap
    subst hcap
    have : payload = [] := List.length_eq_zero.mp hlen
    subst this
    simp [fillBuffers]
  | cons room rooms ih =>
    intro size payload rest hlen hcap
    cases size with
    | zero =>
      have : payload = [] := List.length_eq_zero.mp hlen
      subst this
      simp only [fillBuffers, List.nil_append, true_and]
      exact payloadBytes_fresh (room :: rooms)
    | succ size =>
      simp only [List.sum_cons] at hcap
      by_cases hroom : size + 1 > room
      · -- the buffer is filled whole and the iterator advances
        have htake : (List.take room (payload ++ rest)).length = room := by
          simp [List.length_take]; omega
        have hrec := ih (size + 1 - room) (payload.drop room) rest
          (by simp [List.length_drop, hlen]) (by omega)
        have hdrop : List.drop room (payload ++ rest) = payload.drop room ++ rest := by
          rw [List.drop_append_of_le_length (by omega)]
        obtain ⟨h1, h2, h3, h4⟩ := hrec
        simp only [List.map_cons, fillBuffers, hroom, if_true, htake, ne_eq, not_true_eq_false,
          if_false, Nat.sub_self, hdrop, h1, h2, h3, true_and, List.flatten_cons, h4]
        rw [List.take_take, Nat.min_self, List.take_append_of_le_length (by omega),
          List.take_append_drop]
      · -- the remainder fits: the loop ends with this buffer
        have hb : (if size + 1 > room then room else size + 1) = size + 1 := by simp [hroom]
        have htake : List.take (size + 1) (payload ++ rest) = payload := by
          rw [List.take_append_of_le_length (by omega), List.take_of_length_le (by omega)]
        have hdrop : List.drop (size + 1) (payload ++ rest) = rest := by
          rw [← hlen]; simp
        simp only [List.map_cons, fillBuffers, hb, htake, hlen, ne_eq, not_true_eq_false,
          if_false, hdrop]
        by_cases hz : room - (size + 1) = 0
        · have hrs : room = size + 1 := by omega
          have hrec := ih 0 [] rest rfl (Nat.zero_le _)
          simp only [List.nil_append, fillBuffers] at hrec
          simp only [hz, if_true, Nat.sub_self, fillBuffers, true_and, List.map_cons,
            List.flatten_cons]
          rw [payloadBytes_fresh]
          simp [hlen]
        · simp only [hz, if_false, true_and, List.map_cons, List.flatten_cons]
          rw [payloadBytes_fresh]
          simp [hlen]

theorem decodeHeader_record (r : Record) (hv : r.Valid) :
    decodeHeader ((r.chan <<< 28) ||| r.sizeField) = (r.chan, r.payload.length)
      ∧ (r.chan <<< 28) ||| r.sizeField < 2 ^ 32 := by
  obtain ⟨hc, _, hs, hw⟩ := hv
  rw [header_or_eq_add r.chan r.sizeField hs, decodeHeader_add r.chan r.sizeField hc hs]
  refine ⟨?_, by omega⟩
  by_cases h0 : r.chan = 0
  · have := hw h0
    simp only [h0, if_true, Record.sizeField]
    congr 1
    omega
  · simp [h0, Record.sizeField]

theorem readRecords_record (reqFrame : Nat → List Nat) (hcap : ∀ size, size ≤ (reqFrame size).sum)
    (r : Record) (hv : r.Valid) (rest : List Nat) (fuel : Nat) (t : Thread)
    (hfd : t.reader.fd = some (encodeRecord r ++ rest)) :
    ∃ f : DataFrame, f.summary = r.summary
      ∧ readRecords reqFrame (fuel + 1) t
        = readRecords reqFrame fuel
            { reader := { t.reader with fd := some rest }, err := false, sent := t.sent ++ [f] } := by
  obtain ⟨hdec, hlt⟩ := decodeHeader_record r hv
  have hsize : 4 < r.payload.length := hv.2.1
  obtain ⟨h1, h2, h3, h4⟩ := fillBuffers_complete (reqFrame r.payload.length) r.payload.length
    r.payload rest rfl (hcap _)
  refine ⟨{ buffers := (fillBuffers (freshFrame (reqFrame r.payload.length)).buffers
              r.payload.length (r.payload ++ rest)).buffers
            channel := r.chan, error := 0 }, ?_, ?_⟩
  · simp only [DataFrame.summary, DataFrame.payloadBytes, Record.summary, freshFrame]
    rw [h4]
  · have hne : ¬ r.payload.length = 0 := by omega
    have hgt : ¬ r.payload.length ≤ 4 := by omega
    rw [readRecords, hfd]
    simp only [encodeRecord, leBytes, List.cons_append, List.nil_append]
    simp only [headerWord_leBytes _ hlt, hdec, hne, hgt, if_false]
    simp only [freshFrame] at h1 h2 h3 ⊢
    simp only [h1, h2, h3, Bool.false_eq_true, if_false]

theorem readRecords_file (reqFrame : Nat → List Nat) (hcap : ∀ size, size ≤ (reqFrame size).sum) :
    ∀ (recs : List Record), (∀ r ∈ recs, r.Valid) →
      ∀ (fuel : Nat) (t : Thread), recs.length < fuel → t.err = false →
        t.reader.fd = some (encodeFile recs) →
        ∃ frames : List DataFrame,
          frames.map DataFrame.summary = recs.map Record.summary
            ∧ readRecords reqFrame fuel t
              = Run.finished { reader := { t.reader with fd := some [] }, err := false
                               sent := t.sent ++ frames } := by
  intro recs
  induction recs with
  | nil =>
    intro _ fuel t hfuel herr hfd
    obtain ⟨k, rfl⟩ : ∃ k, fuel = k + 1 := ⟨fuel - 1, by simp at hfuel; omega⟩
    refine ⟨[], rfl, ?_⟩
    rw [readRecords, hfd]
    simp only [encodeFile, List.map_nil, List.flatten_nil, List.append_nil]
    cases t with
    | mk reader err sent =>
      simp only at herr
      subst herr
      rfl
  | cons r recs ih =>
    intro hvalid fuel t hfuel herr hfd
    obtain ⟨k, rfl⟩ : ∃ k, fuel = k + 1 := ⟨fuel - 1, by simp at hfuel; omega⟩
    have hfd2 : t.reader.fd = some (encodeRecord r ++ encodeFile recs) := by
      rw [hfd]; simp [encodeFile]
    obtain ⟨f, hf, hstep⟩ := readRecords_record reqFrame hcap r
      (hvalid r (List.mem_cons_self _ _)) (encodeFile recs) k t hfd2
    obtain ⟨frames, hframes, hrun⟩ := ih (fun r2 h2 => hvalid r2 (List.mem_cons_of_mem _ h2)) k
      { reader := { t.reader with fd := some (encodeFile recs) }, err := false
        sent := t.sent ++ [f] }
      (by simp at hfuel; omega) rfl rfl
    refine ⟨f :: frames, by simp [hf, hframes], ?_⟩
    rw [hstep, hrun]
    simp

theorem runFiles_rotation (reqFrame : Nat → List Nat) (hcap : ∀ size, size ≤ (reqFrame size).sum)
    (fs : FileSystem) (B : List Char) (recs : Nat → List Record) (M : Nat) :
    ∀ (j k fuel : Nat) (t : Thread),
      t.reader.baseName = B → t.reader.fdIdx = k → 1 ≤ k →
      t.reader.fd = some (encodeFile (recs k)) → t.err = false →
      k + j + 1 < 2 ^ 32 →
      (∀ i, k < i → i ≤ k + j → fs (rotatedName B i) = some (encodeFile (recs i))) →
      fs (rotatedName B (k + j + 1)) = none →
      (∀ i, k ≤ i → i ≤ k + j → ∀ r ∈ recs i, r.Valid) →
      (∀ i, k ≤ i → i ≤ k + j → (recs i).length ≤ M) →
      j + 1 + M ≤ fuel →
      ∃ frames : List DataFrame,
        frames.map DataFrame.summary
            = (List.range' k (j + 1)).flatMap (fun i => (recs i).map Record.summary)
          ∧ runFiles reqFrame fs fuel t
            = Run.finished { reader := { t.reader with fd := none, fdIdx := k + j + 1 }
                             err := false, sent := t.sent ++ frames } := by
  intro j
  induction j with
  | zero =>
    intro k fuel t hB hk h1 hfd herr hb _ hmiss hvalid hM hfuel
    obtain ⟨⟨bn, idx, fd, act⟩, err, sent⟩ := t
    simp only at hB hk hfd herr
    subst hB hk hfd herr
    obtain ⟨f, rfl⟩ : ∃ f, fuel = f + 1 := ⟨fuel - 1, by omega⟩
    obtain ⟨frames, hframes, hrun⟩ := readRecords_file reqFrame hcap (recs idx)
      (hvalid idx (le_refl idx) (by omega)) (f + 1)
      { reader := { baseName := bn, fdIdx := idx, fd := some (encodeFile (recs idx)), active := act }
        err := false, sent := sent }
      (by have := hM idx (le_refl idx) (by omega); omega) rfl rfl
    obtain ⟨_, e2, e3⟩ := nextFile_step fs
      { baseName := bn, fdIdx := idx, fd := some [], active := act } [] rfl h1 (by simpa using hb)
    simp only at e2 e3
    refine ⟨frames, by simp [hframes], ?_⟩
    rw [runFiles, hrun]
    simp only [if_true, e2, e3, hmiss, Option.isSome_none, Bool.false_eq_true, if_false]
  | succ j ih =>
    intro k fuel t hB hk h1 hfd herr hb hex hmiss hvalid hM hfuel
    obtain ⟨⟨bn, idx, fd, act⟩, err, sent⟩ := t
    simp only at hB hk hfd herr
    subst hB hk hfd herr
    obtain ⟨f, rfl⟩ : ∃ f, fuel = f + 1 := ⟨fuel - 1, by omega⟩
    obtain ⟨frames, hframes, hrun⟩ := readRecords_file reqFrame hcap (recs idx)
      (hvalid idx (le_refl idx) (by omega)) (f + 1)
      { reader := { baseName := bn, fdIdx := idx, fd := some (encodeFile (recs idx)), active := act }
        err := false, sent := sent }
      (by have := hM idx (le_refl idx) (by omega); omega) rfl rfl
    obtain ⟨_, e2, e3⟩ := nextFile_step fs
      { baseName := bn, fdIdx := idx, fd := some [], active := act } [] rfl h1
      (by simp only; omega)
    simp only at e2 e3
    have hnext := hex (idx + 1) (by omega) (by omega)
    obtain ⟨frames2, hframes2, hrun2⟩ := ih (idx + 1) f
      { reader := { baseName := bn, fdIdx := idx + 1, fd := some (encodeFile (recs (idx + 1)))
                    active := act }
        err := false, sent := sent ++ frames }
      rfl rfl (by omega) rfl rfl (by omega)
      (fun i hi1 hi2 => hex i (by omega) (by omega))
      (by have : idx + 1 + j + 1 = idx + (j + 1) + 1 := by omega
          rw [this]; exact hmiss)
      (fun i hi1 hi2 => hvalid i (by omega) (by omega))
      (fun i hi1 hi2 => hM i (by omega) (by omega))
      (by omega)
    refine ⟨frames ++ frames2, ?_, ?_⟩
    · rw [List.map_append, hframes, hframes2, List.range'_succ idx (j + 1)]
      simp
    · rw [runFiles, hrun]
      simp only [if_true, e2, e3, hnext, Option.isSome_some]
      rw [hrun2]
      have : idx + 1 + j + 1 = idx + (j + 1) + 1 := by omega
      simp [this]

/-- Claim C8. With rotated files `B.1 .. B.n` (`B.(n+1)` cannot be opened) that
hold complete records of decoded byte size greater than 4, and a downstream
slave whose frames have room for the size asked, the reader thread started by
opening `B.1` ends, given enough fuel, having called `sendFrame` once per
record, in file order and in record order within each file, each frame with
the channel and exactly the payload bytes of its record and no error bit; the
descriptor is then closed and `isActive()` is false. -/
theorem runThread_replays_files (reqFrame : Nat → List Nat) (fs : FileSystem) (r0 : Reader)
    (B : List Char) (n : Nat) (recs : Nat → List Record) (M fuel : Nat)
    (hn : 1 ≤ n) (hbound : n + 1 < 2 ^ 32)
    (hfiles : ∀ k, 1 ≤ k → k ≤ n → fs (rotatedName B k) = some (encodeFile (recs k)))
    (hmissing : fs (rotatedName B (n + 1)) = none)
    (hvalid : ∀ k, 1 ≤ k → k ≤ n → ∀ r ∈ recs k, r.Valid)
    (hcap : ∀ size, size ≤ (reqFrame size).sum)
    (hM : ∀ k, 1 ≤ k → k ≤ n → (recs k).length ≤ M)
    (hfuel : n + M ≤ fuel) :
    (openFile fs r0 (B ++ ['.', '1'])).raised = none
      ∧ ∃ t : Thread,
          runThread reqFrame fs fuel (openFile fs r0 (B ++ ['.', '1'])).reader = Run.finished t
            ∧ t.sent.map DataFrame.summary
              = (List.range' 1 n).flatMap (fun k => (recs k).map Record.summary)
            ∧ t.err = false
            ∧ t.reader.fd = none
            ∧ isActive t.reader = false := by
  have h1 : fs (B ++ ['.', '1']) = some (encodeFile (recs 1)) := by
    have := hfiles 1 (le_refl 1) hn
    rwa [rotatedName_one] at this
  obtain ⟨e1, e2, e3, e4⟩ := openFile_dot1 fs r0 B
  refine ⟨e4.mpr (by rw [h1]; rfl), ?_⟩
  obtain ⟨j, rfl⟩ : ∃ j, n = j + 1 := ⟨n - 1, by omega⟩
  obtain ⟨frames, hframes, hrun⟩ := runFiles_rotation reqFrame hcap fs B recs M j 1 fuel
    { reader := (openFile fs r0 (B ++ ['.', '1'])).reader, err := false, sent := [] }
    e1 e2 (le_refl 1) (by rw [e3, h1]) rfl (by omega)
    (fun i hi1 hi2 => hfiles i (by omega) (by omega))
    (by have : 1 + j + 1 = j + 1 + 1 := by omega
        rw [this]; exact hmissing)
    (fun i hi1 hi2 => hvalid i hi1 (by omega))
    (fun i hi1 hi2 => hM i hi1 (by omega))
    (by omega)
  refine ⟨{ reader := { (openFile fs r0 (B ++ ['.', '1'])).reader with
                          fd := none, fdIdx := 1 + j + 1, active := false }
            err := false, sent := frames }, ?_, ?_, rfl, rfl, rfl⟩
  · rw [runThread, hrun]
    simp
  · simpa using hframes

theorem open_rotation_witness :
    (nextFiles sampleFs 2 (openFile sampleFs sampleReader (['l', 'o', 'g'] ++ ['.', '1'])).reader).1
        = (List.range' 2 (2 - 1)).map (fun k => (true, some (rotatedName ['l', 'o', 'g'] k)))
            ++ [(false, some (rotatedName ['l', 'o', 'g'] (2 + 1)))]
      ∧ (nextFiles sampleFs 2
          (openFile sampleFs sampleReader (['l', 'o', 'g'] ++ ['.', '1'])).reader).1
        = [(true, some ['l', 'o', 'g', '.', '2']), (false, some ['l', 'o', 'g', '.', '3'])]
      ∧ ∀ p ∈ (nextFiles sampleFs 3 (openFile sampleFs sampleReader ['l', 'o', 'g']).reader).1,
          p = (false, none) :=
  ⟨(open_rotation sampleFs sampleReader).2.1 ['l', 'o', 'g'] 2 (by decide) (by decide)
      (by intro k h1 h2
          interval_cases k <;> decide)
      (by decide),
    by decide,
    (open_rotation sampleFs sampleReader).2.2 ['l', 'o', 'g']
      (by rintro ⟨B, hB⟩
          have h := congrArg List.reverse hB
          simp at h) 3⟩

theorem runThread_replays_files_witness :
    ∃ t : Thread,
      runThread sampleSlave sampleFs 4
          (openFile sampleFs sampleReader (['l', 'o', 'g'] ++ ['.', '1'])).reader = Run.finished t
        ∧ t.sent.map DataFrame.summary
          = (List.range' 1 2).flatMap (fun k => (sampleRecords k).map Record.summary)
        ∧ t.err = false
        ∧ t.reader.fd = none
        ∧ isActive t.reader = false :=
  (runThread_replays_files sampleSlave sampleFs sampleReader ['l', 'o', 'g'] 2 sampleRecords 2 4
    (by decide) (by decide)
    (by intro k h1 h2
        interval_cases k <;> decide)
    (by decide)
    (by intro k h1 h2
        interval_cases k <;> decide)
    (by intro size
        simp [sampleSlave])
    (by intro k h1 h2
        interval_cases k <;> decide)
    (by decide)).2

theorem fillBuffers_err :
    ∀ (bufs : List DataBuffer) (size : Nat) (content : List Nat),
      (fillBuffers bufs size content).err = true →
      (fillBuffers bufs size content).overrun = false ∧ (fillBuffers bufs size content).fd = none := by
  intro bufs
  induction bufs with
  | nil =>
    intro size content h
    cases size <;> simp [fillBuffers] at h
  | cons b bs ih =>
    intro size content h
    cases size with
    | zero => simp [fillBuffers] at h
    | succ size =>
      simp only [fillBuffers] at h ⊢
      generalize (if size + 1 > b.size then b.size else size + 1) = bS at h ⊢
      by_cases h1 : (List.take bS content).length = bS
      · by_cases h2 : b.size - bS = 0
        · simp only [h1, ne_eq, not_true_eq_false, if_false, h2, if_true] at h ⊢
          exact ih _ _ h
        · simp only [h1, ne_eq, not_true_eq_false, if_false, h2] at h
          exact absurd h (by simp)
      · simp only [h1, ne_eq, not_false_eq_true, if_true, and_self]

theorem fillBuffers_truncated :
    ∀ (rooms : List Nat) (size : Nat) (content : List Nat),
      content.length < size → size ≤ rooms.sum →
      (fillBuffers (rooms.map (fun n => ({ size := n, data := [], payload := 0 } : DataBuffer)))
        size content).err = true := by
  intro rooms
  induction rooms with
  | nil => intro size content h1 h2; simp at h2; omega
  | cons room rooms ih =>
    intro size content h1 h2
    cases size with
    | zero => omega
    | succ size =>
      simp only [List.sum_cons] at h2
      simp only [List.map_cons, fillBuffers]
      by_cases hroom : size + 1 > room
      · by_cases hlen : (List.take room content).length = room
        · have hc : room ≤ content.length := by
            rw [List.length_take] at hlen; omega
          simp only [hroom, if_true, hlen, ne_eq, not_true_eq_false, if_false, Nat.sub_self]
          exact ih _ _ (by rw [List.length_drop]; omega) (by omega)
        · simp only [hroom, if_true, hlen, ne_eq, not_false_eq_true]
      · have hlen : ¬ (List.take (size + 1) content).length = size + 1 := by
          rw [List.length_take]; omega
        simp only [hroom, if_false, hlen, ne_eq, not_false_eq_true, if_true]

theorem readRecords_header (reqFrame : Nat → List Nat) (fuel : Nat)
    (t : Thread) (b0 b1 b2 b3 : Nat) (rest : List Nat)
    (hfd : t.reader.fd = some (b0 :: b1 :: b2 :: b3 :: rest)) :
    readRecords reqFrame (fuel + 1) t
      = if (decodeHeader (headerWord b0 b1 b2 b3)).2 = 0 then
          Run.finished { reader := { t.reader with fd := some rest }, err := true, sent := t.sent }
        else if (decodeHeader (headerWord b0 b1 b2 b3)).2 ≤ 4 then
          readRecords reqFrame fuel
            { reader := { t.reader with fd := some rest }, err := t.err, sent := t.sent }
        else if (fillBuffers
            (freshFrame (reqFrame (decodeHeader (headerWord b0 b1 b2 b3)).2)).buffers
            (decodeHeader (headerWord b0 b1 b2 b3)).2 rest).overrun = true then Run.undefined
        else
          readRecords reqFrame fuel
            { reader := { t.reader with fd := (fillBuffers
                (freshFrame (reqFrame (decodeHeader (headerWord b0 b1 b2 b3)).2)).buffers
                (decodeHeader (headerWord b0 b1 b2 b3)).2 rest).fd }
              err := (fillBuffers
                (freshFrame (reqFrame (decodeHeader (headerWord b0 b1 b2 b3)).2)).buffers
                (decodeHeader (headerWord b0 b1 b2 b3)).2 rest).err
              sent := t.sent ++ [deliveredFrame (decodeHeader (headerWord b0 b1 b2 b3)).1
                (fillBuffers
                  (freshFrame (reqFrame (decodeHeader (headerWord b0 b1 b2 b3)).2)).buffers
                  (decodeHeader (headerWord b0 b1 b2 b3)).2 rest)] } := by
  rw [readRecords, hfd]
  rfl

theorem readRecords_closed (reqFrame : Nat → List Nat) (fuel : Nat) (t : Thread)
    (hfd : t.reader.fd = none) : readRecords reqFrame (fuel + 1) t = Run.finished t := by
  rw [readRecords, hfd]

/-- Claim C11. When the payload read of a record returns fewer bytes than
requested, the reader closes the file, still passes the partially filled frame
to `sendFrame` with error bit `0x1` set, sends no further frame, and leaves the
file loop without calling `nextFile`: the file index stays as it was, whatever
files exist. -/
theorem runThread_short_read (reqFrame : Nat → List Nat) (fs : FileSystem) (fuel : Nat)
    (t : Thread) (b0 b1 b2 b3 : Nat) (rest : List Nat)
    (hfd : t.reader.fd = some (b0 :: b1 :: b2 :: b3 :: rest))
    (hsize : 4 < (decodeHeader (headerWord b0 b1 b2 b3)).2)
    (hshort : (fillBuffers (freshFrame (reqFrame (decodeHeader (headerWord b0 b1 b2 b3)).2)).buffers
        (decodeHeader (headerWord b0 b1 b2 b3)).2 rest).err = true) :
    ∃ frame : DataFrame,
      frame.error = 1 ∧ frame.channel = (decodeHeader (headerWord b0 b1 b2 b3)).1
        ∧ readRecords reqFrame (fuel + 2) t
            = Run.finished { reader := { t.reader with fd := none }, err := true
                             sent := t.sent ++ [frame] }
        ∧ runFiles reqFrame fs (fuel + 2) t
            = Run.finished { reader := { t.reader with fd := none }, err := true
                             sent := t.sent ++ [frame] } := by
  obtain ⟨hover, hnone⟩ := fillBuffers_err _ _ _ hshort
  have hne : ¬ (decodeHeader (headerWord b0 b1 b2 b3)).2 = 0 := by omega
  have hgt : ¬ (decodeHeader (headerWord b0 b1 b2 b3)).2 ≤ 4 := by omega
  have hread : readRecords reqFrame (fuel + 2) t
      = Run.finished
          { reader := { t.reader with fd := none }, err := true
            sent := t.sent ++ [deliveredFrame (decodeHeader (headerWord b0 b1 b2 b3)).1
              (fillBuffers (freshFrame (reqFrame (decodeHeader (headerWord b0 b1 b2 b3)).2)).buffers
                (decodeHeader (headerWord b0 b1 b2 b3)).2 rest)] } := by
    rw [readRecords_header reqFrame (fuel + 1) t b0 b1 b2 b3 rest hfd]
    simp only [hne, hgt, if_false, hover, Bool.false_eq_true, hnone, hshort]
    exact readRecords_closed reqFrame fuel _ rfl
  refine ⟨_, ?_, ?_, hread, ?_⟩
  · simp [deliveredFrame, hshort]
  · rfl
  · rw [runFiles, hread]
    simp

/-- Claim C12. When the reader decodes a header whose byte size is 0 it sends no
frame for it, reads nothing more from the file, and leaves the file loop
without calling `nextFile`: the frames sent and the file index stay as they
were, whatever follows in the file and whatever files exist. -/
theorem runThread_end_marker (reqFrame : Nat → List Nat) (fs : FileSystem) (fuel : Nat)
    (t : Thread) (b0 b1 b2 b3 : Nat) (rest : List Nat)
    (hfd : t.reader.fd = some (b0 :: b1 :: b2 :: b3 :: rest))
    (hzero : (decodeHeader (headerWord b0 b1 b2 b3)).2 = 0) :
    readRecords reqFrame (fuel + 1) t
        = Run.finished { reader := { t.reader with fd := some rest }, err := true, sent := t.sent }
      ∧ runFiles reqFrame fs (fuel + 1) t
        = Run.finished { reader := { t.reader with fd := some rest }, err := true, sent := t.sent }
      ∧ (t.err = false → t.sent = [] →
          runThread reqFrame fs (fuel + 1) t.reader
            = Run.finished { reader := { t.reader with fd := none, active := false }
                             err := true, sent := [] }) := by
  have hread : readRecords reqFrame (fuel + 1) t
      = Run.finished { reader := { t.reader with fd := some rest }, err := true
                       sent := t.sent } := by
    rw [readRecords_header reqFrame fuel t b0 b1 b2 b3 rest hfd]
    simp only [hzero, if_true]
  have hfiles : runFiles reqFrame fs (fuel + 1) t
      = Run.finished { reader := { t.reader with fd := some rest }, err := true
                       sent := t.sent } := by
    rw [runFiles, hread]
    simp
  refine ⟨hread, hfiles, ?_⟩
  intro herr hsent
  obtain ⟨reader, err, sent⟩ := t
  simp only at herr hsent hfiles
  subst herr hsent
  rw [runThread, hfiles]

/-- Claim C13, as amended. For a header with non-zero decoded byte size `s`: when
`s ≤ 4` the reader sends no frame for it and goes on with the bytes right after
the header; when `s > 4` (and the frame obtained has room) it passes a frame
with the channel of the header to `sendFrame`. -/
theorem readRecords_skip_small (reqFrame : Nat → List Nat) (fuel : Nat)
    (t : Thread) (b0 b1 b2 b3 : Nat) (rest : List Nat)
    (hfd : t.reader.fd = some (b0 :: b1 :: b2 :: b3 :: rest))
    (hne : (decodeHeader (headerWord b0 b1 b2 b3)).2 ≠ 0) :
    ((decodeHeader (headerWord b0 b1 b2 b3)).2 ≤ 4 →
        readRecords reqFrame (fuel + 1) t
          = readRecords reqFrame fuel
              { reader := { t.reader with fd := some rest }, err := t.err, sent := t.sent })
      ∧ (4 < (decodeHeader (headerWord b0 b1 b2 b3)).2 →
          (fillBuffers (freshFrame (reqFrame (decodeHeader (headerWord b0 b1 b2 b3)).2)).buffers
            (decodeHeader (headerWord b0 b1 b2 b3)).2 rest).overrun = false →
          ∃ frame : DataFrame,
            frame.channel = (decodeHeader (headerWord b0 b1 b2 b3)).1
              ∧ readRecords reqFrame (fuel + 1) t
                = readRecords reqFrame fuel
                    { reader := { t.reader with
                        fd := (fillBuffers
                          (freshFrame (reqFrame (decodeHeader (headerWord b0 b1 b2 b3)).2)).buffers
                          (decodeHeader (headerWord b0 b1 b2 b3)).2 rest).fd }
                      err := (fillBuffers
                          (freshFrame (reqFrame (decodeHeader (headerWord b0 b1 b2 b3)).2)).buffers
                          (decodeHeader (headerWord b0 b1 b2 b3)).2 rest).err
                      sent := t.sent ++ [frame] }) := by
  constructor
  · intro hle
    rw [readRecords_header reqFrame fuel t b0 b1 b2 b3 rest hfd]
    simp only [hne, hle, if_false, if_true]
  · intro hgt hover
    have hle : ¬ (decodeHeader (headerWord b0 b1 b2 b3)).2 ≤ 4 := by omega
    refine ⟨deliveredFrame (decodeHeader (headerWord b0 b1 b2 b3)).1
      (fillBuffers (freshFrame (reqFrame (decodeHeader (headerWord b0 b1 b2 b3)).2)).buffers
        (decodeHeader (headerWord b0 b1 b2 b3)).2 rest), rfl, ?_⟩
    rw [readRecords_header reqFrame fuel t b0 b1 b2 b3 rest hfd]
    simp only [hne, hle, if_false, hover, Bool.false_eq_true]

theorem runThread_short_read_witness :
    runFiles sampleSlave sampleFs 2 sampleTruncated
        = Run.finished
            { reader := { sampleTruncated.reader with fd := none }, err := true
              sent := [{ buffers := [⟨3, [1, 2, 3], 3⟩, ⟨0, [], 0⟩, ⟨6, [], 0⟩]
                         channel := 1, error := 1 }] }
      ∧ (sampleFs (rotatedName ['l', 'o', 'g'] 2)).isSome = true
      ∧ ∃ frame : DataFrame,
          frame.error = 1 ∧ frame.channel = (decodeHeader (headerWord 6 0 0 16)).1
            ∧ readRecords sampleSlave (0 + 2) sampleTruncated
                = Run.finished { reader := { sampleTruncated.reader with fd := none }, err := true
                                 sent := sampleTruncated.sent ++ [frame] }
            ∧ runFiles sampleSlave sampleFs (0 + 2) sampleTruncated
                = Run.finished { reader := { sampleTruncated.reader with fd := none }, err := true
                                 sent := sampleTruncated.sent ++ [frame] } :=
  ⟨by decide, by decide,
    runThread_short_read sampleSlave sampleFs 0 sampleTruncated 6 0 0 16 [1, 2, 3]
      rfl (by decide) (by decide)⟩

theorem runThread_end_marker_witness :
    (decodeHeader (headerWord 0 0 0 16)).2 = 0
      ∧ runFiles sampleSlave sampleFs (1 + 1) sampleEndMarker
        = Run.finished
            { reader := { sampleEndMarker.reader with
                            fd := some (encodeRecord ⟨2, [1, 2, 3, 4, 5, 6]⟩) }
              err := true, sent := sampleEndMarker.sent } :=
  ⟨by decide,
    (runThread_end_marker sampleSlave sampleFs 1 sampleEndMarker 0 0 0 16
      (encodeRecord ⟨2, [1, 2, 3, 4, 5, 6]⟩) (by decide) (by decide)).2.1⟩

/-- A record of channel 1 whose size is 4, not less than the header width, with
its four payload bytes present, is not delivered: the reader ends without
having sent any frame. -/
theorem skip_size_four_counterexample :
    decodeHeader (headerWord 4 0 0 16) = (1, 4) ∧ ¬ ((4 : Nat) < 4)
      ∧ readRecords sampleSlave 3 sampleSmall
        = Run.finished { reader := { sampleSmall.reader with fd := some [] }
                         err := true, sent := [] } := by
  decide

theorem readRecords_skip_small_witness :
    (decodeHeader (headerWord 4 0 0 16)).2 ≠ 0 ∧ (decodeHeader (headerWord 4 0 0 16)).2 ≤ 4
      ∧ readRecords sampleSlave (2 + 1) sampleSmall
        = readRecords sampleSlave 2
            { reader := { sampleSmall.reader with fd := some [0, 0, 0, 0] }
              err := sampleSmall.err, sent := sampleSmall.sent } :=
  ⟨by decide, by decide,
    (readRecords_skip_small sampleSlave 2 sampleSmall 4 0 0 16 [0, 0, 0, 0] rfl (by decide)).1
      (by decide)⟩

end LegacyStreamReader

namespace Memory

/-- A request of size 1 to a Slave that reports access limits 4 and 8 is
dispatched to `doTransaction` and no error is reported. -/
theorem reqTransaction_no_size_check_counterexample :
    (1 : Nat) < sampleMaster.slave.minAccess
      ∧ (sampleMaster.reqTransaction 0x100 1 true false).dispatched
          = [{ slave := sampleMaster.slave, address := 0x100, size := 1
               write := true, posted := false }]
      ∧ (sampleMaster.reqTransaction 0x100 1 true false).reported ≠ some TranError.sizeRange := by
  decide

/-- Claim C14, as amended. Whatever access limits the attached Slave reports and
whatever the size of the request, `reqTransaction` reports no error and
dispatches the request once to the `doTransaction` of the attached Slave, with
the address, size and access type as given. -/
theorem reqTransaction_dispatches (m : Master) (address size : Nat) (write posted : Bool) :
    (m.reqTransaction address size write posted).dispatched
        = [{ slave := m.getSlave, address := address, size := size
             write := write, posted := posted }]
      ∧ (m.reqTransaction address size write posted).reported = none :=
  ⟨rfl, rfl⟩

theorem run_slave (m : Master) (ops : List MasterOp) :
    (Master.run m ops).1 = { index := m.index, slave := lastSetSlave m.slave ops } := by
  induction ops generalizing m with
  | nil => rfl
  | cons op ops ih =>
    cases op with
    | setSlave s => simp only [Master.run, lastSetSlave]; rw [ih]; rfl
    | reqTransaction a sz w p => simp only [Master.run, lastSetSlave]; rw [ih]

theorem run_append (m : Master) (pre post : List MasterOp) :
    (Master.run m (pre ++ post)).2
      = (Master.run m pre).2 ++ (Master.run (Master.run m pre).1 post).2 := by
  induction pre generalizing m with
  | nil => simp [Master.run]
  | cons op pre ih =>
    cases op with
    | setSlave s => simp only [List.cons_append, Master.run]; exact ih _
    | reqTransaction a sz w p =>
      simp only [List.cons_append, Master.run, List.append_assoc]
      exact congrArg _ (ih m)

theorem run_requests (m : Master) (ops : List MasterOp) :
    (Master.run m ops).2.map (fun d => (d.address, d.size, d.write, d.posted))
      = requestsOf ops := by
  induction ops generalizing m with
  | nil => rfl
  | cons op ops ih =>
    cases op with
    | setSlave s => simp only [Master.run, requestsOf]; exact ih _
    | reqTransaction a sz w p =>
      simp only [Master.run, requestsOf, Master.reqTransaction, List.singleton_append,
        List.map_cons]
      rw [ih]

/-- Claim C15. For a sequence of calls on one Master, every `reqTransaction`
call makes exactly one `doTransaction` call, on the Slave last passed to
`setSlave` before it (the Slave attached at the start when there was none),
with the address, size and access type requested; the `doTransaction` calls
come in the order of the `reqTransaction` calls. -/
theorem reqTransaction_order (m : Master) :
    (∀ (pre post : List MasterOp) (address size : Nat) (write posted : Bool),
        (Master.run m (pre ++ MasterOp.reqTransaction address size write posted :: post)).2
          = (Master.run m pre).2
            ++ [{ slave := lastSetSlave m.slave pre, address := address, size := size
                  write := write, posted := posted }]
            ++ (Master.run { index := m.index, slave := lastSetSlave m.slave pre } post).2)
      ∧ (∀ ops : List MasterOp,
          (Master.run m ops).2.map (fun d => (d.address, d.size, d.write, d.posted))
            = requestsOf ops)
      ∧ (∀ ops : List MasterOp, (Master.run m ops).2.length = (requestsOf ops).length) := by
  refine ⟨?_, run_requests m, ?_⟩
  · intro pre post address size write posted
    rw [run_append, run_slave]
    simp [Master.run, Master.reqTransaction]
  · intro ops
    rw [← run_requests m ops, List.length_map]

/-- Claim C16. The default `Slave.doTransaction` completes the transaction once,
with error Unsupported, and so does `SlaveWrap.doTransaction` when there is no
Python override; when the override raises, the wrapper completes the
transaction once with Unsupported after whatever the override did, so exactly
once when the override raised before completing anything. -/
theorem doTransaction_unsupported (s : Slave) (transaction : Nat) :
    s.doTransaction transaction = [(transaction, TranError.unsupported)]
      ∧ SlaveWrap.doTransaction s TranOverride.absent transaction
          = [(transaction, TranError.unsupported)]
      ∧ SlaveWrap.doTransaction s (TranOverride.raises []) transaction
          = [(transaction, TranError.unsupported)]
      ∧ (∀ done : List Completion,
          SlaveWrap.doTransaction s (TranOverride.raises done) transaction
            = done ++ [(transaction, TranError.unsupported)]) :=
  ⟨rfl, rfl, rfl, fun _ => rfl⟩

theorem addTransaction_lookup (s : Slave) (id t : Nat) :
    (s.addTransaction id t).tranMap id = some t := by
  simp [Slave.addTransaction]

/-- Claim C17. After `addTransaction` registers a live transaction `t` under an
id, `getTransaction` of that id returns `t` and leaves the map as it is;
`getTransaction` of an id the map holds nothing under, as for an id never
added, returns NULL and leaves the Slave as it is. -/
theorem getTransaction_after_add (live : Nat → Bool) (s : Slave) (id t : Nat)
    (hlive : live t = true) :
    (s.addTransaction id t).getTransaction live id = (some t, s.addTransaction id t)
      ∧ (∀ (s2 : Slave) (other : Nat), s2.tranMap other = none →
          s2.getTransaction live other = (none, s2))
      ∧ (∀ (min max other : Nat) (adds : List (Nat × Nat)),
          (∀ a ∈ adds, a.1 ≠ other) →
          ((adds.foldl (fun acc a => acc.addTransaction a.1 a.2) (Slave.create min max)).tranMap
            other) = none) := by
  refine ⟨?_, ?_, ?_⟩
  · unfold Slave.getTransaction
    rw [addTransaction_lookup]
    simp [hlive]
  · intro s2 other h
    unfold Slave.getTransaction
    rw [h]
  · intro min max other adds
    have gen : ∀ (init : Slave), init.tranMap other = none → (∀ a ∈ adds, a.1 ≠ other) →
        ((adds.foldl (fun acc a => acc.addTransaction a.1 a.2) init).tranMap other) = none := by
      induction adds with
      | nil => intro init h _; exact h
      | cons a adds ih =>
        intro init h hne
        rw [List.foldl_cons]
        apply ih
        · have : ¬ other = a.1 := fun e => hne a (List.mem_cons_self _ _) e.symm
          simp [Slave.addTransaction, this, h]
        · intro b hb
          exact hne b (List.mem_cons_of_mem _ hb)
    exact gen (Slave.create min max) rfl

theorem getTransaction_after_add_witness :
    sampleLive 20 = true
      ∧ ((sampleTracking.addTransaction 2 20).getTransaction sampleLive 2
            = (some 20, sampleTracking.addTransaction 2 20)
          ∧ (∀ (s2 : Slave) (other : Nat), s2.tranMap other = none →
              s2.getTransaction sampleLive other = (none, s2))
          ∧ (∀ (min max other : Nat) (adds : List (Nat × Nat)),
              (∀ a ∈ adds, a.1 ≠ other) →
              ((adds.foldl (fun acc a => acc.addTransaction a.1 a.2)
                (Slave.create min max)).tranMap other) = none)) :=
  ⟨by decide, getTransaction_after_add sampleLive sampleTracking 2 20 (by decide)⟩

/-- Claim C18, the code at the failing input. With an expired transaction under
id 1 and a live one under id 2, `getTransaction(2)` returns the live
transaction and the map still holds the expired entry under id 1. -/
theorem getTransaction_leaves_stale :
    (sampleTracking.getTransaction sampleLive 2).1 = some 20
      ∧ (sampleTracking.getTransaction sampleLive 2).2.tranMap 1 = some 10
      ∧ sampleLive 10 = false := by
  decide

/-- What `getTransaction` does sweep: the entry looked up, when it is expired. -/
theorem getTransaction_sweeps_lookup (live : Nat → Bool) (s : Slave) (index t : Nat)
    (h : s.tranMap index = some t) (hdead : live t = false) :
    (s.getTransaction live index).1 = none
      ∧ (s.getTransaction live index).2.tranMap index = none
      ∧ ∀ k, k ≠ index → (s.getTransaction live index).2.tranMap k = s.tranMap k := by
  unfold Slave.getTransaction
  rw [h]
  simp only [hdead, if_true]
  refine ⟨trivial, trivial, ?_⟩
  intro k hk
  simp [hk]

theorem apply_limits (s : Slave) (op : SlaveOp) :
    (s.apply op).min = s.min ∧ (s.apply op).max = s.max := by
  cases op with
  | addTransaction id t => exact ⟨rfl, rfl⟩
  | getTransaction live index =>
    simp only [Slave.apply, Slave.getTransaction]
    cases s.tranMap index with
    | none => exact ⟨rfl, rfl⟩
    | some t => by_cases h : live t = false <;> simp [h]
  | delMaster live index => exact ⟨rfl, rfl⟩
  | doMinAccess => exact ⟨rfl, rfl⟩
  | doMaxAccess => exact ⟨rfl, rfl⟩
  | doAddress => exact ⟨rfl, rfl⟩
  | doTransaction t => exact ⟨rfl, rfl⟩

/-- Claim C19. For a Slave constructed with `(min, max)`, after any sequence of
calls, `doMinAccess()` returns `min`, `doMaxAccess()` returns `max` and
`doAddress()` returns 0. -/
theorem slave_limits_constant (min max : Nat) (ops : List SlaveOp) :
    (ops.foldl Slave.apply (Slave.create min max)).doMinAccess = min
      ∧ (ops.foldl Slave.apply (Slave.create min max)).doMaxAccess = max
      ∧ (ops.foldl Slave.apply (Slave.create min max)).doAddress = 0 := by
  have gen : ∀ (s : Slave), (ops.foldl Slave.apply s).min = s.min
      ∧ (ops.foldl Slave.apply s).max = s.max := by
    induction ops with
    | nil => intro s; exact ⟨rfl, rfl⟩
    | cons op ops ih =>
      intro s
      rw [List.foldl_cons]
      obtain ⟨h1, h2⟩ := ih (s.apply op)
      obtain ⟨h3, h4⟩ := apply_limits s op
      exact ⟨h1.trans h3, h2.trans h4⟩
  obtain ⟨h1, h2⟩ := gen (Slave.create min max)
  exact ⟨h1, h2, rfl⟩

/-- Claim C20, the code at the failing input and in general. For a wrapper
constructed with `(4, 8)`, `defDoMaxAccess()` returns 4 while the base
`doMaxAccess()` returns 8; for every Slave `defDoMaxAccess()` returns the min
access value. -/
theorem defDoMaxAccess_returns_min :
    SlaveWrap.defDoMaxAccess (Slave.create 4 8) = 4
      ∧ (Slave.create 4 8).doMaxAccess = 8
      ∧ (∀ min max : Nat, SlaveWrap.defDoMaxAccess (Slave.create min max) = min)
      ∧ (∀ min max : Nat, SlaveWrap.defDoMinAccess (Slave.create min max) = min)
      ∧ (∀ min max : Nat, (Slave.create min max).doMaxAccess = max) :=
  ⟨rfl, rfl, fun _ _ => rfl, fun _ _ => rfl, fun _ _ => rfl⟩

end Memory

namespace Variable

theorem floatOfUInt_exact (n : Nat) (h : n < 2 ^ 24) : floatOfUInt n = n := by
  have he : floatExp n = 0 := by
    unfold floatExp
    rw [if_pos h]
  unfold floatOfUInt
  simp only [he, Nat.pow_zero, Nat.mod_one, Nat.div_one, Nat.mul_zero, Nat.mul_one]
  rfl

theorem ceilDiv_eight (s : Nat) : ceilDiv s 8 = (s + 7) / 8 := by
  unfold ceilDiv
  rfl

/-- For fields `[0]` of size `[8]` the constructor records 0 as highest byte,
not `ceil(8/8) = 1`. -/
theorem highTranByte_counterexample :
    (create ModelId.uInt 0 [0] [8]).highTranByte = 0 ∧ ceilDiv (0 + 8) 8 = 1
      ∧ (create ModelId.uInt 0 [0] [8]).varBytes = 1
      ∧ (create ModelId.uInt 0 [0] [8]).highTranByte ≠ ceilDiv (0 + 8) 8 := by
  decide

theorem create_last_field (modelId : ModelId) (offset : Nat) (bitOffset bitSize : List Nat)
    (lastOff lastSize : Nat)
    (hoff : bitOffset.getLast? = some lastOff) (hsize : bitSize.getLast? = some lastSize)
    (hpos : 0 < lastOff + lastSize) (hlt : lastOff + lastSize < 2 ^ 24) :
    (create modelId offset bitOffset bitSize).varBytes = (lastOff + lastSize + 7) / 8
      ∧ (create modelId offset bitOffset bitSize).highTranByte
          = (lastOff + lastSize + 7) / 8 - 1 := by
  have h1 : bitOffset.getLastD 0 = lastOff := by
    rw [List.getLastD_eq_getLast?, hoff]; rfl
  have h2 : bitSize.getLastD 0 = lastSize := by
    rw [List.getLastD_eq_getLast?, hsize]; rfl
  have hmod : (lastOff + lastSize) % 2 ^ 32 = lastOff + lastSize :=
    Nat.mod_eq_of_lt (by omega)
  have hvar : (create modelId offset bitOffset bitSize).varBytes = (lastOff + lastSize + 7) / 8 := by
    simp only [create, h1, h2, hmod, floatOfUInt_exact _ hlt, ceilDiv_eight]
  have hhigh : (create modelId offset bitOffset bitSize).highTranByte
      = ((create modelId offset bitOffset bitSize).varBytes + 2 ^ 32 - 1) % 2 ^ 32 := rfl
  refine ⟨hvar, ?_⟩
  rw [hhigh, hvar]
  omega

/-- Claim C21, as amended. For non-empty bit-offset and bit-size lists whose
last elements sum to `s` with `0 < s < 2^24`, the constructor records
`varBytes = ceil(s/8)` and, as highest accessed byte, `highTranByte =
ceil(s/8) - 1`. -/
theorem create_high_byte (modelId : ModelId) (offset : Nat) (bitOffset bitSize : List Nat)
    (lastOff lastSize : Nat)
    (hoff : bitOffset.getLast? = some lastOff) (hsize : bitSize.getLast? = some lastSize)
    (hpos : 0 < lastOff + lastSize) (hlt : lastOff + lastSize < 2 ^ 24) :
    (create modelId offset bitOffset bitSize).varBytes = (lastOff + lastSize + 7) / 8
      ∧ (create modelId offset bitOffset bitSize).highTranByte
          = (lastOff + lastSize + 7) / 8 - 1
      ∧ 8 * ((lastOff + lastSize + 7) / 8) ≥ lastOff + lastSize
      ∧ 8 * ((lastOff + lastSize + 7) / 8 - 1) < lastOff + lastSize := by
  obtain ⟨hvar, hhigh⟩ := create_last_field modelId offset bitOffset bitSize lastOff lastSize
    hoff hsize hpos hlt
  exact ⟨hvar, hhigh, by omega, by omega⟩

theorem create_high_byte_witness :
    (create ModelId.uInt 0 [4] [12]).varBytes = (4 + 12 + 7) / 8
      ∧ (create ModelId.uInt 0 [4] [12]).highTranByte = (4 + 12 + 7) / 8 - 1
      ∧ 8 * ((4 + 12 + 7) / 8) ≥ 4 + 12
      ∧ 8 * ((4 + 12 + 7) / 8 - 1) < 4 + 12 :=
  create_high_byte ModelId.uInt 0 [4] [12] 4 12 rfl rfl (by decide) (by decide)

theorem headD_of_head? (l : List Nat) (a : Nat) (h : l.head? = some a) : l.headD 0 = a := by
  cases l with
  | nil => simp at h
  | cons x xs => simpa using h

theorem ceil_window_bounds (s m : Nat) (hs : 0 < s) (hm : 0 < m) :
    s ≤ 8 * (ceilDiv s (m * 8) * m)
      ∧ 8 * (ceilDiv s (m * 8) * m) < s + 8 * m
      ∧ 8 * (ceilDiv s (m * 8) * m - m) < s
      ∧ m ∣ ceilDiv s (m * 8) * m := by
  have hd : 0 < m * 8 := by omega
  have h1 := Nat.div_add_mod (s + m * 8 - 1) (m * 8)
  have h2 := Nat.mod_lt (s + m * 8 - 1) hd
  have h3 : 8 * (ceilDiv s (m * 8) * m) = m * 8 * ((s + m * 8 - 1) / (m * 8)) := by
    unfold ceilDiv; ring
  refine ⟨by omega, by omega, by omega, Dvd.intro_left _ rfl⟩

theorem floor_window_bounds (x m : Nat) (hm : 0 < m) :
    x / (m * 8) * m ≤ x / 8 ∧ x / 8 < x / (m * 8) * m + m ∧ m ∣ x / (m * 8) * m := by
  have e : x / (m * 8) = x / 8 / m := by
    rw [Nat.mul_comm, Nat.div_div_eq_div_mul]
  have h1 := Nat.div_add_mod (x / 8) m
  have h2 := Nat.mod_lt (x / 8) hm
  have h3 : x / (m * 8) * m = m * (x / 8 / m) := by rw [e, Nat.mul_comm]
  refine ⟨by omega, by omega, Dvd.intro_left _ rfl⟩

theorem shiftOffsetDown_fields (v : Variable) (shift minSize : Nat) :
    (shiftOffsetDown v shift minSize).varBytes
        = (ceilDiv (floatOfUInt (((shiftOffsetDown v shift minSize).bitOffset.getLastD 0
              + (shiftOffsetDown v shift minSize).bitSize.getLastD 0) % 2 ^ 32))
            (floatOfUInt minSize * 8) * minSize) % 2 ^ 32
      ∧ (shiftOffsetDown v shift minSize).lowTranByte
        = (floatOfUInt ((shiftOffsetDown v shift minSize).bitOffset.headD 0)
            / (floatOfUInt minSize * 8) * minSize) % 2 ^ 32
      ∧ (shiftOffsetDown v shift minSize).highTranByte
        = ((shiftOffsetDown v shift minSize).varBytes + 2 ^ 32 - 1) % 2 ^ 32
      ∧ (shiftOffsetDown v shift minSize).bitSize = v.bitSize := by
  unfold shiftOffsetDown
  by_cases h : shift ≠ 0 <;> simp [h]

/-- Claim C22, the code at the failing input. With a first bit offset of
16777223, which `float` cannot hold (it rounds to 16777224), and `minSize = 1`,
the low byte recorded is 2097153, above `floor(16777223/8) = 2097152`, the byte
that holds the first bit: the window does not cover the variable. -/
theorem shiftOffsetDown_float_rounding :
    (shiftOffsetDown (create ModelId.uInt 16 [16777223] [1]) 0 1).lowTranByte = 2097153
      ∧ (shiftOffsetDown (create ModelId.uInt 16 [16777223] [1]) 0 1).bitOffset = [16777223]
      ∧ floatOfUInt 16777223 = 16777224
      ∧ 16777223 / 8 = 2097152
      ∧ ¬ ((shiftOffsetDown (create ModelId.uInt 16 [16777223] [1]) 0 1).lowTranByte
            ≤ 16777223 / 8) := by
  decide

/-- The window of `shiftOffsetDown` where the `float` conversions are exact. For
`0 < minSize < 2^24`, with the bit offsets taken after the shift, a first bit
offset below `2^24` and a last bit offset and size summing to `s` with
`0 < s < 2^24`:
`lowTranByte` is the largest multiple of `minSize` not above
`floor(bitOffset[0]/8)`, `varBytes` is the smallest multiple of `minSize` with
`8*varBytes ≥ s`, and `highTranByte = varBytes - 1`. -/
theorem shiftOffsetDown_window (v : Variable) (shift minSize off0 lastOff lastSize : Nat)
    (hmin : 0 < minSize) (hminlt : minSize < 2 ^ 24)
    (hhead : (shiftOffsetDown v shift minSize).bitOffset.head? = some off0)
    (hlast : (shiftOffsetDown v shift minSize).bitOffset.getLast? = some lastOff)
    (hsize : (shiftOffsetDown v shift minSize).bitSize.getLast? = some lastSize)
    (hoff0 : off0 < 2 ^ 24) (hpos : 0 < lastOff + lastSize) (hs : lastOff + lastSize < 2 ^ 24) :
    (minSize ∣ (shiftOffsetDown v shift minSize).lowTranByte
        ∧ (shiftOffsetDown v shift minSize).lowTranByte ≤ off0 / 8
        ∧ off0 / 8 < (shiftOffsetDown v shift minSize).lowTranByte + minSize)
      ∧ (minSize ∣ (shiftOffsetDown v shift minSize).varBytes
        ∧ lastOff + lastSize ≤ 8 * (shiftOffsetDown v shift minSize).varBytes
        ∧ 8 * ((shiftOffsetDown v shift minSize).varBytes - minSize) < lastOff + lastSize)
      ∧ (shiftOffsetDown v shift minSize).highTranByte
          = (shiftOffsetDown v shift minSize).varBytes - 1 := by
  obtain ⟨hv, hl, hh, _⟩ := shiftOffsetDown_fields v shift minSize
  have e1 : (shiftOffsetDown v shift minSize).bitOffset.getLastD 0 = lastOff := by
    rw [List.getLastD_eq_getLast?, hlast]; rfl
  have e2 : (shiftOffsetDown v shift minSize).bitSize.getLastD 0 = lastSize := by
    rw [List.getLastD_eq_getLast?, hsize]; rfl
  have e3 := headD_of_head? _ _ hhead
  have hmod : (lastOff + lastSize) % 2 ^ 32 = lastOff + lastSize :=
    Nat.mod_eq_of_lt (by omega)
  rw [e1, e2, hmod, floatOfUInt_exact _ hs, floatOfUInt_exact _ hminlt] at hv
  rw [e3, floatOfUInt_exact _ hoff0, floatOfUInt_exact _ hminlt] at hl
  obtain ⟨c1, c2, c3, c4⟩ := ceil_window_bounds (lastOff + lastSize) minSize hpos hmin
  obtain ⟨f1, f2, f3⟩ := floor_window_bounds off0 minSize hmin
  have hvlt : ceilDiv (lastOff + lastSize) (minSize * 8) * minSize < 2 ^ 32 := by omega
  have hllt : off0 / (minSize * 8) * minSize < 2 ^ 32 := by omega
  rw [Nat.mod_eq_of_lt hvlt] at hv
  rw [Nat.mod_eq_of_lt hllt] at hl
  rw [hh, hv, hl]
  refine ⟨⟨f3, f1, f2⟩, ⟨c4, c1, c3⟩, ?_⟩
  omega

theorem shiftOffsetDown_window_witness :
    (4 ∣ (shiftOffsetDown (create ModelId.uInt 16 [4] [12]) 3 4).lowTranByte
        ∧ (shiftOffsetDown (create ModelId.uInt 16 [4] [12]) 3 4).lowTranByte ≤ 28 / 8
        ∧ 28 / 8 < (shiftOffsetDown (create ModelId.uInt 16 [4] [12]) 3 4).lowTranByte + 4)
      ∧ (4 ∣ (shiftOffsetDown (create ModelId.uInt 16 [4] [12]) 3 4).varBytes
        ∧ 28 + 12 ≤ 8 * (shiftOffsetDown (create ModelId.uInt 16 [4] [12]) 3 4).varBytes
        ∧ 8 * ((shiftOffsetDown (create ModelId.uInt 16 [4] [12]) 3 4).varBytes - 4) < 28 + 12)
      ∧ (shiftOffsetDown (create ModelId.uInt 16 [4] [12]) 3 4).highTranByte
          = (shiftOffsetDown (create ModelId.uInt 16 [4] [12]) 3 4).varBytes - 1 :=
  shiftOffsetDown_window (create ModelId.uInt 16 [4] [12]) 3 4 28 28 12
    (by decide) (by decide) (by decide) (by decide) (by decide) (by decide) (by decide)
    (by decide)

/-- Claim C24, the code at the failing input and on the other ids. For model id
double the constructor leaves the set accessor unassigned and sets the get
accessor to NULL, whatever the bit lists; for bytes, uint, int, bool, string,
float and fixed both accessors point to a Block function. -/
theorem create_accessors (offset : Nat) (bitOffset bitSize : List Nat) :
    (create ModelId.double offset bitOffset bitSize).setFuncPy = FuncPtr.unassigned
      ∧ (create ModelId.double offset bitOffset bitSize).getFuncPy = FuncPtr.null
      ∧ ∀ m : ModelId,
          (m = ModelId.bytes ∨ m = ModelId.uInt ∨ m = ModelId.int ∨ m = ModelId.bool
            ∨ m = ModelId.string ∨ m = ModelId.float ∨ m = ModelId.fixed) →
          (∃ f, (create m offset bitOffset bitSize).setFuncPy = FuncPtr.func f)
            ∧ (∃ g, (create m offset bitOffset bitSize).getFuncPy = FuncPtr.func g) := by
  refine ⟨rfl, rfl, ?_⟩
  intro m hm
  rcases hm with h | h | h | h | h | h | h <;> subst h
  · exact ⟨⟨_, rfl⟩, ⟨_, rfl⟩⟩
  · constructor
    · simp only [create, selectSet]
      split <;> exact ⟨_, rfl⟩
    · simp only [create, selectGet]
      split <;> exact ⟨_, rfl⟩
  · constructor
    · simp only [create, selectSet]
      split <;> exact ⟨_, rfl⟩
    · simp only [create, selectGet]
      split <;> exact ⟨_, rfl⟩
  · exact ⟨⟨_, rfl⟩, ⟨_, rfl⟩⟩
  · exact ⟨⟨_, rfl⟩, ⟨_, rfl⟩⟩
  · exact ⟨⟨_, rfl⟩, ⟨_, rfl⟩⟩
  · exact ⟨⟨_, rfl⟩, ⟨_, rfl⟩⟩

/-- Claim C25, the code at the failing input and in general. A uint or int
Variable of 64 bits gets the native set accessor and the Python-function get
accessor; for a single field of `n` bits the set accessor is native up to 64
bits and the get accessor only up to 60, so they differ exactly for 61 to 64
bits. -/
theorem create_thresholds :
    (create ModelId.uInt 0 [0] [64]).setFuncPy = FuncPtr.func SetFunc.setUIntPy
      ∧ (create ModelId.uInt 0 [0] [64]).getFuncPy = FuncPtr.func GetFunc.getPyFunc
      ∧ (create ModelId.int 0 [0] [64]).setFuncPy = FuncPtr.func SetFunc.setIntPy
      ∧ (create ModelId.int 0 [0] [64]).getFuncPy = FuncPtr.func GetFunc.getPyFunc
      ∧ ∀ (offset : Nat) (bitOffset : List Nat) (n : Nat), n < 2 ^ 32 →
          (((create ModelId.uInt offset bitOffset [n]).setFuncPy = FuncPtr.func SetFunc.setUIntPy
              ↔ n ≤ 64)
            ∧ ((create ModelId.uInt offset bitOffset [n]).getFuncPy
                = FuncPtr.func GetFunc.getUIntPy ↔ n ≤ 60)) := by
  refine ⟨by decide, by decide, by decide, by decide, ?_⟩
  intro offset bitOffset n hn
  have hn2 : n < 4294967296 := hn
  have hb : ([n] : List Nat).foldl (fun acc b => (acc + b) % 2 ^ 32) 0 = n := by
    simp [Nat.mod_eq_of_lt hn2]
  constructor
  · simp only [create, selectSet, hb]
    by_cases h : n > 64
    · have : ¬ n ≤ 64 := by omega
      simp [h, this]
    · have : n ≤ 64 := by omega
      simp [h, this]
  · simp only [create, selectGet, hb]
    by_cases h : n > 60
    · have : ¬ n ≤ 60 := by omega
      simp [h, this]
    · have : n ≤ 60 := by omega
      simp [h, this]

/-- With the fields listed as offsets `[16, 0]` of sizes `[8, 8]` the
constructor records low byte 2 and high byte 0, so the field at bit 16 (byte 2)
is above the high byte and the field at bit 0 (byte 0) is below the low
byte. -/
theorem create_order_counterexample :
    (create ModelId.uInt 0 [16, 0] [8, 8]).lowTranByte = 2
      ∧ (create ModelId.uInt 0 [16, 0] [8, 8]).highTranByte = 0
      ∧ ¬ ((create ModelId.uInt 0 [16, 0] [8, 8]).lowTranByte ≤ 0 / 8)
      ∧ ¬ ((16 + 8 + 7) / 8 - 1 ≤ (create ModelId.uInt 0 [16, 0] [8, 8]).highTranByte) := by
  decide

/-- Claim C26, as amended. When the first listed field has the lowest bit offset
and the last listed field has the highest end, that end being positive and
below `2^24`, every listed field lies inside the byte range the constructor
records. -/
theorem create_covers_fields (modelId : ModelId) (offset : Nat) (bitOffset bitSize : List Nat)
    (off0 lastOff lastSize : Nat)
    (hhead : bitOffset.head? = some off0)
    (hoff : bitOffset.getLast? = some lastOff) (hsize : bitSize.getLast? = some lastSize)
    (hpos : 0 < lastOff + lastSize) (hlt : lastOff + lastSize < 2 ^ 24)
    (hfirst : ∀ b ∈ bitOffset, off0 ≤ b)
    (hend : ∀ (i b n : Nat), bitOffset[i]? = some b → bitSize[i]? = some n → b + n ≤ lastOff + lastSize) :
    ∀ (i b n : Nat), bitOffset[i]? = some b → bitSize[i]? = some n →
      (create modelId offset bitOffset bitSize).lowTranByte ≤ b / 8
        ∧ (b + n + 7) / 8 - 1 ≤ (create modelId offset bitOffset bitSize).highTranByte := by
  intro i b n hb hn
  obtain ⟨_, hhigh⟩ := create_last_field modelId offset bitOffset bitSize lastOff lastSize
    hoff hsize hpos hlt
  have hmem : b ∈ bitOffset := by
    obtain ⟨hi, he⟩ := List.getElem?_eq_some_iff.mp hb
    exact he ▸ List.getElem_mem hi
  have h0 : off0 ≤ b := hfirst b hmem
  have hbn := hend i b n hb hn
  have hoff0 : off0 < 2 ^ 24 := by omega
  have hlow : (create modelId offset bitOffset bitSize).lowTranByte = off0 / 8 := by
    simp only [create, headD_of_head? _ _ hhead, floatOfUInt_exact _ hoff0]
  rw [hlow, hhigh]
  constructor
  · exact Nat.div_le_div_right h0
  · have : (b + n + 7) / 8 ≤ (lastOff + lastSize + 7) / 8 := Nat.div_le_div_right (by omega)
    omega

theorem create_covers_fields_witness :
    (create ModelId.uInt 0 [0, 4, 16] [4, 12, 8]).lowTranByte ≤ 4 / 8
      ∧ (4 + 12 + 7) / 8 - 1 ≤ (create ModelId.uInt 0 [0, 4, 16] [4, 12, 8]).highTranByte
      ∧ (create ModelId.uInt 0 [0, 4, 16] [4, 12, 8]).lowTranByte = 0
      ∧ (create ModelId.uInt 0 [0, 4, 16] [4, 12, 8]).highTranByte = 2 :=
  ⟨(create_covers_fields ModelId.uInt 0 [0, 4, 16] [4, 12, 8] 0 16 8 rfl rfl rfl
      (by decide) (by decide) (by decide)
      (by
        intro i b n hb hn
        match i with
        | 0 => simp at hb hn; omega
        | 1 => simp at hb hn; omega
        | 2 => simp at hb hn; omega
        | k + 3 => simp at hb) 1 4 12 rfl rfl).1,
    (create_covers_fields ModelId.uInt 0 [0, 4, 16] [4, 12, 8] 0 16 8 rfl rfl rfl
      (by decide) (by decide) (by decide)
      (by
        intro i b n hb hn
        match i with
        | 0 => simp at hb hn; omega
        | 1 => simp at hb hn; omega
        | 2 => simp at hb hn; omega
        | k + 3 => simp at hb) 1 4 12 rfl rfl).2,
    by decide, by decide⟩

theorem shiftOffsetDown_offsets (v : Variable) (shift minSize : Nat) :
    (shiftOffsetDown v shift minSize).offset
        = (if shift ≠ 0 then (v.offset + 2 ^ 64 - shift) % 2 ^ 64 else v.offset)
      ∧ (shiftOffsetDown v shift minSize).bitOffset
        = (if shift ≠ 0 then v.bitOffset.map (fun b => (b + (shift * 8) % 2 ^ 32) % 2 ^ 32)
            else v.bitOffset) := by
  unfold shiftOffsetDown
  by_cases h : shift ≠ 0 <;> simp [h]

/-- A variable at byte offset `2^29` with one field at bit 0, shifted down by
`2^29` bytes: `shift*8` wraps to 0 in 32 bits, so the offset drops to 0 while
the bit offset stays 0, and the absolute bit position falls from `2^32` to
0. -/
theorem shiftOffsetDown_wrap_counterexample :
    536870912 ≤ (create ModelId.uInt 536870912 [0] [8]).offset
      ∧ (shiftOffsetDown (create ModelId.uInt 536870912 [0] [8]) 536870912 4).offset = 0
      ∧ (shiftOffsetDown (create ModelId.uInt 536870912 [0] [8]) 536870912 4).bitOffset = [0]
      ∧ 8 * (create ModelId.uInt 536870912 [0] [8]).offset + 0 = 4294967296
      ∧ 8 * (shiftOffsetDown (create ModelId.uInt 536870912 [0] [8]) 536870912 4).offset + 0
          ≠ 8 * (create ModelId.uInt 536870912 [0] [8]).offset + 0 := by
  decide

/-- Claim C27, as amended. For `shift ≤ offset < 2^64` and every bit offset
`b` of the variable satisfying `b + 8*shift < 2^32` (no 32-bit wrap),
`shiftOffsetDown` lowers the offset by `shift`, raises every bit offset by
`8*shift`, so keeps every absolute bit position `8*offset + bitOffset[i]`, and
leaves the bit sizes untouched; with `shift = 0` the offset and all bit offsets
are unchanged, without any condition. -/
theorem shiftOffsetDown_preserves_position (v : Variable) (shift minSize : Nat)
    (hshift : shift ≤ v.offset) (hoff : v.offset < 2 ^ 64)
    (hbits : ∀ b ∈ v.bitOffset, b + 8 * shift < 2 ^ 32) :
    (shiftOffsetDown v shift minSize).offset = v.offset - shift
      ∧ (shiftOffsetDown v shift minSize).bitOffset = v.bitOffset.map (fun b => b + 8 * shift)
      ∧ (∀ (i b : Nat), v.bitOffset[i]? = some b →
          ∃ b2, (shiftOffsetDown v shift minSize).bitOffset[i]? = some b2
            ∧ 8 * (shiftOffsetDown v shift minSize).offset + b2 = 8 * v.offset + b)
      ∧ (shiftOffsetDown v shift minSize).bitSize = v.bitSize
      ∧ (shiftOffsetDown v 0 minSize).offset = v.offset
      ∧ (shiftOffsetDown v 0 minSize).bitOffset = v.bitOffset := by
  obtain ⟨ho, hb⟩ := shiftOffsetDown_offsets v shift minSize
  obtain ⟨ho0, hb0⟩ := shiftOffsetDown_offsets v 0 minSize
  obtain ⟨_, _, _, hsz⟩ := shiftOffsetDown_fields v shift minSize
  have e1 : (shiftOffsetDown v shift minSize).offset = v.offset - shift := by
    rw [ho]
    by_cases h : shift ≠ 0
    · rw [if_pos h]
      have : v.offset + 2 ^ 64 - shift = (v.offset - shift) + 2 ^ 64 := by omega
      rw [this, Nat.add_mod_right]
      exact Nat.mod_eq_of_lt (by omega)
    · rw [if_neg h]
      omega
  have e2 : (shiftOffsetDown v shift minSize).bitOffset
      = v.bitOffset.map (fun b => b + 8 * shift) := by
    rw [hb]
    by_cases h : shift ≠ 0
    · rw [if_pos h]
      apply List.map_congr_left
      intro b hbm
      have hlt := hbits b hbm
      have h8 : shift * 8 % 2 ^ 32 = 8 * shift := by
        rw [Nat.mul_comm]
        exact Nat.mod_eq_of_lt (by omega)
      show (b + shift * 8 % 2 ^ 32) % 2 ^ 32 = b + 8 * shift
      rw [h8]
      exact Nat.mod_eq_of_lt hlt
    · rw [if_neg h]
      have hz : shift = 0 := by omega
      subst hz
      simp
  refine ⟨e1, e2, ?_, hsz, ?_, ?_⟩
  · intro i b hib
    refine ⟨b + 8 * shift, ?_, ?_⟩
    · rw [e2, List.getElem?_map, hib]
      rfl
    · rw [e1]
      omega
  · simpa using ho0
  · simpa using hb0

theorem shiftOffsetDown_preserves_position_witness :
    (shiftOffsetDown (create ModelId.uInt 16 [4, 20] [12, 8]) 3 4).offset = 16 - 3
      ∧ (shiftOffsetDown (create ModelId.uInt 16 [4, 20] [12, 8]) 3 4).bitOffset
          = ([4, 20] : List Nat).map (fun b => b + 8 * 3)
      ∧ (∀ (i b : Nat), (create ModelId.uInt 16 [4, 20] [12, 8]).bitOffset[i]? = some b →
          ∃ b2, (shiftOffsetDown (create ModelId.uInt 16 [4, 20] [12, 8]) 3 4).bitOffset[i]?
                = some b2
            ∧ 8 * (shiftOffsetDown (create ModelId.uInt 16 [4, 20] [12, 8]) 3 4).offset + b2
                = 8 * (create ModelId.uInt 16 [4, 20] [12, 8]).offset + b)
      ∧ (shiftOffsetDown (create ModelId.uInt 16 [4, 20] [12, 8]) 3 4).bitSize = [12, 8]
      ∧ (shiftOffsetDown (create ModelId.uInt 16 [4, 20] [12, 8]) 0 4).offset = 16
      ∧ (shiftOffsetDown (create ModelId.uInt 16 [4, 20] [12, 8]) 0 4).bitOffset = [4, 20] :=
  shiftOffsetDown_preserves_position (create ModelId.uInt 16 [4, 20] [12, 8]) 3 4
    (by decide) (by decide) (by decide)

end Variable

namespace PgpCard

theorem mask_eq (lane vc : Nat) (hl : lane < 8) (hv : vc < 4) :
    mask lane vc = 2 ^ (4 * lane + vc) := by
  have h1 : (lane * 4) % 2 ^ 32 = lane * 4 := Nat.mod_eq_of_lt (by omega)
  have h2 : (lane * 4 + vc) % 2 ^ 32 = 4 * lane + vc := by
    rw [Nat.mod_eq_of_lt (by omega)]; omega
  have h3 : 2 ^ (4 * lane + vc) < 2 ^ 32 :=
    Nat.pow_lt_pow_right (by decide) (by omega)
  unfold mask
  rw [h1, h2, Nat.shiftLeft_eq, Nat.one_mul, Nat.mod_eq_of_lt h3]

/-- Claim C23. For `lane < 8` and `vc < 4` the constructor computes the mask
`2^(4*lane + vc)`: it fits in 32 bits, bit `i` of it is set exactly when
`i = 4*lane + vc` (so exactly one bit is set), and distinct `(lane, vc)` pairs
in that range give distinct masks. -/
theorem mask_one_bit (lane vc : Nat) (hl : lane < 8) (hv : vc < 4) :
    mask lane vc = 2 ^ (4 * lane + vc)
      ∧ mask lane vc < 2 ^ 32
      ∧ (∀ i : Nat, (mask lane vc).testBit i = true ↔ i = 4 * lane + vc)
      ∧ ∀ lane2 vc2 : Nat, lane2 < 8 → vc2 < 4 → mask lane2 vc2 = mask lane vc →
          lane2 = lane ∧ vc2 = vc := by
  have he := mask_eq lane vc hl hv
  refine ⟨he, ?_, ?_, ?_⟩
  · rw [he]
    exact Nat.pow_lt_pow_right (by decide) (by omega)
  · intro i
    rw [he, Nat.testBit_two_pow]
    simp only [decide_eq_true_eq]
    exact eq_comm
  · intro lane2 vc2 hl2 hv2 h
    rw [he, mask_eq lane2 vc2 hl2 hv2] at h
    have := Nat.pow_right_injective (le_refl 2) h
    omega

theorem mask_one_bit_witness :
    mask 2 1 = 2 ^ (4 * 2 + 1)
      ∧ mask 2 1 < 2 ^ 32
      ∧ (∀ i : Nat, (mask 2 1).testBit i = true ↔ i = 4 * 2 + 1)
      ∧ ∀ lane2 vc2 : Nat, lane2 < 8 → vc2 < 4 → mask lane2 vc2 = mask 2 1 →
          lane2 = 2 ∧ vc2 = 1 :=
  mask_one_bit 2 1 (by decide) (by decide)

theorem acceptFrameFrom_all_stale (c : PgpCard) (n : Nat) :
    ∀ (bs : List Buffer) (x : Nat) (drv : List Int),
      (∀ b ∈ bs, b.meta.testBit 31 = true ∧ b.meta.testBit 30 = true) →
      acceptFrameFrom c n x bs drv = { status := Status.returned, buffers := bs, calls := [] } := by
  intro bs
  induction bs with
  | nil => intro x drv _; simp [acceptFrameFrom]
  | cons b bs ih =>
    intro x drv h
    have hb := h b (List.mem_cons_self _ _)
    have e31 : (0x80000000 : Nat) = 2 ^ 31 := by norm_num
    have e30 : (0x40000000 : Nat) = 2 ^ 30 := by norm_num
    have hz : b.meta &&& 0x80000000 ≠ 0 := by
      rw [e31]; exact (and_bit_ne_zero_iff b.meta 31).mpr hb.1
    have hs : ¬ (b.meta &&& 0x40000000 = 0) := by
      rw [e30]
      intro h0
      have := (and_bit_eq_zero_iff b.meta 30).mp h0
      rw [hb.2] at this
      exact Bool.noConfusion this
    have hrest := ih (x + 1) drv (fun b2 hb2 => h b2 (List.mem_cons_of_mem _ hb2))
    simp only [acceptFrameFrom, hz, hs, if_true, if_false, ne_eq, not_false_eq_true, hrest]

theorem staleMarked_all_stale :
    ∀ (bs bs2 : List Buffer), List.Forall₂ StaleMarked bs bs2 →
      (∀ b ∈ bs, b.meta.testBit 31 = true) →
      ∀ b ∈ bs2, b.meta.testBit 31 = true ∧ b.meta.testBit 30 = true := by
  intro bs bs2 h
  induction h with
  | nil => intro _ b hb; simp at hb
  | cons hab _ ih =>
    intro hall b hb
    rcases List.mem_cons.mp hb with rfl | hb2
    · have := hab.1 (hall _ (List.mem_cons_self _ _))
      exact ⟨this.2.1, this.1⟩
    · exact ih (fun b3 hb3 => hall b3 (List.mem_cons_of_mem _ hb3)) b hb2

/-- Claim C28. For a frame whose buffers are all zero-copy (bit 31 set), once a
first `acceptFrame` has returned normally, a second `acceptFrame` of the frame
as the first one left it makes no driver write call, whatever the driver would
answer, leaves every buffer (so every origin tag) unchanged and returns
normally. -/
theorem acceptFrame_twice (c : PgpCard) (frame : Frame) (drv drv2 : List Int)
    (hzero : ∀ b ∈ frame.buffers, b.meta.testBit 31 = true)
    (h : (acceptFrame c frame drv).status = Status.returned) :
    (acceptFrame c { frame with buffers := (acceptFrame c frame drv).buffers } drv2).calls = []
      ∧ (acceptFrame c { frame with buffers := (acceptFrame c frame drv).buffers } drv2).buffers
          = (acceptFrame c frame drv).buffers
      ∧ (acceptFrame c { frame with buffers := (acceptFrame c frame drv).buffers } drv2).status
          = Status.returned := by
  have hst := staleMarked_all_stale _ _
    (acceptFrameFrom_staleMarked c frame.buffers.length frame.buffers 0 drv h) hzero
  have e : acceptFrame c { frame with buffers := (acceptFrame c frame drv).buffers } drv2
      = { status := Status.returned, buffers := (acceptFrame c frame drv).buffers, calls := [] } :=
    acceptFrameFrom_all_stale c _ _ 0 drv2 hst
  rw [e]
  exact ⟨rfl, rfl, rfl⟩

theorem acceptFrame_twice_witness :
    (∀ b ∈ (zeroCopyFrame sampleCard 3 sampleGrants).buffers, b.meta.testBit 31 = true)
      ∧ (acceptFrame sampleCard (zeroCopyFrame sampleCard 3 sampleGrants) [1, 1, 1]).status
          = Status.returned
      ∧ (acceptFrame sampleCard { zeroCopyFrame sampleCard 3 sampleGrants with
            buffers := (acceptFrame sampleCard (zeroCopyFrame sampleCard 3 sampleGrants)
              [1, 1, 1]).buffers } [1, -1]).calls = [] :=
  ⟨by decide, by decide,
    (acceptFrame_twice sampleCard (zeroCopyFrame sampleCard 3 sampleGrants) [1, 1, 1] [1, -1]
      (by decide) (by decide)).1⟩

end PgpCard

namespace LegacyStreamReader

theorem findLastOf_none_of_not_mem (ch : Char) :
    ∀ s : List Char, ch ∉ s → findLastOf ch s = none := by
  intro s
  induction s with
  | nil => intro _; rfl
  | cons x xs ih =>
    intro h
    have hx : ¬ x = ch := fun e => h (e ▸ List.mem_cons_self _ _)
    have hxs : ch ∉ xs := fun m => h (List.mem_cons_of_mem _ m)
    simp [findLastOf, ih hxs, hx]

theorem findLastOf_some_of_mem (ch : Char) :
    ∀ s : List Char, ch ∈ s → ∃ pos, findLastOf ch s = some pos := by
  intro s
  induction s with
  | nil => intro h; simp at h
  | cons x xs ih =>
    intro h
    cases hf : findLastOf ch xs with
    | some i => exact ⟨i + 1, by simp [findLastOf, hf]⟩
    | none =>
      have hx : x = ch := by
        rcases List.mem_cons.mp h with e | m
        · exact e.symm
        · obtain ⟨p, hp⟩ := ih m
          rw [hf] at hp
          exact Option.noConfusion hp
      exact ⟨0, by simp [findLastOf, hf, hx]⟩

/-- Claim C29, the code at the failing input and in general. Opening the path
`data`, which exists and holds no `.`, raises `std::out_of_range` before the
mode is selected: the base name is not set to the path and nothing is opened.
The same holds for every path without a `.`, whatever the file system; a path
that holds a `.` and does not end in `.1` does get through the mode selection,
with file index 0 and the path as base name. -/
theorem open_no_dot_raises (fs : FileSystem) (r0 : Reader) :
    ((openFile sampleDataFs sampleReader ['d', 'a', 't', 'a']).raised
        = some OpenError.outOfRange
      ∧ (openFile sampleDataFs sampleReader ['d', 'a', 't', 'a']).reader.baseName = []
      ∧ (openFile sampleDataFs sampleReader ['d', 'a', 't', 'a']).reader.fd = none
      ∧ (sampleDataFs ['d', 'a', 't', 'a']).isSome = true)
      ∧ (∀ file : List Char, '.' ∉ file →
          (openFile fs r0 file).raised = some OpenError.outOfRange
            ∧ (openFile fs r0 file).reader = intClose r0)
      ∧ (∀ file : List Char, '.' ∈ file → (¬ ∃ B, file = B ++ ['.', '1']) →
          (openFile fs r0 file).raised ≠ some OpenError.outOfRange
            ∧ (openFile fs r0 file).reader.fdIdx = 0
            ∧ (openFile fs r0 file).reader.baseName = file) := by
  refine ⟨by decide, ?_, ?_⟩
  · intro file h
    unfold openFile
    rw [findLastOf_none_of_not_mem '.' file h]
    exact ⟨rfl, rfl⟩
  · intro file hmem h
    obtain ⟨pos, hp⟩ := findLastOf_some_of_mem '.' file hmem
    have hne : ¬ file.drop pos = ['.', '1'] := by
      intro hd
      exact h ⟨file.take pos, by rw [← hd, List.take_append_drop]⟩
    unfold openFile
    rw [hp]
    cases hf : fs file <;> simp [hne, intClose]

end LegacyStreamReader

namespace EpicsV3

theorem sum_map_set (f : Worker → Nat) :
    ∀ (l : List Worker) (i : Nat) (a b : Worker), l[i]? = some a →
      ((l.set i b).map f).sum + f a = (l.map f).sum + f b := by
  intro l
  induction l with
  | nil => intro i a b h; simp at h
  | cons x xs ih =>
    intro i a b h
    cases i with
    | zero =>
      simp at h
      subst h
      simp only [List.set_cons_zero, List.map_cons, List.sum_cons]
      omega
    | succ j =>
      simp at h
      have := ih j a b h
      simp only [List.set_cons_succ, List.map_cons, List.sum_cons]
      omega

theorem mem_of_getElem?_eq (l : List Worker) (i : Nat) (w : Worker) (h : l[i]? = some w) :
    w ∈ l := by
  obtain ⟨hi, he⟩ := List.getElem?_eq_some_iff.mp h
  exact he ▸ List.getElem_mem hi

theorem workerOk_loopTest (en : Bool) (w : Worker) (h : WorkerOk w) (hpc : w.pc = WorkerPc.test) :
    WorkerOk (loopTest en w) := by
  obtain ⟨h1, h2, h3⟩ := h
  refine ⟨h1, ?_, h3⟩
  intro hn
  have := h2 hn
  rw [hpc] at this
  exact WorkerPc.noConfusion this

theorem workerOk_dequeue (w : Worker) (item : WorkPtr) (h : WorkerOk w)
    (hpc : w.pc = WorkerPc.pop) : WorkerOk (dequeue w item) := by
  obtain ⟨h1, h2, h3⟩ := h
  have hnone : none ∉ w.popped := by
    intro hn
    have := h2 hn
    rw [hpc] at this
    exact WorkerPc.noConfusion this
  cases item with
  | none =>
    refine ⟨?_, fun _ => rfl, ?_⟩
    · simp only [dequeue]
      rw [List.reduceOption_append, h1]
      simp
    · simp only [dequeue]
      rw [List.dropLast_concat]
      exact hnone
  | some k =>
    refine ⟨?_, ?_, ?_⟩
    · simp only [dequeue]
      rw [List.reduceOption_append, h1]
      simp
    · intro hn
      have hn2 : none ∈ w.popped ++ [some k] := by simpa only [dequeue] using hn
      rw [List.mem_append] at hn2
      rcases hn2 with hn3 | hn3
      · exact absurd hn3 hnone
      · simp at hn3
    · simp only [dequeue]
      rw [List.dropLast_concat]
      exact hnone

theorem runWorker_cases (s s2 : Server) (i : Nat) (h : runWorker s i = some s2) :
    ∃ w, s.workers[i]? = some w
      ∧ ((w.pc = WorkerPc.test
            ∧ s2 = { s with workers := s.workers.set i (loopTest s.workersEn w) })
        ∨ (w.pc = WorkerPc.pop ∧ ∃ item rest, s.workQueue = item :: rest
            ∧ s2 = { s with workQueue := rest, workers := s.workers.set i (dequeue w item) })) := by
  unfold runWorker at h
  cases hw : s.workers[i]? with
  | none => rw [hw] at h; exact Option.noConfusion h
  | some w =>
    rw [hw] at h
    refine ⟨w, rfl, ?_⟩
    cases hpc : w.pc with
    | done => simp [hpc] at h
    | test =>
      simp only [hpc] at h
      exact Or.inl ⟨rfl, (Option.some.inj h).symm⟩
    | pop =>
      simp only [hpc] at h
      cases hq : s.workQueue with
      | nil => simp [hq, queuePop] at h
      | cons item rest =>
        simp only [hq, queuePop] at h
        exact Or.inr ⟨rfl, item, rest, rfl, (Option.some.inj h).symm⟩

theorem le_sum_map (f : Worker → Nat) :
    ∀ (l : List Worker) (w : Worker), w ∈ l → f w ≤ (l.map f).sum := by
  intro l
  induction l with
  | nil => intro w h; simp at h
  | cons x xs ih =>
    intro w h
    simp only [List.map_cons, List.sum_cons]
    rcases List.mem_cons.mp h with e | m
    · subst e; omega
    · have := ih w m; omega

theorem phase_set (n : Nat) (s : Server) (pc : StopPc) (i : Nat) (w w2 : Worker)
    (q : List WorkPtr) (h : Phase n s pc) (hw : s.workers[i]? = some w)
    (hpc : w.pc ≠ WorkerPc.done) :
    Phase n { s with workQueue := q, workers := s.workers.set i w2 } pc := by
  cases pc with
  | entry => exact h
  | push x => exact h
  | join x =>
    obtain ⟨h1, h2, h3, h4⟩ := h
    refine ⟨h1, h2, h3, ?_⟩
    intro j w3 hj hget
    by_cases hji : i = j
    · subst hji
      exact absurd (h4 i w hj hw) hpc
    · simp only [List.getElem?_set_ne hji] at hget
      exact h4 j w3 hj hget
  | returned =>
    obtain ⟨_, _, h3⟩ := h
    exact absurd (h3 w (mem_of_getElem?_eq _ _ _ hw)) hpc

theorem inv_runWorker (n : Nat) (pc : StopPc) (s s2 : Server) (i : Nat)
    (hinv : Inv n (pc, s)) (h : runWorker s i = some s2) : Inv n (pc, s2) := by
  obtain ⟨w, hw, hcase⟩ := runWorker_cases s s2 i h
  obtain ⟨h1, h2, h3, h4, h5⟩ := hinv
  simp only at h1 h2 h3 h4 h5
  have hwok := h3 w (mem_of_getElem?_eq _ _ _ hw)
  rcases hcase with ⟨hpc, rfl⟩ | ⟨hpc, item, rest, hq, rfl⟩
  · have hnd : w.pc ≠ WorkerPc.done := by rw [hpc]; exact fun e => WorkerPc.noConfusion e
    refine ⟨h1, ?_, ?_, ?_, ?_⟩
    · simp only [List.length_set]; exact h2
    · intro w3 hm
      rcases List.mem_or_eq_of_mem_set hm with hm2 | rfl
      · exact h3 w3 hm2
      · exact workerOk_loopTest _ w hwok hpc
    · have hs := sum_map_set live s.workers i w (loopTest s.workersEn w) hw
      have hl : live w = 1 := by simp [live, hpc]
      have hl2 : live (loopTest s.workersEn w) ≤ 1 := by
        unfold live; split <;> omega
      simp only
      omega
    · exact phase_set n s pc i w _ s.workQueue h5 hw hnd
  · have hnd : w.pc ≠ WorkerPc.done := by rw [hpc]; exact fun e => WorkerPc.noConfusion e
    refine ⟨h1, ?_, ?_, ?_, ?_⟩
    · simp only [List.length_set]; exact h2
    · intro w3 hm
      rcases List.mem_or_eq_of_mem_set hm with hm2 | rfl
      · exact h3 w3 hm2
      · exact workerOk_dequeue w item hwok hpc
    · have hs := sum_map_set live s.workers i w (dequeue w item) hw
      have hl : live w = 1 := by simp [live, hpc]
      rw [hq] at h4
      cases item with
      | none =>
        have hl2 : live (dequeue w none) = 0 := by simp [live, dequeue]
        have hc : (none :: rest : List WorkPtr).count none = rest.count none + 1 := by simp
        simp only
        omega
      | some k =>
        have hl2 : live (dequeue w (some k)) = 1 := by simp [live, dequeue]
        have hc : (some k :: rest : List WorkPtr).count none = rest.count none := by simp
        simp only
        omega
    · exact phase_set n s pc i w _ rest h5 hw hnd

theorem inv_stop (n : Nat) (pc pc2 : StopPc) (s s2 : Server)
    (hinv : Inv n (pc, s)) (h : stop pc s = some (pc2, s2)) : Inv n (pc2, s2) := by
  obtain ⟨h1, h2, h3, h4, h5⟩ := hinv
  simp only at h1 h2 h3 h4 h5
  cases pc with
  | entry =>
    obtain ⟨hr, hp⟩ := h5
    simp only [stop, hr, if_true, Option.some.injEq, Prod.mk.injEq] at h
    obtain ⟨rfl, rfl⟩ := h
    exact ⟨h1, h2, h3, by simpa [pushesLeft] using h4, Nat.zero_le _, by simpa using hp⟩
  | push x =>
    obtain ⟨hx, hp⟩ := h5
    by_cases hlt : x < s.workCnt
    · simp only [stop, hlt, if_true, Option.some.injEq, Prod.mk.injEq] at h
      obtain ⟨rfl, rfl⟩ := h
      refine ⟨h1, h2, h3, ?_, ?_, ?_⟩
      · simp only [pushesLeft, queuePush, List.count_append] at h4 ⊢
        have : ([none] : List WorkPtr).count none = 1 := by simp
        omega
      · omega
      · simp only [hp]
        exact (List.replicate_succ' x none).symm
    · simp only [stop, hlt, if_false, Option.some.injEq, Prod.mk.injEq] at h
      obtain ⟨rfl, rfl⟩ := h
      have hxn : x = n := by omega
      subst hxn
      refine ⟨h1, h2, h3, ?_, Nat.zero_le _, hp, rfl, ?_⟩
      · simp only [pushesLeft] at h4 ⊢
        omega
      · intro i w hi
        exact absurd hi (Nat.not_lt_zero _)
  | join x =>
    obtain ⟨hx, hp, hen, hd⟩ := h5
    by_cases hlt : x < s.workCnt
    · simp only [stop, hlt, if_true] at h
      cases hw : s.workers[x]? with
      | none => simp [hw] at h
      | some w =>
        by_cases hdone : w.pc = WorkerPc.done
        · simp only [hw, hdone, if_true, Option.some.injEq, Prod.mk.injEq] at h
          obtain ⟨rfl, rfl⟩ := h
          refine ⟨h1, h2, h3, ?_, by omega, hp, hen, ?_⟩
          · simpa [pushesLeft] using h4
          · intro i w3 hi hget
            by_cases hix : i = x
            · subst hix
              rw [hw] at hget
              exact (Option.some.inj hget) ▸ hdone
            · exact hd i w3 (by omega) hget
        · simp [hw, hdone] at h
    · simp only [stop, hlt, if_false, Option.some.injEq, Prod.mk.injEq] at h
      obtain ⟨rfl, rfl⟩ := h
      refine ⟨h1, h2, h3, ?_, hp, rfl, ?_⟩
      · simpa [pushesLeft] using h4
      · intro w hm
        obtain ⟨i, hi, he⟩ := List.getElem_of_mem hm
        have hi2 : i < s.workers.length := hi
        exact hd i w (by omega) (by rw [List.getElem?_eq_getElem hi, he])
  | returned => simp [stop] at h

theorem stepsLeft_runWorker (pc : StopPc) (s s2 : Server) (i : Nat)
    (h : runWorker s i = some s2) : stepsLeft (pc, s2) < stepsLeft (pc, s) := by
  obtain ⟨w, hw, hcase⟩ := runWorker_cases s s2 i h
  rcases hcase with ⟨hpc, rfl⟩ | ⟨hpc, item, rest, hq, rfl⟩
  · have hs := sum_map_set atTest s.workers i w (loopTest s.workersEn w) hw
    have hl : atTest w = 1 := by simp [atTest, hpc]
    have hl2 : atTest (loopTest s.workersEn w) = 0 := by
      unfold atTest loopTest
      cases s.workersEn <;> simp
    simp only [stepsLeft]
    omega
  · have hs := sum_map_set atTest s.workers i w (dequeue w item) hw
    have hl : atTest w = 0 := by simp [atTest, hpc]
    have hl2 : atTest (dequeue w item) ≤ 1 := by
      unfold atTest; split <;> omega
    simp only [stepsLeft, hq, List.length_cons]
    omega

theorem stepsLeft_stop (pc pc2 : StopPc) (s s2 : Server)
    (h : stop pc s = some (pc2, s2)) : stepsLeft (pc2, s2) < stepsLeft (pc, s) := by
  cases pc with
  | entry =>
    by_cases hr : s.running = true
    · simp only [stop, hr, if_true, Option.some.injEq, Prod.mk.injEq] at h
      obtain ⟨rfl, rfl⟩ := h
      simp only [stepsLeft, stopLeft]
      omega
    · simp only [stop, hr, if_false, Option.some.injEq, Prod.mk.injEq] at h
      obtain ⟨rfl, rfl⟩ := h
      simp only [stepsLeft, stopLeft]
      omega
  | push x =>
    by_cases hlt : x < s.workCnt
    · simp only [stop, hlt, if_true, Option.some.injEq, Prod.mk.injEq] at h
      obtain ⟨rfl, rfl⟩ := h
      simp only [stepsLeft, stopLeft, queuePush, List.length_append, List.length_singleton]
      omega
    · simp only [stop, hlt, if_false, Option.some.injEq, Prod.mk.injEq] at h
      obtain ⟨rfl, rfl⟩ := h
      simp only [stepsLeft, stopLeft]
      omega
  | join x =>
    by_cases hlt : x < s.workCnt
    · simp only [stop, hlt, if_true] at h
      cases hw : s.workers[x]? with
      | none => simp [hw] at h
      | some w =>
        by_cases hdone : w.pc = WorkerPc.done
        · simp only [hw, hdone, if_true, Option.some.injEq, Prod.mk.injEq] at h
          obtain ⟨rfl, rfl⟩ := h
          simp only [stepsLeft, stopLeft]
          omega
        · simp [hw, hdone] at h
    · simp only [stop, hlt, if_false, Option.some.injEq, Prod.mk.injEq] at h
      obtain ⟨rfl, rfl⟩ := h
      simp only [stepsLeft, stopLeft]
      omega
  | returned => simp [stop] at h

theorem enabled_ne_nil (sys : StopPc × Server) (t : Nat) (ht : t < sys.2.workers.length + 1)
    (h : (step t sys).isSome = true) : enabled sys ≠ [] := by
  intro he
  have hm : t ∈ enabled sys := by
    unfold enabled
    exact List.mem_filter.mpr ⟨List.mem_range.mpr ht, h⟩
  rw [he] at hm
  exact absurd hm (List.not_mem_nil _)

theorem progress (n : Nat) (pc : StopPc) (s : Server) (hinv : Inv n (pc, s))
    (hpc : pc ≠ StopPc.returned) : enabled (pc, s) ≠ [] := by
  obtain ⟨h1, h2, h3, h4, h5⟩ := hinv
  simp only at h1 h2 h3 h4 h5
  cases pc with
  | entry =>
    apply enabled_ne_nil (StopPc.entry, s) 0 (Nat.succ_pos _)
    simp only [step, stop]
    split <;> rfl
  | push x =>
    apply enabled_ne_nil (StopPc.push x, s) 0 (Nat.succ_pos _)
    simp only [step, stop]
    split <;> rfl
  | join x =>
    by_cases hlt : x < s.workCnt
    · have hxl : x < s.workers.length := by omega
      have hw : s.workers[x]? = some (s.workers[x]) := List.getElem?_eq_getElem hxl
      generalize s.workers[x] = w at hw
      cases hwpc : w.pc with
      | done =>
        apply enabled_ne_nil (StopPc.join x, s) 0 (Nat.succ_pos _)
        simp [step, stop, hlt, hw, hwpc]
      | test =>
        apply enabled_ne_nil (StopPc.join x, s) (x + 1) (by simpa using hxl)
        simp [step, runWorker, hw, hwpc]
      | pop =>
        have hl : live w = 1 := by simp [live, hwpc]
        have hsum := le_sum_map live s.workers w (mem_of_getElem?_eq _ _ _ hw)
        have hcount : 1 ≤ s.workQueue.count none := by
          simp only [pushesLeft] at h4
          omega
        cases hq : s.workQueue with
        | nil => rw [hq] at hcount; simp at hcount
        | cons item rest =>
          apply enabled_ne_nil (StopPc.join x, s) (x + 1) (by simpa using hxl)
          simp [step, runWorker, queuePop, hw, hwpc, hq]
    · apply enabled_ne_nil (StopPc.join x, s) 0 (Nat.succ_pos _)
      simp [step, stop, hlt]
  | returned => exact absurd rfl hpc

theorem next_step (c : Nat) (sys sys2 : StopPc × Server) (h : next c sys = some sys2) :
    ∃ t, step t sys = some sys2 := by
  unfold next at h
  split at h
  · exact Option.noConfusion h
  · exact ⟨_, h⟩

theorem next_none (c : Nat) (sys : StopPc × Server) (h : next c sys = none) :
    enabled sys = [] := by
  by_contra hne
  have hpos : 0 < (enabled sys).length := List.length_pos.mpr hne
  have hlt : c % (enabled sys).length < (enabled sys).length := Nat.mod_lt _ hpos
  have hget : (enabled sys)[c % (enabled sys).length]?
      = some ((enabled sys)[c % (enabled sys).length]) := List.getElem?_eq_getElem hlt
  have hmem : (enabled sys)[c % (enabled sys).length] ∈ enabled sys := List.getElem_mem hlt
  have hsome : (step ((enabled sys)[c % (enabled sys).length]) sys).isSome = true := by
    have := hmem
    unfold enabled at this
    exact (List.mem_filter.mp this).2
  unfold next at h
  rw [hget] at h
  simp only at h
  rw [h] at hsome
  exact Bool.noConfusion hsome

theorem step_inv (n t : Nat) (sys sys2 : StopPc × Server) (hinv : Inv n sys)
    (h : step t sys = some sys2) : Inv n sys2 ∧ stepsLeft sys2 < stepsLeft sys := by
  obtain ⟨pc, s⟩ := sys
  obtain ⟨pc2, s2⟩ := sys2
  cases t with
  | zero =>
    exact ⟨inv_stop n pc pc2 s s2 hinv h, stepsLeft_stop pc pc2 s s2 h⟩
  | succ i =>
    simp only [step, Option.map_eq_some', Prod.mk.injEq] at h
    obtain ⟨s3, hs3, rfl, rfl⟩ := h
    exact ⟨inv_runWorker n pc s s3 i hinv hs3, stepsLeft_runWorker pc s s3 i hs3⟩

theorem stepsLeft_pos (sys : StopPc × Server) (h : sys.1 ≠ StopPc.returned) :
    0 < stepsLeft sys := by
  obtain ⟨pc, s⟩ := sys
  cases pc <;> simp only [stepsLeft, stopLeft] <;> first | omega | exact absurd rfl h

theorem run_inv (n : Nat) :
    ∀ (sch : List Nat) (sys : StopPc × Server), Inv n sys → Inv n (run sch sys) := by
  intro sch
  induction sch with
  | nil => intro sys h; exact h
  | cons c rest ih =>
    intro sys h
    unfold run
    cases hn : next c sys with
    | none => exact h
    | some sys2 =>
      obtain ⟨t, ht⟩ := next_step c sys sys2 hn
      exact ih sys2 (step_inv n t sys sys2 h ht).1

theorem run_returns (n : Nat) :
    ∀ (sch : List Nat) (sys : StopPc × Server), Inv n sys → stepsLeft sys ≤ sch.length →
      (run sch sys).1 = StopPc.returned := by
  intro sch
  induction sch with
  | nil =>
    intro sys _ hfuel
    by_contra hne
    have := stepsLeft_pos sys hne
    simp at hfuel
    omega
  | cons c rest ih =>
    intro sys hinv hfuel
    unfold run
    cases hn : next c sys with
    | none =>
      by_contra hne
      exact progress n sys.1 sys.2 hinv hne (next_none c sys hn)
    | some sys2 =>
      obtain ⟨t, ht⟩ := next_step c sys sys2 hn
      obtain ⟨hinv2, hdec⟩ := step_inv n t sys sys2 hinv ht
      simp only [List.length_cons] at hfuel
      exact ih sys2 hinv2 (by omega)

/-- Claim C30. On a running server with one worker thread per `workCnt`, each
consistent, `stop()` interleaved in any way with the workers returns within
`stepsLeft` steps; it has then pushed exactly `workCnt` null items and nothing
else, `running_` is false, and every worker has returned, having executed
exactly the non-null items it dequeued, in the order it dequeued them, and
having dequeued a null item at most as its last one. A worker in `pop()` that
dequeues a null item returns without executing anything, and `stop()` on a
server that is not running returns at once and changes nothing. -/
theorem stop_wakes_workers (s : Server) (sch : List Nat)
    (hrun : s.running = true) (hlen : s.workers.length = s.workCnt)
    (hok : ∀ w ∈ s.workers, WorkerOk w) (hpushed : s.pushed = [])
    (hfuel : stepsLeft (StopPc.entry, s) ≤ sch.length) :
    (run sch (StopPc.entry, s)).1 = StopPc.returned
      ∧ (run sch (StopPc.entry, s)).2.pushed = List.replicate s.workCnt none
      ∧ (run sch (StopPc.entry, s)).2.running = false
      ∧ (∀ w ∈ (run sch (StopPc.entry, s)).2.workers, w.pc = WorkerPc.done ∧ WorkerOk w)
      ∧ (∀ (s1 : Server) (i : Nat) (w : Worker) (rest : List WorkPtr),
          s1.workers[i]? = some w → w.pc = WorkerPc.pop → s1.workQueue = none :: rest →
          ∃ s2, runWorker s1 i = some s2 ∧ s2.workQueue = rest
            ∧ s2.workers[i]? = some ⟨WorkerPc.done, w.popped ++ [none], w.executed⟩)
      ∧ (∀ s1 : Server, s1.running = false →
          stop StopPc.entry s1 = some (StopPc.returned, s1)) := by
  have hinv : Inv s.workCnt (StopPc.entry, s) := by
    refine ⟨rfl, hlen, hok, ?_, hrun, hpushed⟩
    simp only [pushesLeft]
    have : ∀ l : List Worker, (l.map live).sum ≤ l.length := by
      intro l
      induction l with
      | nil => simp
      | cons x xs ih =>
        have : live x ≤ 1 := by unfold live; split <;> omega
        simp only [List.map_cons, List.sum_cons, List.length_cons]
        omega
    have := this s.workers
    omega
  have hret := run_returns s.workCnt sch _ hinv hfuel
  have hfin := run_inv s.workCnt sch _ hinv
  obtain ⟨_, _, h3, _, h5⟩ := hfin
  rw [hret] at h5
  obtain ⟨p1, p2, p3⟩ := h5
  refine ⟨hret, p1, p2, fun w hw => ⟨p3 w hw, h3 w hw⟩, ?_, ?_⟩
  · intro s1 i w rest hw hpc hq
    have hi : i < s1.workers.length := by
      obtain ⟨hi, _⟩ := List.getElem?_eq_some_iff.mp hw
      exact hi
    refine ⟨{ s1 with workQueue := rest, workers := s1.workers.set i (dequeue w none) }, ?_, rfl, ?_⟩
    · simp [runWorker, queuePop, hw, hpc, hq]
    · simp [List.getElem?_set_self, hi, dequeue]
  · intro s1 hr
    simp [stop, hr]

theorem stop_wakes_workers_witness :
    (run [3, 1, 4, 1, 5, 9, 2, 6, 5, 3, 5, 8, 9, 7] (StopPc.entry, sampleServer)).1
        = StopPc.returned
      ∧ (run [3, 1, 4, 1, 5, 9, 2, 6, 5, 3, 5, 8, 9, 7] (StopPc.entry, sampleServer)).2.pushed
        = [none, none]
      ∧ (run [3, 1, 4, 1, 5, 9, 2, 6, 5, 3, 5, 8, 9, 7] (StopPc.entry, sampleServer)).2.running
        = false
      ∧ (run [3, 1, 4, 1, 5, 9, 2, 6, 5, 3, 5, 8, 9, 7] (StopPc.entry, sampleServer)).2.workers
        = [⟨WorkerPc.done, [some 5, none], [5]⟩, ⟨WorkerPc.done, [none], []⟩] :=
  ⟨(stop_wakes_workers sampleServer [3, 1, 4, 1, 5, 9, 2, 6, 5, 3, 5, 8, 9, 7]
      (by decide) (by decide) (by decide) (by decide) (by decide)).1,
    (stop_wakes_workers sampleServer [3, 1, 4, 1, 5, 9, 2, 6, 5, 3, 5, 8, 9, 7]
      (by decide) (by decide) (by decide) (by decide) (by decide)).2.1,
    (stop_wakes_workers sampleServer [3, 1, 4, 1, 5, 9, 2, 6, 5, 3, 5, 8, 9, 7]
      (by decide) (by decide) (by decide) (by decide) (by decide)).2.2.1,
    by decide⟩

end EpicsV3

end Rogue
